import Mathlib

/-!
# textSearch: relevance scoring and excerpt extraction

A shallow embedding of the Go package `search_engine` (files `file_finder.go`,
`content_extractor.go`, `search_engine.go`) together with machine-checked
statements about it.

Modelling conventions.

* A Go `string` is the list of its Unicode code points (`GoString`); `len` is the
  UTF-8 byte length.  Library functions of `strings` and `path/filepath` are
  re-implemented by structural recursion following their documentation.  Case
  mapping is the ASCII one (`A`..`Z`), white space is the full `unicode.IsSpace`
  set, the path separator is `/`.
* The `float64` score of a file (`calculateFileScore`) is an exact rational number:
  every constant of the source is a decimal fraction, only `+`, `*`, `/ 4.0` and
  comparisons are used, and the statements about it are bounds and comparisons.
  The `float64` score of a line (`scoreLineRelevance`) is computed with the rounding
  of IEEE 754 binary64 (`float64`: round to nearest, ties to even, after every
  operation), since its exact value depends on the order of the additions.
* A Go `int` is a 64-bit two's complement integer: values are integers in
  `[-2^63, 2^63)` and arithmetic wraps around (`wrapInt`).
* `sort.Slice` is the stable insertion sort that Go runs on short slices; no
  statement below depends on how ties are ordered.
* An `fs.FS` is given by the sequence of callback invocations that `fs.WalkDir`
  performs from the root `.` and by the outcome of `fs.ReadFile` on each path.
* The excerpt functions (`getContentSample`, `formatRelevantSections`,
  `ExtractRelevantContent`) return the UTF-8 bytes of their result (`GoBytes`), since
  the sample is cut at a byte offset; a run-time panic is the value `none`.
* The map `fileScores` of `main` is an association list in order of first insertion.
-/

namespace TextSearch

/-! ## Strings -/

/-- A Go string, as the list of its code points. -/
abbrev GoString := List Char

/-- Go `len(s)`: the number of bytes of the UTF-8 encoding. -/
def len (s : GoString) : Nat := (s.map Char.utf8Size).sum

/-- Go `s[:n]` for a cut that falls on a code point boundary: the longest prefix of
whole code points spanning at most `n` bytes. -/
def sliceTo : GoString → Nat → GoString
  | [], _ => []
  | c :: cs, n => if c.utf8Size ≤ n then c :: sliceTo cs (n - c.utf8Size) else []

/-- Go `unicode.IsSpace`. -/
def unicode.IsSpace (r : Char) : Bool :=
  let n := r.toNat
  n == 0x20 || (decide (0x09 ≤ n) && decide (n ≤ 0x0D)) || n == 0x85 || n == 0xA0 ||
  n == 0x1680 || (decide (0x2000 ≤ n) && decide (n ≤ 0x200A)) || n == 0x2028 ||
  n == 0x2029 || n == 0x202F || n == 0x205F || n == 0x3000

/-- Go `unicode.ToLower` on the ASCII range; other code points are unchanged. -/
def unicode.ToLower (r : Char) : Char :=
  if 65 ≤ r.toNat ∧ r.toNat ≤ 90 then Char.ofNat (r.toNat + 32) else r

/-- Go `strings.ToLower`. -/
def strings.ToLower (s : GoString) : GoString := s.map unicode.ToLower

/-- Go `strings.HasPrefix`. -/
def strings.HasPrefix : GoString → GoString → Bool
  | _, [] => true
  | [], _ :: _ => false
  | c :: s, d :: p => c == d && strings.HasPrefix s p

/-- Go `strings.HasSuffix`. -/
def strings.HasSuffix (s suffix : GoString) : Bool :=
  strings.HasPrefix s.reverse suffix.reverse

/-- Go `strings.TrimSuffix`. -/
def strings.TrimSuffix (s suffix : GoString) : GoString :=
  if strings.HasSuffix s suffix then s.take (s.length - suffix.length) else s

/-- Go `strings.Contains`: `substr` occurs in `s` as a contiguous block. -/
def strings.Contains : GoString → GoString → Bool
  | [], substr => strings.HasPrefix [] substr
  | c :: s, substr => strings.HasPrefix (c :: s) substr || strings.Contains s substr

/-- Scan for `strings.Count`: `skip` is the number of code points still covered by the
occurrence counted last (occurrences do not overlap). -/
def strings.countFrom (substr : GoString) : GoString → Nat → Nat
  | [], _ => 0
  | _ :: s, skip + 1 => strings.countFrom substr s skip
  | c :: s, 0 =>
    if strings.HasPrefix (c :: s) substr then 1 + strings.countFrom substr s (substr.length - 1)
    else strings.countFrom substr s 0

/-- Go `strings.Count`: the number of non-overlapping occurrences of `substr`; for the
empty `substr` it is one more than the number of code points. -/
def strings.Count (s substr : GoString) : Nat :=
  if substr = [] then s.length + 1 else strings.countFrom substr s 0

/-- Go `strings.Split` for a separator of one code point. -/
def strings.Split (s : GoString) (sep : Char) : List GoString :=
  match s with
  | [] => [[]]
  | c :: cs =>
    if c = sep then [] :: strings.Split cs sep
    else
      match strings.Split cs sep with
      | [] => [[c]]
      | w :: ws => (c :: w) :: ws

/-- Go `strings.Join`. -/
def strings.Join : List GoString → GoString → GoString
  | [], _ => []
  | [a], _ => a
  | a :: b :: rest, sep => a ++ sep ++ strings.Join (b :: rest) sep

/-- Loop of `strings.FieldsFunc`: `cur` is the field being read, reversed. -/
def strings.fieldsLoop (f : Char → Bool) : GoString → GoString → List GoString
  | [], cur => if cur = [] then [] else [cur.reverse]
  | c :: cs, cur =>
    if f c then
      if cur = [] then strings.fieldsLoop f cs [] else cur.reverse :: strings.fieldsLoop f cs []
    else strings.fieldsLoop f cs (c :: cur)

/-- Go `strings.FieldsFunc`: the maximal runs of code points not satisfying `f`. -/
def strings.FieldsFunc (s : GoString) (f : Char → Bool) : List GoString :=
  strings.fieldsLoop f s []

/-- Go `strings.Fields`: split around runs of white space. -/
def strings.Fields (s : GoString) : List GoString := strings.FieldsFunc s unicode.IsSpace

/-- Go `strings.TrimFunc`: drop the leading and trailing code points satisfying `f`. -/
def strings.TrimFunc (s : GoString) (f : Char → Bool) : GoString :=
  ((s.dropWhile f).reverse.dropWhile f).reverse

/-- Go `strings.TrimSpace`. -/
def strings.TrimSpace (s : GoString) : GoString := strings.TrimFunc s unicode.IsSpace

/-- Go `strings.Trim`: drop the leading and trailing code points that occur in `cutset`. -/
def strings.Trim (s cutset : GoString) : GoString :=
  strings.TrimFunc s (fun r => cutset.contains r)

/-! ## Paths (`path/filepath`, separator `/`) -/

/-- Go `filepath.Ext`: the suffix beginning at the final dot of the final element. -/
def filepath.Ext (path : GoString) : GoString :=
  let last := (path.reverse.takeWhile (fun r => r != '/')).reverse
  if last.contains '.' then
    '.' :: (last.reverse.takeWhile (fun r => r != '.')).reverse
  else []

/-- Go `filepath.Base`: the last element of the path, after removing trailing slashes. -/
def filepath.Base (path : GoString) : GoString :=
  if path = [] then ['.']
  else
    let stripped := (path.reverse.dropWhile (fun r => r == '/')).reverse
    let last := (stripped.reverse.takeWhile (fun r => r != '/')).reverse
    if last = [] then ['/'] else last

/-- Element stack of `filepath.Clean`: `.` and empty elements are dropped, `..` removes
the element before it, or is kept when there is none and the path is not rooted. -/
def filepath.cleanStep (rooted : Bool) (stack : List GoString) (elem : GoString) :
    List GoString :=
  if elem = [] ∨ elem = ['.'] then stack
  else if elem = ['.', '.'] then
    match stack with
    | [] => if rooted then [] else [elem]
    | top :: below => if top = ['.', '.'] then elem :: stack else below
  else elem :: stack

/-- Go `filepath.Clean`. -/
def filepath.Clean (path : GoString) : GoString :=
  let rooted := strings.HasPrefix path ['/']
  let stack := (strings.Split path '/').foldl (filepath.cleanStep rooted) []
  let body := strings.Join stack.reverse ['/']
  let out := if rooted then '/' :: body else body
  if out = [] then ['.'] else out

/-- Go `filepath.Dir`: `Clean` of the path up to and including its final separator. -/
def filepath.Dir (path : GoString) : GoString :=
  filepath.Clean (path.reverse.dropWhile (fun r => r != '/')).reverse

/-! ## Query normalisation (`file_finder.go`) -/

/-- The table `stopWords` of `isStopWord`. -/
def stopWords : List GoString :=
  ["a", "an", "and", "are", "as", "at",
   "be", "by", "for", "from", "has", "he",
   "in", "is", "it", "its", "of", "on",
   "that", "the", "to", "was", "will", "with",
   "como", "con", "del", "el", "en", "es",
   "la", "para", "por", "que", "un", "una"].map String.toList

/-- Source `isStopWord`: lookup in the stop word table. -/
def isStopWord (word : GoString) : Bool := stopWords.contains word

/-- The cutset `.,!?:;()[]{}"'` that `normalizeQuery` and `scoreFileContent` pass to
`strings.Trim`. -/
def punctuation : GoString :=
  ['.', ',', '!', '?', ':', ';', '(', ')', '[', ']', '{', '}', '"', Char.ofNat 39]

/-- Source `generateTermVariations`. -/
def generateTermVariations (term : GoString) : List GoString :=
  let variations : List GoString := []
  let variations :=
    if len term > 3 then
      if strings.HasSuffix term ['s'] && !strings.HasSuffix term ['s', 's'] && len term > 3 then
        variations ++ [sliceTo term (len term - 1)]
      else variations
    else variations
  if len term > 5 then
    let variations :=
      if strings.HasSuffix term ['i', 'n', 'g'] then variations ++ [sliceTo term (len term - 3)]
      else variations
    if strings.HasSuffix term ['e', 'd'] then variations ++ [sliceTo term (len term - 2)]
    else variations
  else variations

/-- First half of `normalizeQuery`: the raw tokens `allTerms`. -/
def queryTokens (query : GoString) : List GoString :=
  if strings.Contains query ['|'] then
    (strings.Split query '|').foldl
      (fun allTerms pipeTerm => allTerms ++ strings.Fields (strings.TrimSpace pipeTerm)) []
  else strings.Fields query

/-- Body of the token loop of `normalizeQuery`: what one token appends to `normalized`. -/
def normalizeStep (normalized : List GoString) (term : GoString) : List GoString :=
  let term := strings.ToLower (strings.TrimSpace term)
  if isStopWord term then normalized
  else
    let cleaned := strings.Trim term punctuation
    if len cleaned > 1 then (normalized ++ [cleaned]) ++ generateTermVariations cleaned
    else normalized

/-- Body of the duplicate-removal loop of `normalizeQuery`: the state is the key set of
the map `seen` and the slice `unique`. -/
def uniqueStep (st : List GoString × List GoString) (term : GoString) :
    List GoString × List GoString :=
  if st.1.contains term then st else (term :: st.1, st.2 ++ [term])

/-- Source `normalizeQuery`. -/
def normalizeQuery (query : GoString) : List GoString :=
  let allTerms := queryTokens query
  let normalized := allTerms.foldl normalizeStep []
  (normalized.foldl uniqueStep ([], [])).2

/-! ## File system and file scoring (`file_finder.go`) -/

/-- Go `error` values. -/
structure GoError where
  msg : GoString
deriving DecidableEq

/-- One invocation `fn(path, d, err)` of the callback of `fs.WalkDir`: `isDir` is
`d.IsDir()` and `err` tells whether the `err` argument is non-nil. -/
structure WalkStep where
  path : GoString
  isDir : Bool
  err : Bool
deriving DecidableEq

/-- An `fs.FS` as the program observes it: the callback invocations of a complete
`fs.WalkDir` from the root, in order, and the result of `fs.ReadFile` (`none` when the
read fails).  A walk reports every file once (`filesOnce`). -/
structure FS where
  walk : List WalkStep
  readFile : GoString → Option GoString
  filesOnce : ((walk.filter (fun s => !s.err && !s.isDir)).map (fun s => s.path)).Nodup

/-- Source `FileFinder`. -/
structure FileFinder where
  fs : FS

/-- Source `FileMatch` (`search_engine.go`). -/
structure FileMatch where
  Path : GoString
  Score : ℚ
  Reason : GoString
  FileName : GoString
deriving DecidableEq

/-- The running `score` and `reasons` of `calculateFileScore`. -/
abbrev ScoreState := ℚ × List GoString

/-- The rune predicate given to `strings.FieldsFunc` in `isWordInString` and in
`calculateFileScore`: true on everything but ASCII letters and digits. -/
def notAlnum (r : Char) : Bool :=
  !((decide (r ≥ 'a') && decide (r ≤ 'z')) || (decide (r ≥ 'A') && decide (r ≤ 'Z')) ||
    (decide (r ≥ '0') && decide (r ≤ '9')))

/-- Source `isWordInString`. -/
def isWordInString (text word : GoString) : Bool :=
  (strings.FieldsFunc text notAlnum).any (fun w => decide (strings.ToLower w = word))

/-- The table `docExtensions` of `isDocumentationFile`. -/
def docExtensions : List GoString :=
  [".md", ".html", ".txt", ".json", ".yaml", ".yml", ".rst", ".adoc"].map String.toList

/-- Source `isDocumentationFile`. -/
def isDocumentationFile (path : GoString) : Bool :=
  let ext := strings.ToLower (filepath.Ext path)
  let base := filepath.Base path
  if strings.HasPrefix base ['.'] then false else docExtensions.contains ext

/-- Source `calculateFileScore`, lines 95-105: the loop over `dirComponents`, left at the
first component that equals or contains the term. -/
def dirComponentLoop (term termLower : GoString) : List GoString → ScoreState → ScoreState
  | [], st => st
  | component :: rest, st =>
    if component = termLower then
      (st.1 + 2.5, st.2 ++ ["directory exact match '".toList ++ term ++ "'".toList])
    else if strings.Contains component termLower then
      (st.1 + 1.8, st.2 ++ ["directory contains '".toList ++ term ++ "'".toList])
    else dirComponentLoop term termLower rest st

/-- Source `calculateFileScore`, lines 90-112: the directory signal of one term. -/
def dirStep (dirPath : GoString) (st : ScoreState) (term : GoString) : ScoreState :=
  let termLower := strings.ToLower term
  let dirComponents := strings.Split dirPath '/'
  let st := dirComponentLoop term termLower dirComponents st
  if strings.Contains dirPath termLower &&
      !strings.Contains (strings.Join dirComponents []) termLower then
    (st.1 + 1.2, st.2 ++ ["path contains '".toList ++ term ++ "'".toList])
  else st

/-- Source `calculateFileScore`, lines 142-153: the loop over the filename words, left at
the first partial match. -/
def partialWordLoop (term termLower : GoString) : List GoString → ScoreState → ScoreState
  | [], st => st
  | word :: rest, st =>
    if len word < 3 || len termLower < 3 then partialWordLoop term termLower rest st
    else if (decide (len termLower > 3) && strings.Contains termLower word) ||
        (decide (len word > 3) && strings.Contains word termLower) then
      (st.1 + 0.5, st.2 ++ ["partial filename match '".toList ++ term ++ "'".toList])
    else partialWordLoop term termLower rest st

/-- Source `calculateFileScore`, lines 115-156: the filename signal of one term. -/
def fileNameStep (fileNameNoExt : GoString) (st : ScoreState) (term : GoString) : ScoreState :=
  let termLower := strings.ToLower term
  if fileNameNoExt = termLower then
    (st.1 + 2.0, st.2 ++ ["exact filename match".toList])
  else if strings.Contains fileNameNoExt termLower then
    (st.1 + 1.5, st.2 ++ ["filename contains '".toList ++ term ++ "'".toList])
  else if isWordInString fileNameNoExt termLower then
    (st.1 + 1.0, st.2 ++ ["filename word match '".toList ++ term ++ "'".toList])
  else
    partialWordLoop term termLower (strings.FieldsFunc fileNameNoExt notAlnum) st

/-- Source `scoreFileContent`, lines 201-213: the loop over the content words, left at
the first partial match. -/
def contentWordLoop (termLower : GoString) : List GoString → ℚ → ℚ
  | [], score => score
  | word :: rest, score =>
    let cleanWord := strings.Trim word punctuation
    if len cleanWord < 3 then contentWordLoop termLower rest score
    else if (decide (len termLower > 3) && strings.Contains termLower cleanWord) ||
        (decide (len cleanWord > 3) && strings.Contains cleanWord termLower) then
      score + 0.05
    else contentWordLoop termLower rest score

/-- Source `scoreFileContent`, lines 190-215: one term; the state is `score` and
`matchedTerms`. -/
def contentStep (contentStr : GoString) (st : ℚ × Nat) (term : GoString) : ℚ × Nat :=
  let termLower := strings.ToLower term
  if strings.Contains contentStr termLower then
    (st.1 + (strings.Count contentStr termLower : ℚ) * 0.1, st.2 + 1)
  else
    (contentWordLoop termLower (strings.Fields contentStr) st.1, st.2)

/-- Source `scoreFileContent`. -/
def scoreFileContent (ff : FileFinder) (filePath : GoString) (queryTerms : List GoString) :
    ℚ × GoString :=
  match ff.fs.readFile filePath with
  | none => (0, [])
  | some content =>
    let contentStr := strings.ToLower content
    let st := queryTerms.foldl (contentStep contentStr) (0, 0)
    if st.1 = 0 then (0, [])
    else
      let score := if st.2 = queryTerms.length then st.1 + 0.3 else st.1
      (score, "content matches".toList)

/-- Source `calculateFileScore`. -/
def calculateFileScore (ff : FileFinder) (filePath : GoString) (queryTerms : List GoString) :
    ℚ × GoString :=
  if queryTerms.length = 0 then (0, [])
  else
    let fileName := strings.ToLower (filepath.Base filePath)
    let fileNameNoExt := strings.ToLower (strings.TrimSuffix fileName (filepath.Ext fileName))
    let dirPath := strings.ToLower (filepath.Dir filePath)
    let st := queryTerms.foldl (dirStep dirPath) ((0, []) : ScoreState)
    let st := queryTerms.foldl (fileNameStep fileNameNoExt) st
    let content := scoreFileContent ff filePath queryTerms
    let score := st.1 + content.1 * 0.3
    let reasons := if content.2 ≠ [] then st.2 ++ [content.2] else st.2
    let score :=
      if score > 0 then
        let scaled := score / 4.0
        if scaled > 1.0 then 1.0 else scaled
      else score
    (score, strings.Join reasons ", ".toList)

/-- Go `sort.Slice`: a stable insertion sort; `less a b` says that `a` must come before
`b`. -/
def sort.Slice {α : Type} (x : List α) (less : α → α → Bool) : List α :=
  x.insertionSort (fun a b => less b a = false)

/-- Go `fs.WalkDir` from the root: the callback is run on every step in order, until it
returns a non-nil error, which is then the result of the walk. -/
def fs.WalkDir {σ : Type} (fsys : FS) (fn : σ → WalkStep → σ × Option GoError) (init : σ) :
    σ × Option GoError :=
  fsys.walk.foldl
    (fun acc step =>
      match acc.2 with
      | some _ => acc
      | none => fn acc.1 step)
    (init, none)

/-- Source `FindRelevantFiles`, lines 28-54: the callback given to `fs.WalkDir`; the state
is `allMatches`. -/
def walkFn (ff : FileFinder) (queryTerms : List GoString) (allMatches : List FileMatch)
    (step : WalkStep) : List FileMatch × Option GoError :=
  if step.err then (allMatches, none)
  else if step.isDir then (allMatches, none)
  else if !isDocumentationFile step.path then (allMatches, none)
  else
    let r := calculateFileScore ff step.path queryTerms
    if r.1 > 0 then
      (allMatches ++
        [{ Path := step.path, Score := r.1, Reason := r.2, FileName := filepath.Base step.path }],
        none)
    else (allMatches, none)

/-- Source `FindRelevantFiles`: the pair of returned values `([]FileMatch, error)`. -/
def FindRelevantFiles (ff : FileFinder) (query : GoString) (maxFiles : Int) :
    List FileMatch × Option GoError :=
  let queryTerms := normalizeQuery query
  let walked := fs.WalkDir ff.fs (walkFn ff queryTerms) []
  match walked.2 with
  | some err => ([], some err)
  | none =>
    let allMatches := sort.Slice walked.1 (fun a b => decide (a.Score > b.Score))
    if maxFiles > 0 ∧ (allMatches.length : Int) > maxFiles then
      (allMatches.take maxFiles.toNat, none)
    else if maxFiles ≤ 0 then ([], none)
    else (allMatches, none)

/-! ## Excerpt extraction (`content_extractor.go`) -/

/-- Two's complement reduction of an integer to the range of a 64-bit Go `int`. -/
def wrapInt (x : Int) : Int := (x + 2 ^ 63) % 2 ^ 64 - 2 ^ 63

/-- Source `maxInt`. -/
def maxInt (a b : Int) : Int := if a > b then a else b

/-- Source `minInt`. -/
def minInt (a b : Int) : Int := if a < b then a else b

/-- Source `ContentSection`. -/
structure ContentSection where
  LineNumber : Int
  EndLine : Int
  Score : ℚ
  Content : GoString
deriving DecidableEq

/-- The class `\\w` of Go regular expressions: ASCII letters, digits and `_`. -/
def isWordRune (r : Char) : Bool := !notAlnum r || r == '_'

/-- The assertion `\\b` between two neighbouring positions (`none` is an end of the
text): exactly one side is a word rune. -/
def wordBoundary (before after : Option Char) : Bool :=
  (before.any isWordRune) != (after.any isWordRune)

/-- Match of `\\b term \\b` that starts at the head of `text`; `prev` is the rune before
it. -/
def exactMatchHere (prev : Option Char) (text term : GoString) : Bool :=
  strings.HasPrefix text term && wordBoundary prev text.head? &&
    wordBoundary (if term = [] then prev else term.getLast?) (text.drop term.length).head?

/-- Search for a match of `\\b term \\b` at any position of `text`. -/
def exactMatchFrom (prev : Option Char) : GoString → GoString → Bool
  | [], term => exactMatchHere prev [] term
  | c :: text, term =>
    exactMatchHere prev (c :: text) term || exactMatchFrom (some c) text term

/-- Source `isExactWordMatch`: `regexp.MatchString` of the quoted term between two `\\b`. -/
def isExactWordMatch (text term : GoString) : Bool := exactMatchFrom none text term

/-- Source `isImportantLine`. -/
def isImportantLine (line : GoString) : Bool :=
  let line := strings.TrimSpace line
  if strings.HasPrefix line "#".toList || strings.HasPrefix line "##".toList then true
  else if strings.Contains line "http://".toList || strings.Contains line "https://".toList then
    true
  else if strings.Contains line "GET ".toList || strings.Contains line "POST ".toList ||
      strings.Contains line "PUT ".toList || strings.Contains line "DELETE ".toList then true
  else if strings.Contains line "curl".toList then true
  else if strings.HasPrefix line ['{'] || strings.HasPrefix line ['['] then true
  else if strings.HasPrefix line "```".toList then true
  else if strings.Contains line ":".toList && (strings.Contains line "string".toList ||
      strings.Contains line "int".toList || strings.Contains line "bool".toList) then true
  else false

/-- The number of binary digits of `n` (0 for `n = 0`); `fuel` bounds the number of
halvings and `fuel = n` is always enough. -/
def bitLength : Nat → Nat → Nat
  | 0, _ => 0
  | fuel + 1, n => if n = 0 then 0 else bitLength fuel (n / 2) + 1

/-- The binary exponent of a non-zero rational `x`: the integer `e` with
`2^e ≤ |x| < 2^(e+1)`. -/
def binaryExponent (x : ℚ) : Int :=
  let a : Int := (bitLength x.num.natAbs x.num.natAbs : Int) - (bitLength x.den x.den : Int)
  if (2 : ℚ) ^ a ≤ |x| then a else a - 1

/-- The `float64` nearest to a real number (IEEE 754 binary64, round to nearest, ties to
even): the significand has 53 bits.  The exponent range is not limited: the line scores
computed below lie between 0.2 and 2^65 for every slice a Go program can hold, far inside
the normal range of binary64. -/
def float64 (x : ℚ) : ℚ :=
  if x = 0 then 0
  else
    let ulp : ℚ := (2 : ℚ) ^ (binaryExponent x - 52)
    let m : ℚ := x / ulp
    let f : Int := ⌊m⌋
    let r : ℚ := m - (f : ℚ)
    let n : Int := if r < 1 / 2 then f else if 1 / 2 < r then f + 1
      else if f % 2 = 0 then f else f + 1
    (n : ℚ) * ulp

/-- Source `scoreLineRelevance`, lines 85-103: one term; the state is `score` and
`matchedTerms`.  Every `+=` on the `float64` variable `score` rounds its result; the
constants 1.0 and 0.5 are binary fractions, 0.3 is the `float64` nearest to 3/10. -/
def lineStep (line lineLower : GoString) (st : ℚ × Nat) (term : GoString) : ℚ × Nat :=
  let termLower := strings.ToLower term
  if strings.Contains lineLower termLower then
    let score :=
      if isExactWordMatch lineLower termLower then float64 (st.1 + 1.0)
      else float64 (st.1 + 0.5)
    let score := if isImportantLine line then float64 (score + float64 0.3) else score
    (score, st.2 + 1)
  else st

/-- Source `scoreLineRelevance`; line 107 is
`score += 0.2 * float64(matchedTerms-1)`: a conversion, a product and a sum, each
rounded (the product and the sum are not fused, as on amd64). -/
def scoreLineRelevance (line : GoString) (queryTerms : List GoString) : ℚ :=
  if queryTerms.length = 0 then 0
  else
    let lineLower := strings.ToLower line
    let st := queryTerms.foldl (lineStep line lineLower) (0, 0)
    if st.2 > 1 then
      float64 (st.1 + float64 (float64 0.2 * float64 ((st.2 - 1 : Nat) : ℚ)))
    else st.1

/-- The integers `start, start + 1, ..` below `stop`: the values of `i` in a loop
`for i := start; i < stop; i++`. -/
def intRange (start stop : Int) : List Int :=
  (List.range (stop - start).toNat).map (fun (k : Nat) => start + (k : Int))

/-- Source `expandSectionsWithContext`, lines 174-210: the loop over `sections`; the
state is `expandedSections` and the key set of the map `usedLines`. -/
def expandLoop (lines : List GoString) (contextLines : Int) :
    List ContentSection → List ContentSection → List Int → List ContentSection
  | [], expandedSections, _ => expandedSections
  | sec :: rest, expandedSections, usedLines =>
    if expandedSections.length ≥ 5 then expandedSections
    else
      let start := maxInt 0 (wrapInt (sec.LineNumber - contextLines))
      let stop := minInt (lines.length : Int) (wrapInt (wrapInt (sec.LineNumber + contextLines) + 1))
      let hasOverlap := (intRange start stop).any (fun i => usedLines.contains i)
      if !hasOverlap then
        let contextContent := (intRange start stop).map (fun i => lines.getD i.toNat [])
        expandLoop lines contextLines rest
          (expandedSections ++
            [{ LineNumber := start, Score := sec.Score,
               Content := strings.Join contextContent ['\n'], EndLine := wrapInt (stop - 1) }])
          (usedLines ++ intRange start stop)
      else expandLoop lines contextLines rest expandedSections usedLines

/-- Source `expandSectionsWithContext`. -/
def expandSectionsWithContext (lines : List GoString) (sections : List ContentSection)
    (contextLines : Int) : List ContentSection :=
  if sections.length = 0 then sections
  else expandLoop lines contextLines sections [] []

/-- Source `findRelevantSections`, lines 53-62: the scored lines, from line index `i` on. -/
def scoreLines (queryTerms : List GoString) : Nat → List GoString → List ContentSection
  | _, [] => []
  | i, line :: rest =>
    let score := scoreLineRelevance line queryTerms
    if score > 0 then
      { LineNumber := (i : Int), EndLine := 0, Score := score, Content := line } ::
        scoreLines queryTerms (i + 1) rest
    else scoreLines queryTerms (i + 1) rest

/-- Source `findRelevantSections`. -/
def findRelevantSections (content : GoString) (queryTerms : List GoString)
    (contextLines : Int) : List ContentSection :=
  let lines := strings.Split content '\n'
  let sections := scoreLines queryTerms 0 lines
  let sections := sort.Slice sections (fun a b => decide (a.Score > b.Score))
  expandSectionsWithContext lines sections contextLines

/-! ## Notions used in the statements, and the file systems of the tests -/

/-- The conditions under which the callback of `FindRelevantFiles` records a step of the
walk: no walk error, not a directory, a documentation file, and a positive score. -/
def eligible (ff : FileFinder) (queryTerms : List GoString) (step : WalkStep) : Bool :=
  !step.err && !step.isDir && isDocumentationFile step.path &&
    decide ((calculateFileScore ff step.path queryTerms).1 > 0)

/-- The `FileMatch` that the callback of `FindRelevantFiles` builds for a step. -/
def matchOf (ff : FileFinder) (queryTerms : List GoString) (step : WalkStep) : FileMatch :=
  { Path := step.path, Score := (calculateFileScore ff step.path queryTerms).1,
    Reason := (calculateFileScore ff step.path queryTerms).2,
    FileName := filepath.Base step.path }

/-- The files of the file system of `TestFileFinder_FindRelevantFiles`
(`file_finder_test.go`), with their contents. -/
def testFiles : List (GoString × GoString) :=
  [("config/api_config.json", "\x7b\"api\": \"config\"\x7d"),
   ("docs/api/endpoints.md", "API endpoints documentation"),
   ("docs/setup.md", "Setup instructions"),
   ("other/random.txt", "Random text file"),
   ("testData/api_authentication.md", "Authentication API guide"),
   ("testData/auth/user_guide.md", "User authentication guide"),
   ("testData/foo/api/bar.md", "API documentation for bar"),
   ("testData/foo/bad.md", "Some bad documentation")].map
    (fun p => (p.1.toList, p.2.toList))

/-- The walk of the test file system: directories and files in lexical order. -/
def testWalk : List WalkStep :=
  [(".", true), ("config", true), ("config/api_config.json", false), ("docs", true),
   ("docs/api", true), ("docs/api/endpoints.md", false), ("docs/setup.md", false),
   ("other", true), ("other/random.txt", false), ("testData", true),
   ("testData/api_authentication.md", false), ("testData/auth", true),
   ("testData/auth/user_guide.md", false), ("testData/foo", true),
   ("testData/foo/api", true), ("testData/foo/api/bar.md", false),
   ("testData/foo/bad.md", false)].map
    (fun p => { path := p.1.toList, isDir := p.2, err := false })

/-- The file system of `TestFileFinder_FindRelevantFiles`. -/
def testFS : FS :=
  { walk := testWalk
    readFile := fun path => testFiles.lookup path
    filesOnce := by decide }

/-- The finder of `TestFileFinder_FindRelevantFiles`. -/
def testFinder : FileFinder := { fs := testFS }

/-- Source `calculateFileScore`, lines 166-173: the final normalisation of the raw
score. -/
def normalizeScore (score : ℚ) : ℚ :=
  if score > 0 then
    let scaled := score / 4.0
    if scaled > 1.0 then 1.0 else scaled
  else score

/-- The raw score of `calculateFileScore` before normalisation: directory signal, then
filename signal, then the weighted content signal. -/
def rawScore (ff : FileFinder) (filePath : GoString) (queryTerms : List GoString) : ℚ :=
  let fileName := strings.ToLower (filepath.Base filePath)
  let fileNameNoExt := strings.ToLower (strings.TrimSuffix fileName (filepath.Ext fileName))
  let dirPath := strings.ToLower (filepath.Dir filePath)
  (queryTerms.foldl (fileNameStep fileNameNoExt)
      (queryTerms.foldl (dirStep dirPath) ((0, []) : ScoreState))).1 +
    (scoreFileContent ff filePath queryTerms).1 * 0.3

/-- A file system with the same documentation file in two directories, one of them named
after a query term. -/
def twinFS : FS :=
  { walk :=
      [(".", true), ("api", true), ("api/apis_endpoints.md", false), ("docs", true),
       ("docs/apis_endpoints.md", false)].map
        (fun p => { path := p.1.toList, isDir := p.2, err := false })
    readFile := fun path =>
      [("api/apis_endpoints.md".toList, "hello".toList),
       ("docs/apis_endpoints.md".toList, "hello".toList)].lookup path
    filesOnce := by decide }

/-- The directory part of `filePath` contains some query term, as a component or inside
a component (what makes lines 95-105 of `calculateFileScore` fire). -/
def dirMentions (filePath : GoString) (queryTerms : List GoString) : Bool :=
  queryTerms.any (fun term =>
    (strings.Split (strings.ToLower (filepath.Dir filePath)) '/').any
      (fun component => strings.Contains component (strings.ToLower term)))

/-- The directory part of `filePath` contains no query term at all. -/
def dirAvoids (filePath : GoString) (queryTerms : List GoString) : Bool :=
  queryTerms.all (fun term =>
    !strings.Contains (strings.ToLower (filepath.Dir filePath)) (strings.ToLower term))

/-- The file system of `TestFileFinder_calculateFileScore` (`file_finder_test.go`). -/
def scoreTestFS : FS :=
  { walk :=
      [(".", true), ("auth", true), ("auth/authentication.md", false), ("docs", true),
       ("docs/api_reference.md", false), ("testData", true), ("testData/foo", true),
       ("testData/foo/api", true), ("testData/foo/api/bar.md", false),
       ("testData/foo/bad.md", false)].map
        (fun p => { path := p.1.toList, isDir := p.2, err := false })
    readFile := fun path =>
      ([("testData/foo/api/bar.md", "API documentation for bar service"),
        ("testData/foo/bad.md", "Some unrelated content"),
        ("docs/api_reference.md", "Complete API reference guide"),
        ("auth/authentication.md", "Authentication methods")].map
        (fun p => (p.1.toList, p.2.toList))).lookup path
    filesOnce := by decide }

/-- Two sections share no line: no line index lies in both closed ranges
`[LineNumber, EndLine]`. -/
def linesDisjoint (a b : ContentSection) : Prop :=
  ∀ k : Int, ¬ (a.LineNumber ≤ k ∧ k ≤ a.EndLine ∧ b.LineNumber ≤ k ∧ k ≤ b.EndLine)

/-- First-occurrence deduplication, as the specification words it: every element is kept
at its first position and dropped everywhere later. -/
def firstOccurrences : List GoString → List GoString
  | [] => []
  | x :: xs => x :: (firstOccurrences xs).filter (fun y => y != x)

/-- The cleaned forms of the tokens that the loop of `normalizeQuery` keeps, in query
order. -/
def survivingTokens (query : GoString) : List GoString :=
  (queryTokens query).filterMap (fun term =>
    let term := strings.ToLower (strings.TrimSpace term)
    if isStopWord term then none
    else
      let cleaned := strings.Trim term punctuation
      if len cleaned > 1 then some cleaned else none)

/-! ## Excerpt assembly (`content_extractor.go`) and the clause merge (`cmd/main.go`) -/

/-- The bytes of a Go string.  The excerpt functions return their result in this form,
because `getContentSample` cuts the content at a byte offset, which need not be a code
point boundary. -/
abbrev GoBytes := List UInt8

/-- The UTF-8 encoding of a string of code points. -/
def utf8 (s : GoString) : GoBytes := s.flatMap String.utf8EncodeChar

/-- Go `strings.LastIndex` for a separator of one byte: the index of the last occurrence
of `sep`, or `-1`. -/
def strings.LastIndex (sep : UInt8) : GoBytes → Int
  | [] => -1
  | b :: rest =>
    if strings.LastIndex sep rest ≥ 0 then strings.LastIndex sep rest + 1
    else if b = sep then 0 else -1

/-- Source `getContentSample`; `none` is the run-time panic of `content[:maxLength]` for
a negative `maxLength`. -/
def getContentSample (content : GoBytes) (maxLength : Int) : Option GoBytes :=
  if (content.length : Int) ≤ maxLength then some content
  else if maxLength < 0 then none
  else
    let sample := content.take maxLength.toNat
    let lastNewline := strings.LastIndex 10 sample
    if lastNewline > Int.tdiv maxLength 2 then some (content.take lastNewline.toNat)
    else some sample

/-- The header line that `formatRelevantSections` puts before each section. -/
def sectionHeader : GoString := "--- Relevant Section ---".toList

/-- Source `formatRelevantSections`, lines 223-238: the loop over `sections` with index
`i`; `n` is `len(sections)` and the state is `result`. -/
def formatLoop (n : Nat) : Nat → List ContentSection → List GoString → List GoString
  | _, [], result => result
  | i, sec :: rest, result =>
    if i ≥ 10 then result
    else
      let result := if n > 1 then result ++ [sectionHeader] else result
      let result := result ++ [sec.Content]
      let result := if (i : Int) < (n : Int) - 1 ∧ n > 1 then result ++ [[]] else result
      formatLoop n (i + 1) rest result

/-- Source `formatRelevantSections`. -/
def formatRelevantSections (originalContent : GoString) (sections : List ContentSection) :
    Option GoBytes :=
  if sections.length = 0 then getContentSample (utf8 originalContent) 1000
  else some (utf8 (strings.Join (formatLoop sections.length 0 sections []) ['\n']))

/-- Go `fs.ReadFile`: the content and a nil error, or no content and the error of the
file system (whose text is immaterial here). -/
def fs.ReadFile (fsys : FS) (name : GoString) : GoString × Option GoError :=
  match fsys.readFile name with
  | some data => (data, none)
  | none => ([], some { msg := "open ".toList ++ name ++ ": file does not exist".toList })

/-- Source `ContentExtractor`. -/
structure ContentExtractor where
  fs : FS

/-- Source `ExtractRelevantContent`: the returned pair `(string, error)`, the string as
bytes; the outer `none` would be a panic of `getContentSample`. -/
def ExtractRelevantContent (ce : ContentExtractor) (filePath query : GoString)
    (contextLines : Int) : Option (GoBytes × Option GoError) :=
  match fs.ReadFile ce.fs filePath with
  | (_, some err) => some ([], some err)
  | (contentStr, none) =>
    let queryTerms := normalizeQuery query
    if queryTerms.length = 0 then
      (getContentSample (utf8 contentStr) 1000).map (fun s => (s, none))
    else
      let relevantSections := findRelevantSections contentStr queryTerms contextLines
      if relevantSections.length = 0 then
        (getContentSample (utf8 contentStr) 1000).map (fun s => (s, none))
      else (formatRelevantSections contentStr relevantSections).map (fun s => (s, none))

/-- Assignment `m[key] = value` on a Go map held as an association list. -/
def mapAssign (m : List (GoString × FileMatch)) (key : GoString) (value : FileMatch) :
    List (GoString × FileMatch) :=
  match m with
  | [] => [(key, value)]
  | (k, v) :: rest => if k = key then (key, value) :: rest else (k, v) :: mapAssign rest key value

/-- Source `main`, lines 67-77: one result of the clause `term` is merged into the map
`fileScores`. -/
def mergeResult (term : GoString) (fileScores : List (GoString × FileMatch))
    (result : FileMatch) : List (GoString × FileMatch) :=
  let ok := (fileScores.lookup result.Path).isSome
  let existing : FileMatch :=
    (fileScores.lookup result.Path).getD { Path := [], Score := 0, Reason := [], FileName := [] }
  if !ok || decide (result.Score > existing.Score) then
    let reason :=
      if decide (existing.Reason ≠ []) && ok then
        "matched terms: ".toList ++ term ++ ", ".toList ++ existing.Reason
      else "matched term: ".toList ++ term ++ " (".toList ++ result.Reason ++ ")".toList
    mapAssign fileScores result.Path { result with Reason := reason }
  else fileScores

/-- Source `main`, lines 53-78: one clause of the query. -/
def clauseStep (engine : FileFinder) (fileScores : List (GoString × FileMatch))
    (term : GoString) : List (GoString × FileMatch) :=
  let term := strings.TrimSpace term
  if term = [] then fileScores
  else
    match (FindRelevantFiles engine term 10).2 with
    | some _ => fileScores
    | none => (FindRelevantFiles engine term 10).1.foldl (mergeResult term) fileScores

/-- Source `main`, lines 50-93: the result list for a query that contains `|`.  The map
is turned into a slice in the order of first insertion (Go leaves the order open; the
slice is sorted next). -/
def mergeClauses (engine : FileFinder) (query : GoString) : List FileMatch :=
  let terms := strings.Split query '|'
  let fileScores := terms.foldl (clauseStep engine) []
  let allResults := fileScores.map (fun kv => kv.2)
  let allResults := sort.Slice allResults (fun a b => decide (a.Score > b.Score))
  if allResults.length > 10 then allResults.take 10 else allResults

/-- The query with every `|` replaced by a space. -/
def replacePipes (query : GoString) : GoString :=
  query.map (fun r => if r = '|' then ' ' else r)

/-- The suffix of `name` that starts at its last `.`; empty when `name` has no `.`. -/
def suffixFromLastDot : GoString → GoString
  | [] => []
  | c :: cs => if '.' ∈ cs then suffixFromLastDot cs else if c = '.' then c :: cs else []

/-- In `text`, `run` is a maximal run of runes that `sep` rejects: it is not empty, none
of its runes is a separator, and on either side it ends at a separator or at an end of
the text. -/
def IsMaximalRun (sep : Char → Bool) (text run : GoString) : Prop :=
  ∃ pre post, text = pre ++ run ++ post ∧ run ≠ [] ∧ (∀ c ∈ run, sep c = false) ∧
    (∀ x, pre.getLast? = some x → sep x = true) ∧ (∀ x, post.head? = some x → sep x = true)

/-- A file system with one file that cannot be read. -/
def unreadableFS : FS :=
  { walk :=
      [(".", true), ("docs", true), ("docs/notes.md", false)].map
        (fun p => { path := p.1.toList, isDir := p.2, err := false })
    readFile := fun _ => none
    filesOnce := by decide }

/-- The same file system with the file readable and empty. -/
def emptyFileFS : FS :=
  { walk :=
      [(".", true), ("docs", true), ("docs/notes.md", false)].map
        (fun p => { path := p.1.toList, isDir := p.2, err := false })
    readFile := fun path => if path = "docs/notes.md".toList then some [] else none
    filesOnce := by decide }

/-- How the specification renders one section when there are several: the header line,
a newline, the content. -/
def renderSection (sec : ContentSection) : GoString :=
  sectionHeader ++ ['\n'] ++ sec.Content

/-- Position `p` holds the last newline among the first `limit` bytes of `content`. -/
def IsLastNewline (content : GoBytes) (limit p : Nat) : Prop :=
  p < limit ∧ content[p]? = some 10 ∧ ∀ q, p < q → q < limit → content[q]? ≠ some 10

/-- The non-empty trimmed clauses of a query, in order. -/
def queryClauses (query : GoString) : List GoString :=
  ((strings.Split query '|').map strings.TrimSpace).filter (fun c => decide (c ≠ []))

/-- The result lists of all clause searches `FindRelevantFiles(clause, 10)`, one after
the other. -/
def clauseResults (engine : FileFinder) (query : GoString) : List FileMatch :=
  (queryClauses query).flatMap (fun c => (FindRelevantFiles engine c 10).1)

/-- Invariant of the map `fileScores` of `main` with respect to the results merged so
far: keys are distinct, every entry sits under its own path with a score that some merged
result of that path has, and every merged result is dominated by the entry of its path. -/
def MergeInv (m : List (GoString × FileMatch)) (seen : List FileMatch) : Prop :=
  (m.map Prod.fst).Nodup ∧
  (∀ k v, m.lookup k = some v → v.Path = k ∧ ∃ r ∈ seen, r.Path = k ∧ r.Score = v.Score) ∧
  (∀ r ∈ seen, ∃ v, m.lookup r.Path = some v ∧ r.Score ≤ v.Score)

/-- A file system with one file that both clauses of the query `api|auth` find: the
directory is `api`, the file name contains `auth`. -/
def mergeFS : FS :=
  { walk :=
      [(".", true), ("api", true), ("api/auth_notes.md", false)].map
        (fun p => { path := p.1.toList, isDir := p.2, err := false })
    readFile := fun path =>
      if path = "api/auth_notes.md".toList then some "notes".toList else none
    filesOnce := by decide }

/-- A file system whose file lies under `apis/api`: the first directory component
contains the term `api`, the second one equals it. -/
def shadowFS : FS :=
  { walk :=
      [(".", true), ("apis", true), ("apis/api", true), ("apis/api/guide.md", false)].map
        (fun p => { path := p.1.toList, isDir := p.2, err := false })
    readFile := fun path =>
      if path = "apis/api/guide.md".toList then some "guide".toList else none
    filesOnce := by decide }

/-- The number of terms whose lower-cased form occurs in the lower-cased line. -/
def occurringTerms (line : GoString) (queryTerms : List GoString) : Nat :=
  queryTerms.countP (fun t => strings.Contains (strings.ToLower line) (strings.ToLower t))

/-- The number of those terms that occur in the line as a complete word. -/
def exactTerms (line : GoString) (queryTerms : List GoString) : Nat :=
  queryTerms.countP (fun t =>
    strings.Contains (strings.ToLower line) (strings.ToLower t) &&
      isExactWordMatch (strings.ToLower line) (strings.ToLower t))

/-- The filename step of `calculateFileScore` with the `filename word match` branch
(lines 132-135) removed. -/
def fileNameStepWithoutWordRule (fileNameNoExt : GoString) (st : ScoreState)
    (term : GoString) : ScoreState :=
  let termLower := strings.ToLower term
  if fileNameNoExt = termLower then
    (st.1 + 2.0, st.2 ++ ["exact filename match".toList])
  else if strings.Contains fileNameNoExt termLower then
    (st.1 + 1.5, st.2 ++ ["filename contains '".toList ++ term ++ "'".toList])
  else
    partialWordLoop term termLower (strings.FieldsFunc fileNameNoExt notAlnum) st

/-- The function `calculateFileScore` with the `filename word match` branch removed. -/
def calculateFileScoreWithoutWordRule (ff : FileFinder) (filePath : GoString)
    (queryTerms : List GoString) : ℚ × GoString :=
  if queryTerms.length = 0 then (0, [])
  else
    let fileName := strings.ToLower (filepath.Base filePath)
    let fileNameNoExt := strings.ToLower (strings.TrimSuffix fileName (filepath.Ext fileName))
    let dirPath := strings.ToLower (filepath.Dir filePath)
    let st := queryTerms.foldl (dirStep dirPath) ((0, []) : ScoreState)
    let st := queryTerms.foldl (fileNameStepWithoutWordRule fileNameNoExt) st
    let content := scoreFileContent ff filePath queryTerms
    let score := st.1 + content.1 * 0.3
    let reasons := if content.2 ≠ [] then st.2 ++ [content.2] else st.2
    let score :=
      if score > 0 then
        let scaled := score / 4.0
        if scaled > 1.0 then 1.0 else scaled
      else score
    (score, strings.Join reasons ", ".toList)

/-- The slice `reasons` of `calculateFileScore` just before it is joined (line 175). -/
def scoreReasons (ff : FileFinder) (filePath : GoString) (queryTerms : List GoString) :
    List GoString :=
  let fileName := strings.ToLower (filepath.Base filePath)
  let fileNameNoExt := strings.ToLower (strings.TrimSuffix fileName (filepath.Ext fileName))
  let dirPath := strings.ToLower (filepath.Dir filePath)
  let st := queryTerms.foldl (dirStep dirPath) ((0, []) : ScoreState)
  let st := queryTerms.foldl (fileNameStep fileNameNoExt) st
  let content := scoreFileContent ff filePath queryTerms
  if content.2 ≠ [] then st.2 ++ [content.2] else st.2

/-- The reason fragment is the one of the `filename word match` rule. -/
def isWordMatchFragment (reason : GoString) : Bool :=
  strings.HasPrefix reason "filename word match '".toList

/-- The unit roundoff of `float64`: half the distance between 1 and the next number. -/
def unitRoundoff : ℚ := 1 / 2 ^ 53

/-- The computed value `s` approximates the exact value `S` after at most `j` rounding
steps: `S (1 - u)^j ≤ s ≤ S (1 + u)^j`. -/
def Approx (j : Nat) (s S : ℚ) : Prop :=
  S * (1 - unitRoundoff) ^ j ≤ s ∧ s ≤ S * (1 + unitRoundoff) ^ j

/-- Invariant of the running `(score, reasons)` of `calculateFileScore`: the score is
never negative, it is positive exactly when a reason has been recorded, and no recorded
reason is the empty string. -/
def ScoreInv (st : ScoreState) : Prop :=
  0 ≤ st.1 ∧ (0 < st.1 ↔ st.2 ≠ []) ∧ ∀ r ∈ st.2, r ≠ []

/-! ## Auxiliary facts -/

theorem foldl_preserves {α β : Type} (P : β → Prop) (f : β → α → β)
    (hf : ∀ b a, P b → P (f b a)) (l : List α) (b : β) (hb : P b) : P (l.foldl f b) := by
  induction l generalizing b with
  | nil => exact hb
  | cons a l ih => exact ih (f b a) (hf b a hb)

theorem ScoreInv.init : ScoreInv ((0, []) : ScoreState) := by
  refine ⟨le_refl _, ?_, ?_⟩
  · simp
  · intro r hr
    cases hr

theorem ScoreInv.add {st : ScoreState} (h : ScoreInv st) (q : ℚ) (hq : 0 < q)
    (r : GoString) (hr : r ≠ []) : ScoreInv (st.1 + q, st.2 ++ [r]) := by
  obtain ⟨h0, _, h2⟩ := h
  refine ⟨by simp only; linarith, ?_, ?_⟩
  · simp only
    constructor
    · intro _
      simp
    · intro _
      linarith
  · intro x hx
    simp only [List.mem_append, List.mem_singleton] at hx
    rcases hx with hx | hx
    · exact h2 x hx
    · rw [hx]
      exact hr

theorem quoted_ne_nil (pre term : GoString) : pre ++ term ++ "'".toList ≠ [] :=
  List.append_ne_nil_of_right_ne_nil _ (by decide)

theorem dirComponentLoop_inv (term termLower : GoString) (comps : List GoString)
    (st : ScoreState) (h : ScoreInv st) : ScoreInv (dirComponentLoop term termLower comps st) := by
  induction comps with
  | nil => exact h
  | cons c rest ih =>
    unfold dirComponentLoop
    split_ifs
    · exact h.add _ (by norm_num) _ (quoted_ne_nil _ _)
    · exact h.add _ (by norm_num) _ (quoted_ne_nil _ _)
    · exact ih

theorem dirStep_inv (dirPath : GoString) (st : ScoreState) (term : GoString)
    (h : ScoreInv st) : ScoreInv (dirStep dirPath st term) := by
  unfold dirStep
  simp only
  split_ifs
  · exact (dirComponentLoop_inv _ _ _ _ h).add _ (by norm_num) _ (quoted_ne_nil _ _)
  · exact dirComponentLoop_inv _ _ _ _ h

theorem partialWordLoop_inv (term termLower : GoString) (words : List GoString)
    (st : ScoreState) (h : ScoreInv st) : ScoreInv (partialWordLoop term termLower words st) := by
  induction words with
  | nil => exact h
  | cons w rest ih =>
    unfold partialWordLoop
    split_ifs
    · exact ih
    · exact h.add _ (by norm_num) _ (quoted_ne_nil _ _)
    · exact ih

theorem fileNameStep_inv (fileNameNoExt : GoString) (st : ScoreState) (term : GoString)
    (h : ScoreInv st) : ScoreInv (fileNameStep fileNameNoExt st term) := by
  unfold fileNameStep
  simp only
  split_ifs
  · exact h.add _ (by norm_num) _ (by decide)
  · exact h.add _ (by norm_num) _ (quoted_ne_nil _ _)
  · exact h.add _ (by norm_num) _ (quoted_ne_nil _ _)
  · exact partialWordLoop_inv _ _ _ _ h

theorem contentWordLoop_ge (termLower : GoString) (words : List GoString) (score : ℚ) :
    score ≤ contentWordLoop termLower words score := by
  induction words with
  | nil => exact le_refl _
  | cons w rest ih =>
    unfold contentWordLoop
    simp only
    split_ifs
    · exact ih
    · norm_num
    · exact ih

theorem contentStep_nonneg (contentStr : GoString) (st : ℚ × Nat) (term : GoString)
    (h : 0 ≤ st.1) : 0 ≤ (contentStep contentStr st term).1 := by
  unfold contentStep
  simp only
  split_ifs
  · have : (0 : ℚ) ≤ (strings.Count contentStr (strings.ToLower term) : ℚ) := Nat.cast_nonneg _
    simp only
    nlinarith
  · exact le_trans h (contentWordLoop_ge _ _ _)

theorem scoreFileContent_spec (ff : FileFinder) (filePath : GoString)
    (queryTerms : List GoString) :
    0 ≤ (scoreFileContent ff filePath queryTerms).1 ∧
      (0 < (scoreFileContent ff filePath queryTerms).1 ↔
        (scoreFileContent ff filePath queryTerms).2 ≠ []) := by
  unfold scoreFileContent
  cases ff.fs.readFile filePath with
  | none => simp
  | some content =>
    simp only
    have hnn : 0 ≤ (queryTerms.foldl (contentStep (strings.ToLower content)) (0, 0)).1 :=
      foldl_preserves (fun st : ℚ × Nat => 0 ≤ st.1) _
        (fun b a hb => contentStep_nonneg _ b a hb) queryTerms (0, 0) (le_refl _)
    split_ifs with h0 hall
    · simp
    · have hpos := lt_of_le_of_ne hnn (Ne.symm h0)
      refine ⟨by simp only; linarith, ?_⟩
      simp only
      constructor
      · intro _
        decide
      · intro _
        linarith
    · have hpos := lt_of_le_of_ne hnn (Ne.symm h0)
      refine ⟨hnn, ?_⟩
      simp only
      constructor
      · intro _
        decide
      · intro _
        exact hpos

theorem join_eq_nil_iff (l : List GoString) (sep : GoString) (h : ∀ r ∈ l, r ≠ []) :
    strings.Join l sep = [] ↔ l = [] := by
  match l with
  | [] => simp [strings.Join]
  | [a] =>
    have := h a (by simp)
    simp [strings.Join, this]
  | a :: b :: rest =>
    have := h a (by simp)
    simp [strings.Join, this]

/-- The raw state of `calculateFileScore` before normalisation satisfies the invariant. -/
theorem rawState_inv (ff : FileFinder) (filePath : GoString) (queryTerms : List GoString)
    (dirPath fileNameNoExt : GoString) :
    ScoreInv
      ((queryTerms.foldl (fileNameStep fileNameNoExt)
          (queryTerms.foldl (dirStep dirPath) ((0, []) : ScoreState))).1 +
        (scoreFileContent ff filePath queryTerms).1 * 0.3,
       if (scoreFileContent ff filePath queryTerms).2 ≠ [] then
         (queryTerms.foldl (fileNameStep fileNameNoExt)
          (queryTerms.foldl (dirStep dirPath) ((0, []) : ScoreState))).2 ++
           [(scoreFileContent ff filePath queryTerms).2]
       else
         (queryTerms.foldl (fileNameStep fileNameNoExt)
          (queryTerms.foldl (dirStep dirPath) ((0, []) : ScoreState))).2) := by
  have h1 : ScoreInv (queryTerms.foldl (dirStep dirPath) ((0, []) : ScoreState)) :=
    foldl_preserves ScoreInv _ (fun b a hb => dirStep_inv dirPath b a hb) _ _ ScoreInv.init
  have h2 := foldl_preserves ScoreInv _ (fun b a hb => fileNameStep_inv fileNameNoExt b a hb)
    queryTerms _ h1
  obtain ⟨hc0, hc1⟩ := scoreFileContent_spec ff filePath queryTerms
  split_ifs with hr
  · have hpos := hc1.mpr hr
    exact h2.add _ (by linarith) _ hr
  · have hz : (scoreFileContent ff filePath queryTerms).1 = 0 := by
      by_contra hne
      exact hr (hc1.mp (lt_of_le_of_ne hc0 (Ne.symm hne)))
    rw [hz]
    simpa using h2

theorem calculateFileScore_spec (ff : FileFinder) (filePath : GoString)
    (queryTerms : List GoString) :
    (0 ≤ (calculateFileScore ff filePath queryTerms).1 ∧
      (calculateFileScore ff filePath queryTerms).1 ≤ 1) ∧
    (0 < (calculateFileScore ff filePath queryTerms).1 ↔
      (calculateFileScore ff filePath queryTerms).2 ≠ []) := by
  unfold calculateFileScore
  split_ifs with hlen
  · simp
  · simp only
    obtain ⟨h0, h1, h2⟩ := rawState_inv ff filePath queryTerms
      (strings.ToLower (filepath.Dir filePath))
      (strings.ToLower (strings.TrimSuffix (strings.ToLower (filepath.Base filePath))
        (filepath.Ext (strings.ToLower (filepath.Base filePath)))))
    simp only at h0 h1 h2
    rw [Ne, join_eq_nil_iff _ _ h2, ← Ne, ← h1]
    split_ifs with hpos hbig
    · refine ⟨⟨by norm_num, by norm_num⟩, ?_⟩
      constructor
      · intro _
        exact hpos
      · intro _
        norm_num
    · refine ⟨⟨div_nonneg h0 (by norm_num), by linarith [not_lt.mp hbig]⟩, ?_⟩
      constructor
      · intro _
        exact hpos
      · intro _
        exact div_pos hpos (by norm_num)
    · exact ⟨⟨h0, by linarith [not_lt.mp hpos]⟩, Iff.rfl⟩

theorem walkFn_eq (ff : FileFinder) (queryTerms : List GoString) (acc : List FileMatch)
    (step : WalkStep) :
    walkFn ff queryTerms acc step =
      (if eligible ff queryTerms step then acc ++ [matchOf ff queryTerms step] else acc,
        none) := by
  unfold walkFn eligible matchOf
  cases step.err <;> cases step.isDir <;> cases isDocumentationFile step.path <;>
    by_cases h : (calculateFileScore ff step.path queryTerms).1 > 0 <;> simp [h]

theorem walkLoop_eq (ff : FileFinder) (queryTerms : List GoString) (l : List WalkStep)
    (acc : List FileMatch) :
    l.foldl
        (fun (st : List FileMatch × Option GoError) step =>
          match st.2 with
          | some _ => st
          | none => walkFn ff queryTerms st.1 step)
        (acc, none) =
      (acc ++ (l.filter (eligible ff queryTerms)).map (matchOf ff queryTerms), none) := by
  induction l generalizing acc with
  | nil => simp
  | cons step rest ih =>
    rw [List.foldl_cons]
    show List.foldl _ (walkFn ff queryTerms acc step) rest = _
    rw [walkFn_eq]
    by_cases h : eligible ff queryTerms step = true
    · rw [if_pos h, ih]
      simp [List.filter_cons, h]
    · rw [if_neg h, ih]
      simp [List.filter_cons, h]

theorem walkDir_eq (ff : FileFinder) (queryTerms : List GoString) :
    fs.WalkDir ff.fs (walkFn ff queryTerms) [] =
      ((ff.fs.walk.filter (eligible ff queryTerms)).map (matchOf ff queryTerms), none) := by
  unfold fs.WalkDir
  rw [walkLoop_eq]
  simp

theorem sortSlice_perm {α : Type} (x : List α) (less : α → α → Bool) :
    (sort.Slice x less).Perm x :=
  List.perm_insertionSort _ x

theorem sortSlice_sorted {α : Type} (score : α → ℚ) (x : List α) :
    (sort.Slice x (fun a b => decide (score a > score b))).Pairwise
      (fun a b => score a ≥ score b) := by
  unfold sort.Slice
  haveI : IsTotal α (fun a b => decide (score b > score a) = false) :=
    ⟨fun a b => by
      simp only [decide_eq_false_iff_not, not_lt, gt_iff_lt]
      exact le_total _ _⟩
  haveI : IsTrans α (fun a b => decide (score b > score a) = false) :=
    ⟨fun a b c hab hbc => by
      simp only [decide_eq_false_iff_not, not_lt, gt_iff_lt] at *
      exact le_trans hbc hab⟩
  have h := List.sorted_insertionSort (fun a b => decide (score b > score a) = false) x
  refine List.Pairwise.imp ?_ h
  intro a b hab
  simpa using hab

theorem FindRelevantFiles_eq (ff : FileFinder) (query : GoString) (maxFiles : Int) :
    FindRelevantFiles ff query maxFiles =
      (if maxFiles ≤ 0 then []
        else
          (sort.Slice
            ((ff.fs.walk.filter (eligible ff (normalizeQuery query))).map
              (matchOf ff (normalizeQuery query)))
            (fun a b => decide (a.Score > b.Score))).take maxFiles.toNat,
        none) := by
  unfold FindRelevantFiles
  simp only [walkDir_eq]
  by_cases hle : maxFiles ≤ 0
  · rw [if_neg (by omega), if_pos hle, if_pos hle]
  · rw [if_neg hle]
    split_ifs with h1
    · rfl
    · congr 1
      rw [List.take_of_length_le]
      push_neg at h1
      have := h1 (by omega)
      omega

/-! ## File scoring and ranking -/

/-- C1: the score returned by `calculateFileScore` lies in `[0, 1]`, and so does the
`Score` of every `FileMatch` returned by `FindRelevantFiles`. -/
theorem calculateFileScore_in_unit_interval (ff : FileFinder) (filePath : GoString)
    (queryTerms : List GoString) (query : GoString) (maxFiles : Int) :
    (0 ≤ (calculateFileScore ff filePath queryTerms).1 ∧
      (calculateFileScore ff filePath queryTerms).1 ≤ 1) ∧
    ∀ m ∈ (FindRelevantFiles ff query maxFiles).1, 0 ≤ m.Score ∧ m.Score ≤ 1 := by
  refine ⟨(calculateFileScore_spec ff filePath queryTerms).1, ?_⟩
  intro m hm
  rw [FindRelevantFiles_eq] at hm
  simp only at hm
  split_ifs at hm with hle
  · cases hm
  · have h1 := (sortSlice_perm _ _).mem_iff.mp (List.mem_of_mem_take hm)
    obtain ⟨step, _, rfl⟩ := List.mem_map.mp h1
    exact (calculateFileScore_spec ff step.path (normalizeQuery query)).1

theorem calculateFileScore_in_unit_interval_witness :
    (0 ≤ (calculateFileScore testFinder "docs/api/endpoints.md".toList ["api".toList]).1 ∧
      (calculateFileScore testFinder "docs/api/endpoints.md".toList ["api".toList]).1 ≤ 1) ∧
    ∀ m ∈ (FindRelevantFiles testFinder "api".toList 5).1, 0 ≤ m.Score ∧ m.Score ≤ 1 :=
  calculateFileScore_in_unit_interval testFinder _ _ _ _

/-- C2: `calculateFileScore` returns a non-empty reason exactly when it returns a
positive score; a score of 0 comes with the empty reason, and the empty term list gives
score 0 with the empty reason. -/
theorem calculateFileScore_reason_iff_positive (ff : FileFinder) (filePath : GoString)
    (queryTerms : List GoString) :
    ((calculateFileScore ff filePath queryTerms).2 ≠ [] ↔
      0 < (calculateFileScore ff filePath queryTerms).1) ∧
    ((calculateFileScore ff filePath queryTerms).1 = 0 →
      (calculateFileScore ff filePath queryTerms).2 = []) ∧
    (queryTerms = [] → calculateFileScore ff filePath queryTerms = (0, [])) := by
  obtain ⟨⟨h0, _⟩, hiff⟩ := calculateFileScore_spec ff filePath queryTerms
  refine ⟨hiff.symm, ?_, ?_⟩
  · intro hz
    by_contra hne
    have := hiff.mpr hne
    linarith
  · intro hnil
    subst hnil
    rfl

theorem calculateFileScore_reason_iff_positive_witness :
    (calculateFileScore testFinder "docs/api/endpoints.md".toList ["api".toList]).2 ≠ [] ∧
    0 < (calculateFileScore testFinder "docs/api/endpoints.md".toList ["api".toList]).1 ∧
    (calculateFileScore testFinder "docs/setup.md".toList ["api".toList]).1 = 0 ∧
    (calculateFileScore testFinder "docs/setup.md".toList ["api".toList]).2 = [] ∧
    calculateFileScore testFinder "docs/setup.md".toList [] = (0, []) :=
  ⟨by decide!,
    (calculateFileScore_reason_iff_positive testFinder _ _).1.mp (by decide!),
    by decide!,
    (calculateFileScore_reason_iff_positive testFinder _ _).2.1 (by decide!),
    (calculateFileScore_reason_iff_positive testFinder _ _).2.2 rfl⟩

/-! ## Substrings and path components -/

theorem hasPrefix_iff (s p : GoString) : strings.HasPrefix s p = true ↔ p <+: s := by
  induction p generalizing s with
  | nil => simp [strings.HasPrefix]
  | cons d p ih =>
    cases s with
    | nil => simp [strings.HasPrefix]
    | cons c s =>
      simp only [strings.HasPrefix, Bool.and_eq_true, beq_iff_eq, ih, List.cons_prefix_cons]
      constructor
      · rintro ⟨h1, h2⟩
        exact ⟨h1.symm, h2⟩
      · rintro ⟨h1, h2⟩
        exact ⟨h1.symm, h2⟩

theorem contains_iff (s substr : GoString) :
    strings.Contains s substr = true ↔ substr <:+: s := by
  induction s with
  | nil =>
    simp only [strings.Contains, hasPrefix_iff, List.prefix_nil, List.infix_nil]
  | cons c s ih =>
    simp only [strings.Contains, Bool.or_eq_true, hasPrefix_iff, ih, List.infix_cons_iff]

theorem split_spec (sep : Char) (s : GoString) :
    (∀ w ws, strings.Split s sep = w :: ws → w <+: s) ∧
      ∀ c ∈ strings.Split s sep, c <:+: s := by
  induction s with
  | nil =>
    constructor
    · intro w ws h
      simp only [strings.Split, List.cons.injEq] at h
      rw [← h.1]
    · intro c hc
      simp only [strings.Split, List.mem_singleton] at hc
      rw [hc]
  | cons x xs ih =>
    obtain ⟨ihp, ihi⟩ := ih
    unfold strings.Split
    by_cases hx : x = sep
    · simp only [hx, if_true]
      constructor
      · intro w ws h
        simp only [List.cons.injEq] at h
        rw [← h.1]
        exact List.nil_prefix
      · intro c hc
        rcases List.mem_cons.mp hc with hc | hc
        · rw [hc]
          exact List.nil_infix
        · exact (ihi c hc).trans (List.suffix_cons _ _).isInfix
    · simp only [hx, if_false]
      cases hsp : strings.Split xs sep with
      | nil =>
        simp only
        constructor
        · intro w ws h
          simp only [List.cons.injEq] at h
          rw [← h.1]
          exact List.cons_prefix_cons.mpr ⟨rfl, List.nil_prefix⟩
        · intro c hc
          simp only [List.mem_singleton] at hc
          rw [hc]
          exact (List.cons_prefix_cons.mpr ⟨rfl, List.nil_prefix⟩).isInfix
      | cons w ws =>
        simp only
        have hw : w <+: xs := ihp w ws hsp
        constructor
        · intro w2 ws2 h
          simp only [List.cons.injEq] at h
          rw [← h.1]
          exact List.cons_prefix_cons.mpr ⟨rfl, hw⟩
        · intro c hc
          rcases List.mem_cons.mp hc with hc | hc
          · rw [hc]
            exact (List.cons_prefix_cons.mpr ⟨rfl, hw⟩).isInfix
          · have : c ∈ strings.Split xs sep := by
              rw [hsp]
              exact List.mem_cons_of_mem _ hc
            exact (ihi c this).trans (List.suffix_cons _ _).isInfix

theorem contains_of_component (s t : GoString) (sep : Char) (c : GoString)
    (hc : c ∈ strings.Split s sep) (h : c = t ∨ strings.Contains c t = true) :
    strings.Contains s t = true := by
  rw [contains_iff]
  have hcs := (split_spec sep s).2 c hc
  rcases h with h | h
  · rw [← h]
    exact hcs
  · exact ((contains_iff c t).mp h).trans hcs

/-! ## The directory signal -/

theorem dirComponentLoop_miss (term termLower : GoString) (comps : List GoString)
    (st : ScoreState)
    (h : ∀ c ∈ comps, c ≠ termLower ∧ strings.Contains c termLower = false) :
    dirComponentLoop term termLower comps st = st := by
  induction comps with
  | nil => rfl
  | cons c rest ih =>
    unfold dirComponentLoop
    obtain ⟨h1, h2⟩ := h c (List.mem_cons_self _ _)
    rw [if_neg h1, if_neg (by simp [h2])]
    exact ih (fun c hc => h c (List.mem_cons_of_mem _ hc))

theorem dirStep_miss (dirPath : GoString) (st : ScoreState) (term : GoString)
    (h : strings.Contains dirPath (strings.ToLower term) = false) :
    dirStep dirPath st term = st := by
  unfold dirStep
  simp only [h, Bool.false_and, Bool.false_eq_true, if_false]
  apply dirComponentLoop_miss
  intro c hc
  constructor
  · intro heq
    have := contains_of_component dirPath _ '/' c hc (Or.inl heq)
    rw [h] at this
    cases this
  · by_contra hne
    have hct : strings.Contains c (strings.ToLower term) = true := by
      cases hb : strings.Contains c (strings.ToLower term)
      · exact absurd hb hne
      · rfl
    have := contains_of_component dirPath _ '/' c hc (Or.inr hct)
    rw [h] at this
    cases this

theorem dirComponentLoop_ge (term termLower : GoString) (comps : List GoString)
    (st : ScoreState) : st.1 ≤ (dirComponentLoop term termLower comps st).1 := by
  induction comps with
  | nil => exact le_refl _
  | cons c rest ih =>
    unfold dirComponentLoop
    split_ifs
    · simp only
      linarith
    · simp only
      linarith
    · exact ih

theorem dirComponentLoop_hit (term termLower : GoString) (comps : List GoString)
    (st : ScoreState) (h : ∃ c ∈ comps, strings.Contains c termLower = true) :
    st.1 + 1.8 ≤ (dirComponentLoop term termLower comps st).1 := by
  induction comps with
  | nil =>
    obtain ⟨c, hc, _⟩ := h
    cases hc
  | cons c rest ih =>
    unfold dirComponentLoop
    split_ifs with h1 h2
    · simp only
      linarith
    · simp only
      linarith
    · apply ih
      obtain ⟨c2, hc2, hcont⟩ := h
      rcases List.mem_cons.mp hc2 with heq | hmem
      · rw [heq] at hcont
        exact absurd hcont h2
      · exact ⟨c2, hmem, hcont⟩

theorem dirStep_ge (dirPath : GoString) (st : ScoreState) (term : GoString) :
    st.1 ≤ (dirStep dirPath st term).1 := by
  unfold dirStep
  simp only
  have := dirComponentLoop_ge term (strings.ToLower term) (strings.Split dirPath '/') st
  split_ifs
  · simp only
    linarith
  · exact this

theorem dirStep_hit (dirPath : GoString) (st : ScoreState) (term : GoString)
    (h : ∃ c ∈ strings.Split dirPath '/', strings.Contains c (strings.ToLower term) = true) :
    st.1 + 1.8 ≤ (dirStep dirPath st term).1 := by
  unfold dirStep
  simp only
  have := dirComponentLoop_hit term (strings.ToLower term) (strings.Split dirPath '/') st h
  split_ifs
  · simp only
    linarith
  · exact this

theorem dirFold_ge (dirPath : GoString) (terms : List GoString) (st : ScoreState) :
    st.1 ≤ (terms.foldl (dirStep dirPath) st).1 := by
  induction terms generalizing st with
  | nil => exact le_refl _
  | cons t rest ih => exact le_trans (dirStep_ge dirPath st t) (ih _)

theorem dirFold_hit (dirPath : GoString) (terms : List GoString) (st : ScoreState)
    (h : ∃ t ∈ terms, ∃ c ∈ strings.Split dirPath '/',
      strings.Contains c (strings.ToLower t) = true) :
    st.1 + 1.8 ≤ (terms.foldl (dirStep dirPath) st).1 := by
  induction terms generalizing st with
  | nil =>
    obtain ⟨t, ht, _⟩ := h
    cases ht
  | cons t rest ih =>
    rw [List.foldl_cons]
    obtain ⟨t2, ht2, hc⟩ := h
    rcases List.mem_cons.mp ht2 with heq | hmem
    · rw [heq] at hc
      exact le_trans (dirStep_hit dirPath st t hc) (dirFold_ge dirPath rest _)
    · exact le_trans (by linarith [dirStep_ge dirPath st t]) (ih _ ⟨t2, hmem, hc⟩)

theorem dirFold_miss (dirPath : GoString) (terms : List GoString) (st : ScoreState)
    (h : ∀ t ∈ terms, strings.Contains dirPath (strings.ToLower t) = false) :
    terms.foldl (dirStep dirPath) st = st := by
  induction terms generalizing st with
  | nil => rfl
  | cons t rest ih =>
    rw [List.foldl_cons, dirStep_miss dirPath st t (h t (List.mem_cons_self _ _))]
    exact ih st (fun t ht => h t (List.mem_cons_of_mem _ ht))

/-! ## The filename signal does not depend on the score accumulated before -/

theorem partialWordLoop_shift (term termLower : GoString) (words : List GoString)
    (st st2 : ScoreState) :
    (partialWordLoop term termLower words st).1 - st.1 =
      (partialWordLoop term termLower words st2).1 - st2.1 := by
  induction words with
  | nil => simp [partialWordLoop]
  | cons w rest ih =>
    unfold partialWordLoop
    split_ifs
    · exact ih
    · simp
    · exact ih

theorem fileNameStep_shift (fileNameNoExt : GoString) (st st2 : ScoreState)
    (term : GoString) :
    (fileNameStep fileNameNoExt st term).1 - st.1 =
      (fileNameStep fileNameNoExt st2 term).1 - st2.1 := by
  unfold fileNameStep
  simp only
  split_ifs
  · simp
  · simp
  · simp
  · exact partialWordLoop_shift _ _ _ _ _

theorem fileNameFold_shift (fileNameNoExt : GoString) (terms : List GoString)
    (st st2 : ScoreState) :
    (terms.foldl (fileNameStep fileNameNoExt) st).1 - st.1 =
      (terms.foldl (fileNameStep fileNameNoExt) st2).1 - st2.1 := by
  induction terms generalizing st st2 with
  | nil => simp
  | cons t rest ih =>
    rw [List.foldl_cons, List.foldl_cons]
    have h1 := ih (fileNameStep fileNameNoExt st t) (fileNameStep fileNameNoExt st2 t)
    have h2 := fileNameStep_shift fileNameNoExt st st2 t
    linarith

theorem calculateFileScore_fst (ff : FileFinder) (filePath : GoString)
    (queryTerms : List GoString) (h : queryTerms ≠ []) :
    (calculateFileScore ff filePath queryTerms).1 =
      normalizeScore (rawScore ff filePath queryTerms) := by
  unfold calculateFileScore normalizeScore rawScore
  rw [if_neg (by simpa using h)]

theorem rawScore_nonneg (ff : FileFinder) (filePath : GoString)
    (queryTerms : List GoString) : 0 ≤ rawScore ff filePath queryTerms :=
  (rawState_inv ff filePath queryTerms _ _).1

theorem normalizeScore_mono {a b : ℚ} (hab : a ≤ b) :
    normalizeScore a ≤ normalizeScore b := by
  unfold normalizeScore
  simp only
  split_ifs <;> norm_num at * <;> linarith

theorem normalizeScore_strict {a b : ℚ} (hab : a < b)
    (hlt : normalizeScore a < 1) : normalizeScore a < normalizeScore b := by
  unfold normalizeScore at *
  simp only at *
  split_ifs at * <;> norm_num at * <;> linarith

/-- C3, as stated, fails: with the terms of the query `apis endpoints`, the files
`api/apis_endpoints.md` and `docs/apis_endpoints.md` have the same base name and the same
content, the directory of the first is a query term and the directory of the second
contains none, and yet both scores are capped at 1, so the first is not strictly
greater. -/
theorem directory_match_not_strict_at_cap :
    normalizeQuery "apis endpoints".toList ≠ [] ∧
    filepath.Base "api/apis_endpoints.md".toList =
      filepath.Base "docs/apis_endpoints.md".toList ∧
    twinFS.readFile "api/apis_endpoints.md".toList =
      twinFS.readFile "docs/apis_endpoints.md".toList ∧
    dirMentions "api/apis_endpoints.md".toList (normalizeQuery "apis endpoints".toList) = true ∧
    dirAvoids "docs/apis_endpoints.md".toList (normalizeQuery "apis endpoints".toList) = true ∧
    ¬ ((calculateFileScore { fs := twinFS } "api/apis_endpoints.md".toList
          (normalizeQuery "apis endpoints".toList)).1 >
        (calculateFileScore { fs := twinFS } "docs/apis_endpoints.md".toList
          (normalizeQuery "apis endpoints".toList)).1) := by
  decide!

/-- C3, amended: for a non-empty term list and two files with the same base name and the
same content, if the directory of the first contains some query term and the directory of
the second contains none, the first scores at least as high as the second, and strictly
higher whenever the score of the second is below the cap 1.  In the test, with the terms
of the query `api`, `testData/foo/api/bar.md` scores strictly higher than
`testData/foo/bad.md`. -/
theorem directory_match_ranks_higher (ff : FileFinder) (p1 p2 : GoString)
    (queryTerms : List GoString) (hne : queryTerms ≠ [])
    (hbase : filepath.Base p1 = filepath.Base p2)
    (hcontent : ff.fs.readFile p1 = ff.fs.readFile p2)
    (h1 : dirMentions p1 queryTerms = true) (h2 : dirAvoids p2 queryTerms = true) :
    ((calculateFileScore ff p2 queryTerms).1 ≤ (calculateFileScore ff p1 queryTerms).1 ∧
      ((calculateFileScore ff p2 queryTerms).1 < 1 →
        (calculateFileScore ff p2 queryTerms).1 < (calculateFileScore ff p1 queryTerms).1)) ∧
    (calculateFileScore { fs := scoreTestFS } "testData/foo/bad.md".toList
        (normalizeQuery "api".toList)).1 <
      (calculateFileScore { fs := scoreTestFS } "testData/foo/api/bar.md".toList
        (normalizeQuery "api".toList)).1 := by
  refine ⟨?_, by decide!⟩
  have hc : scoreFileContent ff p1 queryTerms = scoreFileContent ff p2 queryTerms := by
    unfold scoreFileContent
    rw [hcontent]
  have hmiss : ∀ t ∈ queryTerms,
      strings.Contains (strings.ToLower (filepath.Dir p2)) (strings.ToLower t) = false := by
    intro t ht
    have := List.all_eq_true.mp h2 t ht
    simpa using this
  have hhit : ∃ t ∈ queryTerms, ∃ c ∈ strings.Split (strings.ToLower (filepath.Dir p1)) '/',
      strings.Contains c (strings.ToLower t) = true := by
    obtain ⟨t, ht, hany⟩ := List.any_eq_true.mp h1
    obtain ⟨c, hcm, hcc⟩ := List.any_eq_true.mp hany
    exact ⟨t, ht, c, hcm, hcc⟩
  have hd1 := dirFold_hit (strings.ToLower (filepath.Dir p1)) queryTerms (0, []) hhit
  have hd2 := dirFold_miss (strings.ToLower (filepath.Dir p2)) queryTerms (0, []) hmiss
  have hraw : rawScore ff p2 queryTerms + 1.8 ≤ rawScore ff p1 queryTerms := by
    unfold rawScore
    simp only
    rw [hd2, hc, hbase]
    have hs := fileNameFold_shift
      (strings.ToLower (strings.TrimSuffix (strings.ToLower (filepath.Base p2))
        (filepath.Ext (strings.ToLower (filepath.Base p2))))) queryTerms
      (queryTerms.foldl (dirStep (strings.ToLower (filepath.Dir p1))) ((0, []) : ScoreState))
      ((0, []) : ScoreState)
    simp only at hs hd1
    linarith
  rw [calculateFileScore_fst ff p1 queryTerms hne, calculateFileScore_fst ff p2 queryTerms hne]
  constructor
  · exact normalizeScore_mono (by linarith)
  · intro hlt
    exact normalizeScore_strict (by linarith) hlt

theorem directory_match_ranks_higher_witness :
    ((calculateFileScore { fs := twinFS } "docs/apis_endpoints.md".toList ["api".toList]).1 ≤
        (calculateFileScore { fs := twinFS } "api/apis_endpoints.md".toList ["api".toList]).1 ∧
      ((calculateFileScore { fs := twinFS } "docs/apis_endpoints.md".toList ["api".toList]).1 < 1 →
        (calculateFileScore { fs := twinFS } "docs/apis_endpoints.md".toList ["api".toList]).1 <
          (calculateFileScore { fs := twinFS } "api/apis_endpoints.md".toList
            ["api".toList]).1)) ∧
    (calculateFileScore { fs := scoreTestFS } "testData/foo/bad.md".toList
        (normalizeQuery "api".toList)).1 <
      (calculateFileScore { fs := scoreTestFS } "testData/foo/api/bar.md".toList
        (normalizeQuery "api".toList)).1 :=
  directory_match_ranks_higher { fs := twinFS } "api/apis_endpoints.md".toList
    "docs/apis_endpoints.md".toList ["api".toList] (by decide) (by decide) (by decide)
    (by decide) (by decide)

/-- C4: for `maxFiles > 0` the list returned by `FindRelevantFiles` is sorted by
non-increasing `Score`: for positions `i < j`, the score at `i` is at least the score at
`j`. -/
theorem FindRelevantFiles_sorted (ff : FileFinder) (query : GoString) (maxFiles : Int)
    (hmax : maxFiles > 0) (i j : Nat) (hij : i < j)
    (hj : j < (FindRelevantFiles ff query maxFiles).1.length) :
    ((FindRelevantFiles ff query maxFiles).1[i]).Score ≥
      ((FindRelevantFiles ff query maxFiles).1[j]).Score := by
  have hp : (FindRelevantFiles ff query maxFiles).1.Pairwise
      (fun a b : FileMatch => a.Score ≥ b.Score) := by
    rw [FindRelevantFiles_eq]
    simp only
    rw [if_neg (by omega)]
    exact List.Pairwise.sublist (List.take_sublist _ _)
      (sortSlice_sorted (fun m : FileMatch => m.Score) _)
  exact List.pairwise_iff_getElem.mp hp i j (by omega) hj hij

theorem FindRelevantFiles_sorted_witness :
    ∃ (h0 : 0 < (FindRelevantFiles testFinder "api".toList 5).1.length)
      (h1 : 1 < (FindRelevantFiles testFinder "api".toList 5).1.length),
      ((FindRelevantFiles testFinder "api".toList 5).1[0]).Score ≥
        ((FindRelevantFiles testFinder "api".toList 5).1[1]).Score :=
  ⟨by decide!, by decide!,
    FindRelevantFiles_sorted testFinder "api".toList 5 (by decide) 0 1 (by decide)
      (by decide!)⟩

/-- C6: for `maxFiles ≤ 0`, `FindRelevantFiles` returns the empty list and no error. -/
theorem FindRelevantFiles_nonpositive (ff : FileFinder) (query : GoString) (maxFiles : Int)
    (hmax : maxFiles ≤ 0) : FindRelevantFiles ff query maxFiles = ([], none) := by
  rw [FindRelevantFiles_eq, if_pos hmax]

theorem FindRelevantFiles_nonpositive_witness :
    FindRelevantFiles testFinder "api".toList 0 = ([], none) ∧
      FindRelevantFiles testFinder "api".toList (-3) = ([], none) ∧
      (FindRelevantFiles testFinder "api".toList 5).1 ≠ [] :=
  ⟨FindRelevantFiles_nonpositive testFinder _ 0 (by decide),
    FindRelevantFiles_nonpositive testFinder _ (-3) (by decide), by decide!⟩

theorem eligible_iff (ff : FileFinder) (queryTerms : List GoString) (step : WalkStep) :
    eligible ff queryTerms step = true ↔
      step.err = false ∧ step.isDir = false ∧ isDocumentationFile step.path = true ∧
        0 < (calculateFileScore ff step.path queryTerms).1 := by
  unfold eligible
  simp [and_assoc]

theorem walkMatches_paths_nodup (ff : FileFinder) (queryTerms : List GoString) :
    (((ff.fs.walk.filter (eligible ff queryTerms)).map (matchOf ff queryTerms)).map
      (fun m => m.Path)).Nodup := by
  have hsub : ((ff.fs.walk.filter (eligible ff queryTerms)).map (fun s => s.path)).Sublist
      ((ff.fs.walk.filter (fun s => !s.err && !s.isDir)).map (fun s => s.path)) := by
    apply List.Sublist.map
    apply List.monotone_filter_right
    intro s hs
    have := (eligible_iff ff queryTerms s).mp hs
    simp [this.1, this.2.1]
  have := List.Nodup.sublist hsub ff.fs.filesOnce
  simpa [List.map_map, Function.comp, matchOf] using this

/-- C5: for `maxFiles > 0`, `FindRelevantFiles` returns exactly `min(maxFiles, n)` matches,
`n` being the number of walked non-directory documentation files with a positive score;
every returned match is such a file, with that score as `Score` and the base name of
`Path` as `FileName`; no path is returned twice; and no such file that was left out has a
score strictly greater than a returned one. -/
theorem FindRelevantFiles_top_matches (ff : FileFinder) (query : GoString) (maxFiles : Int)
    (hmax : maxFiles > 0) :
    (FindRelevantFiles ff query maxFiles).1.length =
      min maxFiles.toNat
        (ff.fs.walk.filter (eligible ff (normalizeQuery query))).length ∧
    (∀ m ∈ (FindRelevantFiles ff query maxFiles).1,
      ∃ step ∈ ff.fs.walk, step.err = false ∧ step.isDir = false ∧
        isDocumentationFile step.path = true ∧
        0 < (calculateFileScore ff step.path (normalizeQuery query)).1 ∧
        m.Path = step.path ∧
        m.Score = (calculateFileScore ff step.path (normalizeQuery query)).1 ∧
        m.FileName = filepath.Base m.Path) ∧
    ((FindRelevantFiles ff query maxFiles).1.map (fun m => m.Path)).Nodup ∧
    (∀ step ∈ ff.fs.walk, step.err = false → step.isDir = false →
      isDocumentationFile step.path = true →
      0 < (calculateFileScore ff step.path (normalizeQuery query)).1 →
      step.path ∉ (FindRelevantFiles ff query maxFiles).1.map (fun m => m.Path) →
      ∀ m ∈ (FindRelevantFiles ff query maxFiles).1,
        (calculateFileScore ff step.path (normalizeQuery query)).1 ≤ m.Score) := by
  rw [FindRelevantFiles_eq]
  simp only
  rw [if_neg (by omega)]
  set terms := normalizeQuery query with hterms
  set ms := (ff.fs.walk.filter (eligible ff terms)).map (matchOf ff terms) with hms
  set sorted := sort.Slice ms (fun a b => decide (a.Score > b.Score)) with hsorted
  have hperm : sorted.Perm ms := sortSlice_perm _ _
  have hpw : sorted.Pairwise (fun a b : FileMatch => a.Score ≥ b.Score) :=
    sortSlice_sorted (fun m : FileMatch => m.Score) ms
  refine ⟨?_, ?_, ?_, ?_⟩
  · rw [List.length_take, hperm.length_eq, hms, List.length_map]
  · intro m hm
    have h1 := hperm.mem_iff.mp (List.mem_of_mem_take hm)
    obtain ⟨step, hstep, rfl⟩ := List.mem_map.mp h1
    obtain ⟨hw, hel⟩ := List.mem_filter.mp hstep
    obtain ⟨he, hd, hdoc, hpos⟩ := (eligible_iff ff terms step).mp hel
    exact ⟨step, hw, he, hd, hdoc, hpos, rfl, rfl, rfl⟩
  · have hnd : (sorted.map (fun m => m.Path)).Nodup :=
      (hperm.map _).nodup_iff.mpr (walkMatches_paths_nodup ff terms)
    exact List.Nodup.sublist ((List.take_sublist _ _).map _) hnd
  · intro step hw he hd hdoc hpos hout m hm
    have hel : eligible ff terms step = true := (eligible_iff ff terms step).mpr ⟨he, hd, hdoc, hpos⟩
    have hin : matchOf ff terms step ∈ sorted :=
      hperm.mem_iff.mpr (List.mem_map.mpr ⟨step, List.mem_filter.mpr ⟨hw, hel⟩, rfl⟩)
    have hnot : matchOf ff terms step ∉ sorted.take maxFiles.toNat := by
      intro hmem
      exact hout (List.mem_map.mpr ⟨_, hmem, rfl⟩)
    rw [← List.take_append_drop maxFiles.toNat sorted] at hin hpw
    have hdrop : matchOf ff terms step ∈ sorted.drop maxFiles.toNat := by
      rcases List.mem_append.mp hin with h | h
      · exact absurd h hnot
      · exact h
    exact (List.pairwise_append.mp hpw).2.2 m hm _ hdrop

theorem FindRelevantFiles_top_matches_witness :
    (FindRelevantFiles testFinder "api".toList 2).1.length =
      min (2 : Int).toNat
        (testFinder.fs.walk.filter (eligible testFinder (normalizeQuery "api".toList))).length ∧
    (FindRelevantFiles testFinder "api".toList 2).1.length = 2 ∧
    (FindRelevantFiles testFinder "api".toList 9).1.length = 4 :=
  ⟨(FindRelevantFiles_top_matches testFinder "api".toList 2 (by decide)).1, by decide!,
    by decide!⟩

/-! ## Context windows -/

theorem wrapInt_eq (x : Int) (h1 : -2 ^ 63 ≤ x) (h2 : x < 2 ^ 63) : wrapInt x = x := by
  unfold wrapInt
  norm_num at h1 h2 ⊢
  omega

theorem mem_intRange (start stop k : Int) : k ∈ intRange start stop ↔ start ≤ k ∧ k < stop := by
  unfold intRange
  rw [List.mem_map]
  constructor
  · rintro ⟨n, hn, hk⟩
    rw [List.mem_range] at hn
    omega
  · rintro ⟨h1, h2⟩
    refine ⟨(k - start).toNat, ?_, ?_⟩
    · rw [List.mem_range]
      omega
    · omega

theorem expandLoop_length_le (lines : List GoString) (contextLines : Int)
    (sections expanded : List ContentSection) (used : List Int) (h : expanded.length ≤ 5) :
    (expandLoop lines contextLines sections expanded used).length ≤ 5 := by
  induction sections generalizing expanded used with
  | nil => exact h
  | cons sec rest ih =>
    unfold expandLoop
    dsimp only
    split_ifs with h5 hov
    · exact h
    · apply ih
      rw [List.length_append, List.length_singleton]
      omega
    · exact ih _ _ h

theorem expandLoop_disjoint (lines : List GoString) (contextLines : Int)
    (hW : 0 ≤ contextLines) (hno : (lines.length : Int) + contextLines < 2 ^ 63)
    (sections : List ContentSection)
    (hsec : ∀ s ∈ sections, 0 ≤ s.LineNumber ∧ s.LineNumber < (lines.length : Int))
    (expanded : List ContentSection) (used : List Int)
    (hpw : expanded.Pairwise linesDisjoint)
    (hused : ∀ s ∈ expanded, ∀ k : Int, s.LineNumber ≤ k → k ≤ s.EndLine → k ∈ used) :
    (expandLoop lines contextLines sections expanded used).Pairwise linesDisjoint := by
  induction sections generalizing expanded used with
  | nil => exact hpw
  | cons sec rest ih =>
    obtain ⟨hs0, hs1⟩ := hsec sec (List.mem_cons_self _ _)
    have hrest : ∀ s ∈ rest, 0 ≤ s.LineNumber ∧ s.LineNumber < (lines.length : Int) :=
      fun s hs => hsec s (List.mem_cons_of_mem _ hs)
    have hlen : (0 : Int) ≤ (lines.length : Int) := Int.natCast_nonneg _
    norm_num at hno
    have e1 : wrapInt (sec.LineNumber - contextLines) = sec.LineNumber - contextLines :=
      wrapInt_eq _ (by norm_num; omega) (by norm_num; omega)
    have e2 : wrapInt (sec.LineNumber + contextLines) = sec.LineNumber + contextLines :=
      wrapInt_eq _ (by norm_num; omega) (by norm_num; omega)
    have e3 : wrapInt (sec.LineNumber + contextLines + 1) = sec.LineNumber + contextLines + 1 :=
      wrapInt_eq _ (by norm_num; omega) (by norm_num; omega)
    have hstop0 : 0 ≤ minInt (lines.length : Int) (sec.LineNumber + contextLines + 1) := by
      unfold minInt
      split_ifs <;> omega
    have hstop1 : minInt (lines.length : Int) (sec.LineNumber + contextLines + 1) ≤
        (lines.length : Int) := by
      unfold minInt
      split_ifs <;> omega
    have e4 : wrapInt (minInt (lines.length : Int) (sec.LineNumber + contextLines + 1) - 1) =
        minInt (lines.length : Int) (sec.LineNumber + contextLines + 1) - 1 :=
      wrapInt_eq _ (by norm_num; omega) (by norm_num; omega)
    unfold expandLoop
    simp only [e1, e2, e3, e4]
    split_ifs with h5 hov
    · exact hpw
    · apply ih hrest
      · rw [List.pairwise_append]
        refine ⟨hpw, List.pairwise_singleton _ _, ?_⟩
        intro a ha b hb
        rw [List.mem_singleton] at hb
        subst hb
        intro k hk
        obtain ⟨ha1, ha2, hb1, hb2⟩ := hk
        simp only at hb1 hb2
        have hku : k ∈ used := hused a ha k ha1 ha2
        have hkr : k ∈ intRange (maxInt 0 (sec.LineNumber - contextLines))
            (minInt (lines.length : Int) (sec.LineNumber + contextLines + 1)) :=
          (mem_intRange _ _ _).mpr ⟨hb1, by omega⟩
        have hall : ∀ i ∈ intRange (maxInt 0 (sec.LineNumber - contextLines))
            (minInt (lines.length : Int) (sec.LineNumber + contextLines + 1)),
            used.contains i = false := by
          simpa using hov
        have := hall k hkr
        simp only [List.contains_eq_any_beq, List.any_eq_false, beq_iff_eq] at this
        exact this k hku rfl
      · intro s hs k hk1 hk2
        rcases List.mem_append.mp hs with h | h
        · exact List.mem_append_left _ (hused s h k hk1 hk2)
        · rw [List.mem_singleton] at h
          subst h
          simp only at hk1 hk2
          exact List.mem_append_right _ ((mem_intRange _ _ _).mpr ⟨hk1, by omega⟩)
    · exact ih hrest _ _ hpw hused

theorem scoreLines_range (queryTerms : List GoString) (lines : List GoString) (i : Nat) :
    ∀ s ∈ scoreLines queryTerms i lines,
      (i : Int) ≤ s.LineNumber ∧ s.LineNumber < (i : Int) + (lines.length : Int) := by
  induction lines generalizing i with
  | nil =>
    intro s hs
    cases hs
  | cons line rest ih =>
    intro s hs
    unfold scoreLines at hs
    simp only at hs
    have hrest : ∀ s ∈ scoreLines queryTerms (i + 1) rest,
        (i : Int) ≤ s.LineNumber ∧ s.LineNumber < (i : Int) + ((line :: rest).length : Int) := by
      intro s hs
      have := ih (i + 1) s hs
      simp only [List.length_cons]
      push_cast at this ⊢
      omega
    split_ifs at hs
    · rcases List.mem_cons.mp hs with h | h
      · subst h
        simp only [List.length_cons]
        push_cast
        omega
      · exact hrest s h
    · exact hrest s hs

/-- C7, as stated, fails on a 64-bit `int`: for the content `a\na b`, the terms `a`, `b`
and the half-width `W = 2^63 - 2 ≥ 0`, the sum `LineNumber + W + 1` of the best line
(index 1) wraps around to `-2^63`, its window is empty and marks no line, and two
sections are returned whose ranges `[0, 2^63 - 1]` and `[0, 1]` both contain line 0. -/
theorem sections_overlap_on_overflow :
    (0 : Int) ≤ 2 ^ 63 - 2 ∧ wrapInt (2 ^ 63 - 2) = 2 ^ 63 - 2 ∧
    findRelevantSections "a\na b".toList ["a".toList, "b".toList] (2 ^ 63 - 2) =
      [{ LineNumber := 0, EndLine := 2 ^ 63 - 1, Score := float64 2.2, Content := [] },
       { LineNumber := 0, EndLine := 1, Score := 1, Content := "a\na b".toList }] ∧
    ¬ linesDisjoint
      { LineNumber := 0, EndLine := 2 ^ 63 - 1, Score := float64 2.2, Content := [] }
      { LineNumber := 0, EndLine := 1, Score := 1, Content := "a\na b".toList } := by
  refine ⟨by decide, by decide!, by decide!, ?_⟩
  intro h
  exact h 0 ⟨by decide, by decide, by decide, by decide⟩

/-- C7, amended: for every content with `n` lines, term list and half-width `W` with
`0 ≤ W` and `n + W < 2^63` (so that no window bound overflows), any two distinct
sections returned by `findRelevantSections` have disjoint closed ranges
`[LineNumber, EndLine]`. -/
theorem findRelevantSections_disjoint (content : GoString) (queryTerms : List GoString)
    (contextLines : Int) (hW : 0 ≤ contextLines)
    (hno : ((strings.Split content '\n').length : Int) + contextLines < 2 ^ 63) :
    (findRelevantSections content queryTerms contextLines).Pairwise linesDisjoint := by
  unfold findRelevantSections expandSectionsWithContext
  simp only
  split_ifs with h0
  · rw [List.length_eq_zero.mp h0]
    exact List.Pairwise.nil
  · apply expandLoop_disjoint _ _ hW hno _ _ _ _ List.Pairwise.nil
    · intro s hs
      cases hs
    · intro s hs
      have hm := (sortSlice_perm _ _).mem_iff.mp hs
      have := scoreLines_range queryTerms (strings.Split content '\n') 0 s hm
      push_cast at this
      omega

theorem findRelevantSections_disjoint_witness :
    (findRelevantSections "a\na b\nc\nd a\n# a".toList ["a".toList, "b".toList] 1).Pairwise
      linesDisjoint ∧
    (findRelevantSections "a\na b\nc\nd a\n# a".toList ["a".toList, "b".toList] 1).length = 2 :=
  ⟨findRelevantSections_disjoint _ _ 1 (by decide) (by decide!), by decide!⟩

/-- C8: `expandSectionsWithContext` returns at most 5 sections, for every line sequence,
every list of scored lines and every context half-width, negative ones included. -/
theorem expandSectionsWithContext_length_le (lines : List GoString)
    (sections : List ContentSection) (contextLines : Int) :
    (expandSectionsWithContext lines sections contextLines).length ≤ 5 := by
  unfold expandSectionsWithContext
  split_ifs with h0
  · omega
  · exact expandLoop_length_le _ _ _ _ _ (by simp)

/-! ## Query normalisation -/

theorem normalizeLoop_eq (tokens : List GoString) (acc : List GoString) :
    tokens.foldl normalizeStep acc =
      acc ++ (tokens.filterMap (fun term =>
        let term := strings.ToLower (strings.TrimSpace term)
        if isStopWord term then none
        else
          let cleaned := strings.Trim term punctuation
          if len cleaned > 1 then some cleaned else none)).flatMap
        (fun c => c :: generateTermVariations c) := by
  induction tokens generalizing acc with
  | nil => simp
  | cons t rest ih =>
    rw [List.foldl_cons, ih, List.filterMap_cons]
    unfold normalizeStep
    dsimp only
    by_cases hstop : isStopWord (strings.ToLower (strings.TrimSpace t)) = true
    · simp only [hstop, if_true]
    · simp only [hstop]
      by_cases hlen : len (strings.Trim (strings.ToLower (strings.TrimSpace t)) punctuation) > 1
      · simp only [hlen, if_true, Bool.false_eq_true, if_false, List.flatMap_cons,
          List.append_assoc, List.singleton_append, List.cons_append, List.nil_append]
      · simp only [hlen, if_false, Bool.false_eq_true]

theorem firstOccurrences_mem (l : List GoString) (x : GoString) :
    x ∈ firstOccurrences l ↔ x ∈ l := by
  induction l with
  | nil => simp [firstOccurrences]
  | cons a l ih =>
    simp only [firstOccurrences, List.mem_cons, List.mem_filter, ih, bne_iff_ne, ne_eq,
      decide_not, Bool.not_eq_true', decide_eq_false_iff_not]
    by_cases h : x = a
    · simp [h]
    · simp [h]

theorem firstOccurrences_nodup (l : List GoString) : (firstOccurrences l).Nodup := by
  induction l with
  | nil => exact List.nodup_nil
  | cons a l ih =>
    simp only [firstOccurrences, List.nodup_cons]
    constructor
    · intro h
      have := (List.mem_filter.mp h).2
      simp at this
    · exact ih.filter _

theorem uniqueLoop_eq (l : List GoString) (seen unique : List GoString) :
    (l.foldl uniqueStep (seen, unique)).2 =
      unique ++ (firstOccurrences l).filter (fun y => !seen.contains y) := by
  induction l generalizing seen unique with
  | nil => simp [firstOccurrences]
  | cons a l ih =>
    rw [List.foldl_cons]
    have hstep : uniqueStep (seen, unique) a =
        if seen.contains a = true then (seen, unique) else (a :: seen, unique ++ [a]) := rfl
    rw [hstep]
    by_cases ha : seen.contains a = true
    · rw [if_pos ha, ih]
      congr 1
      simp only [firstOccurrences, List.filter_cons, ha, Bool.not_true, Bool.false_eq_true,
        if_false, List.filter_filter]
      apply List.filter_congr
      intro y _
      by_cases hy : y = a
      · subst hy
        have hm : y ∈ seen := by simpa using ha
        simp [hm]
      · simp [hy]
    · rw [if_neg ha, ih]
      simp only [firstOccurrences, List.filter_cons, ha, Bool.not_false, if_true,
        List.append_assoc, List.singleton_append, List.filter_filter]
      congr 2
      apply List.filter_congr
      intro y _
      by_cases hy : y = a
      · subst hy
        simp
      · have : (a == y) = false := by
          simpa using fun h => hy h.symm
        simp [List.contains_cons, hy, this]

/-- C9: `normalizeQuery` returns a list without duplicates, equal to the first-occurrence
deduplication of the concatenation, over the surviving tokens in query order, of the
cleaned token followed by its `generateTermVariations`; `the api and authentication`
gives `api, authentication`, `apis endpoints` gives `apis, api, endpoints, endpoint`, and
the empty query gives the empty list. -/
theorem normalizeQuery_first_occurrences (query : GoString) :
    (normalizeQuery query).Nodup ∧
    normalizeQuery query =
      firstOccurrences
        ((survivingTokens query).flatMap (fun c => c :: generateTermVariations c)) ∧
    normalizeQuery "the api and authentication".toList =
      ["api".toList, "authentication".toList] ∧
    normalizeQuery "apis endpoints".toList =
      ["apis".toList, "api".toList, "endpoints".toList, "endpoint".toList] ∧
    normalizeQuery "".toList = [] := by
  have heq : normalizeQuery query =
      firstOccurrences
        ((survivingTokens query).flatMap (fun c => c :: generateTermVariations c)) := by
    unfold normalizeQuery survivingTokens
    simp only
    rw [normalizeLoop_eq, uniqueLoop_eq]
    simp
  refine ⟨?_, heq, by decide, by decide, by decide⟩
  rw [heq]
  exact firstOccurrences_nodup _

/-- C10 fails on the code: the stop word test of `normalizeQuery` is applied to the
lower-cased token before its punctuation is trimmed, so the token `the,` (cleaned form
`the`, a stop word) is kept, and likewise `(and)`. -/
theorem normalizeQuery_keeps_punctuated_stop_word :
    isStopWord (strings.Trim (strings.ToLower "the,".toList) punctuation) = true ∧
    normalizeQuery "the,".toList = ["the".toList] ∧
    isStopWord (strings.Trim (strings.ToLower "(and)".toList) punctuation) = true ∧
    normalizeQuery "(and)".toList = ["and".toList] ∧
    normalizeQuery "the".toList = [] := by
  decide

/-! ## Term variations -/

theorem len_append (a b : GoString) : len (a ++ b) = len a + len b := by
  unfold len
  rw [List.map_append, List.sum_append]

theorem sliceTo_append (s r : GoString) : sliceTo (s ++ r) (len s) = s := by
  induction s with
  | nil =>
    cases r with
    | nil => rfl
    | cons c r =>
      have := Char.utf8Size_pos c
      simp only [List.nil_append, sliceTo, len, List.map_nil, List.sum_nil]
      rw [if_neg (by omega)]
  | cons c s ih =>
    have hl : len (c :: s) = c.utf8Size + len s := by
      simp [len]
    rw [List.cons_append, sliceTo, hl, if_pos (by omega), Nat.add_sub_cancel_left, ih]

theorem hasSuffix_iff (s suffix : GoString) :
    strings.HasSuffix s suffix = true ↔ suffix <:+ s := by
  unfold strings.HasSuffix
  rw [hasPrefix_iff, List.reverse_prefix]

theorem sliceTo_suffix (t suffix : GoString) (h : suffix <:+ t) :
    sliceTo t (len t - len suffix) = t.take (t.length - suffix.length) ∧
      t = t.take (t.length - suffix.length) ++ suffix := by
  obtain ⟨s, rfl⟩ := h
  rw [len_append, Nat.add_sub_cancel, sliceTo_append, List.length_append, Nat.add_sub_cancel,
    List.take_left]
  exact ⟨rfl, rfl⟩

theorem getLast_of_suffix (t suffix : GoString) (h : suffix <:+ t) (hne : suffix ≠ []) :
    t.getLast? = suffix.getLast? := by
  obtain ⟨s, rfl⟩ := h
  cases suffix with
  | nil => exact absurd rfl hne
  | cons c r =>
    rw [List.getLast?_append, List.getLast?_eq_getLast (c :: r) hne]
    rfl

theorem generateTermVariations_eq (t : GoString) :
    generateTermVariations t =
      (if 3 < len t ∧ "s".toList <:+ t ∧ ¬ "ss".toList <:+ t then [t.take (t.length - 1)]
        else if 5 < len t ∧ "ing".toList <:+ t then [t.take (t.length - 3)]
        else if 5 < len t ∧ "ed".toList <:+ t then [t.take (t.length - 2)]
        else []) := by
  have hs := hasSuffix_iff t ['s']
  have hss := hasSuffix_iff t ['s', 's']
  have hing := hasSuffix_iff t ['i', 'n', 'g']
  have hed := hasSuffix_iff t ['e', 'd']
  show generateTermVariations t =
    (if 3 < len t ∧ ['s'] <:+ t ∧ ¬ ['s', 's'] <:+ t then [t.take (t.length - 1)]
      else if 5 < len t ∧ ['i', 'n', 'g'] <:+ t then [t.take (t.length - 3)]
      else if 5 < len t ∧ ['e', 'd'] <:+ t then [t.take (t.length - 2)]
      else [])
  unfold generateTermVariations
  by_cases h1 : ['s'] <:+ t
  · have l1 := getLast_of_suffix t _ h1 (by decide)
    have n2 : ¬ ['i', 'n', 'g'] <:+ t := by
      intro h
      have := getLast_of_suffix t _ h (by decide)
      rw [l1] at this
      exact absurd this (by decide)
    have n3 : ¬ ['e', 'd'] <:+ t := by
      intro h
      have := getLast_of_suffix t _ h (by decide)
      rw [l1] at this
      exact absurd this (by decide)
    have e1 := (sliceTo_suffix t _ h1).1
    have b1 := hs.mpr h1
    have b2 : strings.HasSuffix t ['i', 'n', 'g'] = false := by
      cases hb : strings.HasSuffix t ['i', 'n', 'g']
      · rfl
      · exact absurd (hing.mp hb) n2
    have b3 : strings.HasSuffix t ['e', 'd'] = false := by
      cases hb : strings.HasSuffix t ['e', 'd']
      · rfl
      · exact absurd (hed.mp hb) n3
    have hl1 : len ['s'] = 1 := by decide
    rw [hl1] at e1
    simp only [List.length_singleton] at e1
    by_cases h2 : ['s', 's'] <:+ t
    · have b4 := hss.mpr h2
      simp [b1, b2, b3, b4, h1, h2, n2, n3]
    · have b4 : strings.HasSuffix t ['s', 's'] = false := by
        cases hb : strings.HasSuffix t ['s', 's']
        · rfl
        · exact absurd (hss.mp hb) h2
      by_cases h3 : 3 < len t
      · simp [b1, b2, b3, b4, h1, h2, n2, n3, h3, e1]
      · simp [b1, b2, b3, b4, h1, h2, n2, n3, h3]
  · have b1 : strings.HasSuffix t ['s'] = false := by
      cases hb : strings.HasSuffix t ['s']
      · rfl
      · exact absurd (hs.mp hb) h1
    by_cases h2 : ['i', 'n', 'g'] <:+ t
    · have l2 := getLast_of_suffix t _ h2 (by decide)
      have n3 : ¬ ['e', 'd'] <:+ t := by
        intro h
        have := getLast_of_suffix t _ h (by decide)
        rw [l2] at this
        exact absurd this (by decide)
      have b3 : strings.HasSuffix t ['e', 'd'] = false := by
        cases hb : strings.HasSuffix t ['e', 'd']
        · rfl
        · exact absurd (hed.mp hb) n3
      have b2 := hing.mpr h2
      have e2 := (sliceTo_suffix t _ h2).1
      have hl : len ['i', 'n', 'g'] = 3 := by decide
      rw [hl] at e2
      simp only [List.length_cons, List.length_nil] at e2
      by_cases h5 : 5 < len t
      · simp [b1, b2, b3, h1, h2, n3, h5, e2]
      · simp [b1, b2, b3, h1, h2, n3, h5]
    · have b2 : strings.HasSuffix t ['i', 'n', 'g'] = false := by
        cases hb : strings.HasSuffix t ['i', 'n', 'g']
        · rfl
        · exact absurd (hing.mp hb) h2
      by_cases h3 : ['e', 'd'] <:+ t
      · have b3 := hed.mpr h3
        have e3 := (sliceTo_suffix t _ h3).1
        have hl : len ['e', 'd'] = 2 := by decide
        rw [hl] at e3
        simp only [List.length_cons, List.length_nil] at e3
        by_cases h5 : 5 < len t
        · simp [b1, b2, b3, h1, h2, h3, h5, e3]
        · simp [b1, b2, b3, h1, h2, h3, h5]
      · have b3 : strings.HasSuffix t ['e', 'd'] = false := by
          cases hb : strings.HasSuffix t ['e', 'd']
          · rfl
          · exact absurd (hed.mp hb) h3
        simp [b1, b2, b3, h1, h2, h3]

theorem generateTermVariations_mem (t v : GoString) (hv : v ∈ generateTermVariations t) :
    v <+: t ∧ v ≠ t ∧ 3 ≤ len v := by
  have prefixFacts : ∀ (suffix : GoString), suffix <:+ t → suffix ≠ [] →
      len suffix + 3 ≤ len t →
      t.take (t.length - suffix.length) <+: t ∧ t.take (t.length - suffix.length) ≠ t ∧
        3 ≤ len (t.take (t.length - suffix.length)) := by
    intro suffix hsuf hne hlen
    have hdec := (sliceTo_suffix t suffix hsuf).2
    refine ⟨List.take_prefix _ _, ?_, ?_⟩
    · intro heq
      rw [heq] at hdec
      have : suffix = [] := by
        have := congrArg List.length hdec
        rw [List.length_append] at this
        exact List.eq_nil_of_length_eq_zero (by omega)
      exact hne this
    · have := congrArg len hdec
      rw [len_append] at this
      omega
  rw [generateTermVariations_eq] at hv
  have hl1 : len "s".toList = 1 := by decide
  have hl2 : len "ing".toList = 3 := by decide
  have hl3 : len "ed".toList = 2 := by decide
  split_ifs at hv with c1 c2 c3
  · rw [List.mem_singleton] at hv
    rw [hv]
    exact prefixFacts _ c1.2.1 (by decide) (by omega)
  · rw [List.mem_singleton] at hv
    rw [hv]
    exact prefixFacts _ c2.2 (by decide) (by omega)
  · rw [List.mem_singleton] at hv
    rw [hv]
    exact prefixFacts _ c3.2 (by decide) (by omega)
  · cases hv

/-- C11: `generateTermVariations t` is the term without its final `s` when `len t > 3`
and `t` ends in `s` but not in `ss`, the term without its final `ing` when `len t > 5`
and `t` ends in `ing`, the term without its final `ed` when `len t > 5` and `t` ends in
`ed`, and empty otherwise; so it holds at most one variation, a proper prefix of `t` of
length at least 3.  `apis` gives `api`, `testing` and `tested` give `test`, `api` and
`process` give nothing. -/
theorem generateTermVariations_spec (t : GoString) :
    generateTermVariations t =
      (if 3 < len t ∧ "s".toList <:+ t ∧ ¬ "ss".toList <:+ t then [t.take (t.length - 1)]
        else if 5 < len t ∧ "ing".toList <:+ t then [t.take (t.length - 3)]
        else if 5 < len t ∧ "ed".toList <:+ t then [t.take (t.length - 2)]
        else []) ∧
    (generateTermVariations t).length ≤ 1 ∧
    (∀ v ∈ generateTermVariations t, v <+: t ∧ v ≠ t ∧ 3 ≤ len v) ∧
    generateTermVariations "apis".toList = ["api".toList] ∧
    generateTermVariations "testing".toList = ["test".toList] ∧
    generateTermVariations "tested".toList = ["test".toList] ∧
    generateTermVariations "api".toList = [] ∧
    generateTermVariations "process".toList = [] := by
  refine ⟨generateTermVariations_eq t, ?_, generateTermVariations_mem t, by decide, by decide,
    by decide, by decide, by decide⟩
  rw [generateTermVariations_eq]
  split_ifs <;> simp

/-! ## Pipes in a query are token separators -/

theorem split_ne_nil (s : GoString) (sep : Char) : strings.Split s sep ≠ [] := by
  cases s with
  | nil => simp [strings.Split]
  | cons c cs =>
    unfold strings.Split
    split_ifs
    · simp
    · cases strings.Split cs sep <;> simp

theorem fieldsLoop_flush (f : Char → Bool) (s cur : GoString) (c : Char) (hc : f c = true) :
    strings.fieldsLoop f (c :: s) cur =
      strings.fieldsLoop f [] cur ++ strings.fieldsLoop f s [] := by
  simp only [strings.fieldsLoop, hc, if_true]
  split_ifs <;> simp

/-- Splitting at `sep` and collecting the fields of every piece gives the fields of the
string in which `sep` is replaced by a separator rune. -/
theorem fieldsLoop_replace (f : Char → Bool) (sep blank : Char) (hb : f blank = true)
    (s cur : GoString) :
    strings.fieldsLoop f (s.map (fun r => if r = sep then blank else r)) cur =
      strings.fieldsLoop f (strings.Split s sep).head! cur ++
        (strings.Split s sep).tail.flatMap (fun p => strings.fieldsLoop f p []) := by
  induction s generalizing cur with
  | nil => simp [strings.Split, strings.fieldsLoop]
  | cons c cs ih =>
    obtain ⟨h, t, hsp⟩ := List.exists_cons_of_ne_nil (split_ne_nil cs sep)
    have ih0 := ih []
    have ihc := ih (c :: cur)
    rw [hsp] at ih0 ihc
    simp only [List.head!_cons, List.tail_cons] at ih0 ihc
    rw [List.map_cons]
    unfold strings.Split
    by_cases hcs : c = sep
    · simp only [hcs, if_true, List.head!_cons, List.tail_cons, List.flatMap_cons]
      rw [fieldsLoop_flush f _ cur blank hb, ih0, hsp, List.flatMap_cons]
    · simp only [hcs, if_false, hsp, List.head!_cons, List.tail_cons]
      by_cases hfc : f c = true
      · rw [fieldsLoop_flush f _ cur c hfc, fieldsLoop_flush f h cur c hfc, ih0,
          List.append_assoc]
      · simp only [strings.fieldsLoop, hfc, Bool.false_eq_true, if_false]
        exact ihc

theorem fieldsLoop_dropWhile (f : Char → Bool) (s : GoString) :
    strings.fieldsLoop f (s.dropWhile f) [] = strings.fieldsLoop f s [] := by
  induction s with
  | nil => rfl
  | cons c cs ih =>
    by_cases hfc : f c = true
    · rw [List.dropWhile_cons_of_pos hfc, ih]
      simp [strings.fieldsLoop, hfc]
    · rw [List.dropWhile_cons_of_neg hfc]

theorem fieldsLoop_trailing (f : Char → Bool) (s t cur : GoString)
    (ht : ∀ c ∈ t, f c = true) :
    strings.fieldsLoop f (s ++ t) cur = strings.fieldsLoop f s cur := by
  induction s generalizing cur with
  | nil =>
    induction t generalizing cur with
    | nil => rfl
    | cons c t iht =>
      have hc := ht c (List.mem_cons_self _ _)
      have ht2 : ∀ c ∈ t, f c = true := fun c h => ht c (List.mem_cons_of_mem _ h)
      rw [List.nil_append, fieldsLoop_flush f t cur c hc]
      have := iht ht2 []
      rw [List.nil_append] at this
      rw [this]
      simp [strings.fieldsLoop]
  | cons c s ih =>
    rw [List.cons_append]
    by_cases hfc : f c = true
    · rw [fieldsLoop_flush f _ cur c hfc, fieldsLoop_flush f s cur c hfc, ih]
    · simp only [strings.fieldsLoop, hfc, Bool.false_eq_true, if_false]
      exact ih _

theorem rdropWhile_decomp (f : Char → Bool) (s : GoString) :
    ∃ t, s = (s.reverse.dropWhile f).reverse ++ t ∧ ∀ c ∈ t, f c = true := by
  refine ⟨(s.reverse.takeWhile f).reverse, ?_, ?_⟩
  · rw [← List.reverse_append, List.takeWhile_append_dropWhile, List.reverse_reverse]
  · intro c hc
    rw [List.mem_reverse] at hc
    exact (List.mem_takeWhile_imp hc)

theorem fields_trimFunc (f : Char → Bool) (s : GoString) :
    strings.FieldsFunc (strings.TrimFunc s f) f = strings.FieldsFunc s f := by
  unfold strings.FieldsFunc strings.TrimFunc
  obtain ⟨t, ht, hall⟩ := rdropWhile_decomp f (s.dropWhile f)
  have h1 := fieldsLoop_trailing f ((s.dropWhile f).reverse.dropWhile f).reverse t [] hall
  rw [← ht] at h1
  rw [← h1, fieldsLoop_dropWhile]

theorem foldl_append_eq_flatMap {α β : Type} (g : α → List β) (l : List α) (acc : List β) :
    l.foldl (fun a x => a ++ g x) acc = acc ++ l.flatMap g := by
  induction l generalizing acc with
  | nil => simp
  | cons x l ih => rw [List.foldl_cons, ih, List.flatMap_cons, List.append_assoc]

theorem contains_singleton (s : GoString) (c : Char) :
    strings.Contains s [c] = true ↔ c ∈ s := by
  induction s with
  | nil => simp [strings.Contains, strings.HasPrefix]
  | cons x s ih =>
    simp only [strings.Contains, strings.HasPrefix, Bool.and_true, Bool.or_eq_true, beq_iff_eq,
      ih, List.mem_cons]
    constructor
    · rintro (h | h)
      · exact Or.inl h.symm
      · exact Or.inr h
    · rintro (h | h)
      · exact Or.inl h.symm
      · exact Or.inr h

theorem replacePipes_clean (query : GoString) : '|' ∉ replacePipes query := by
  unfold replacePipes
  intro h
  obtain ⟨r, _, hr⟩ := List.mem_map.mp h
  split_ifs at hr with h1
  · exact absurd hr (by decide)
  · exact h1 hr

theorem replacePipes_of_clean (query : GoString) (h : '|' ∉ query) :
    replacePipes query = query := by
  unfold replacePipes
  induction query with
  | nil => rfl
  | cons c cs ih =>
    rw [List.map_cons, ih (fun hm => h (List.mem_cons_of_mem _ hm))]
    rw [if_neg (fun hc => h (by rw [hc]; exact List.mem_cons_self _ _))]

/-- The tokens of a query are the white-space fields of the query with its pipes replaced
by spaces. -/
theorem queryTokens_eq (query : GoString) :
    queryTokens query = strings.Fields (replacePipes query) := by
  unfold queryTokens
  split_ifs with hc
  · rw [foldl_append_eq_flatMap (fun p => strings.Fields (strings.TrimSpace p)), List.nil_append]
    unfold strings.Fields strings.TrimSpace replacePipes strings.FieldsFunc
    rw [fieldsLoop_replace unicode.IsSpace '|' ' ' (by decide) query []]
    obtain ⟨h, t, hsp⟩ := List.exists_cons_of_ne_nil (split_ne_nil query '|')
    rw [hsp]
    simp only [List.head!_cons, List.tail_cons, List.flatMap_cons]
    have e : ∀ p, strings.fieldsLoop unicode.IsSpace (strings.TrimFunc p unicode.IsSpace) [] =
        strings.fieldsLoop unicode.IsSpace p [] := fun p => fields_trimFunc unicode.IsSpace p
    simp only [e]
  · rw [replacePipes_of_clean]
    intro hm
    exact hc ((contains_singleton query '|').mpr hm)

theorem normalizeQuery_eq (query : GoString) :
    normalizeQuery query =
      firstOccurrences
        ((survivingTokens query).flatMap (fun c => c :: generateTermVariations c)) := by
  unfold normalizeQuery survivingTokens
  simp only
  rw [normalizeLoop_eq, uniqueLoop_eq]
  simp

theorem normalizeQuery_mem (query t : GoString) (ht : t ∈ normalizeQuery query) :
    ∃ c ∈ survivingTokens query, t = c ∨ t ∈ generateTermVariations c := by
  rw [normalizeQuery_eq, firstOccurrences_mem, List.mem_flatMap] at ht
  obtain ⟨c, hc, hm⟩ := ht
  exact ⟨c, hc, List.mem_cons.mp hm⟩

theorem survivingTokens_mem (query c : GoString) (hc : c ∈ survivingTokens query) :
    ∃ tok ∈ queryTokens query,
      c = strings.Trim (strings.ToLower (strings.TrimSpace tok)) punctuation ∧ 1 < len c ∧
        isStopWord (strings.ToLower (strings.TrimSpace tok)) = false := by
  unfold survivingTokens at hc
  obtain ⟨tok, htok, h⟩ := List.mem_filterMap.mp hc
  refine ⟨tok, htok, ?_⟩
  simp only at h
  split_ifs at h with h1 h2
  · have := Option.some.inj h
    subst this
    refine ⟨rfl, h2, ?_⟩
    cases hb : isStopWord (strings.ToLower (strings.TrimSpace tok))
    · rfl
    · exact absurd hb h1

theorem len_pos_ne_nil (s : GoString) (h : 0 < len s) : s ≠ [] := by
  intro hs
  rw [hs] at h
  exact absurd h (by decide)

/-- Every term returned by `normalizeQuery` is a non-empty string. -/
theorem normalizeQuery_ne_nil (query t : GoString) (ht : t ∈ normalizeQuery query) :
    t ≠ [] := by
  obtain ⟨c, hc, h⟩ := normalizeQuery_mem query t ht
  obtain ⟨_, _, _, hlen, _⟩ := survivingTokens_mem query c hc
  rcases h with h | h
  · rw [h]
    exact len_pos_ne_nil c (by omega)
  · exact len_pos_ne_nil t (by have := (generateTermVariations_mem c t h).2.2; omega)

theorem fieldsLoop_chars (f : Char → Bool) (s cur w : GoString)
    (hw : w ∈ strings.fieldsLoop f s cur) : ∀ x ∈ w, x ∈ s ∨ x ∈ cur := by
  induction s generalizing cur with
  | nil =>
    intro x hx
    unfold strings.fieldsLoop at hw
    split_ifs at hw
    · cases hw
    · rw [List.mem_singleton] at hw
      rw [hw, List.mem_reverse] at hx
      exact Or.inr hx
  | cons c cs ih =>
    intro x hx
    unfold strings.fieldsLoop at hw
    split_ifs at hw with hfc hcur
    · rcases ih [] hw x hx with h | h
      · exact Or.inl (List.mem_cons_of_mem _ h)
      · cases h
    · rcases List.mem_cons.mp hw with h | h
      · rw [h, List.mem_reverse] at hx
        exact Or.inr hx
      · rcases ih [] h x hx with h2 | h2
        · exact Or.inl (List.mem_cons_of_mem _ h2)
        · cases h2
    · rcases ih (c :: cur) hw x hx with h | h
      · exact Or.inl (List.mem_cons_of_mem _ h)
      · rcases List.mem_cons.mp h with h2 | h2
        · rw [h2]
          exact Or.inl (List.mem_cons_self _ _)
        · exact Or.inr h2

theorem trimFunc_sublist (s : GoString) (f : Char → Bool) : (strings.TrimFunc s f).Sublist s := by
  unfold strings.TrimFunc
  have h1 : ((s.dropWhile f).reverse.dropWhile f).Sublist (s.dropWhile f).reverse :=
    List.dropWhile_sublist _
  have h2 := List.reverse_sublist.mpr h1
  rw [List.reverse_reverse] at h2
  exact h2.trans (List.dropWhile_sublist _)

theorem toLower_eq_pipe (r : Char) (h : unicode.ToLower r = '|') : r = '|' := by
  unfold unicode.ToLower at h
  split_ifs at h with hr
  · exfalso
    obtain ⟨h1, h2⟩ := hr
    have hr2 : r = Char.ofNat r.toNat := (Char.ofNat_toNat r).symm
    generalize r.toNat = n at *
    subst hr2
    interval_cases n <;> exact absurd h (by decide)
  · exact h

/-- C12: `normalizeQuery q` equals `normalizeQuery` of `q` with every `|` replaced by a
space, and no returned term contains `|`; both `api|auth` and `api auth` give
`api, auth`. -/
theorem normalizeQuery_pipes_are_separators (query : GoString) :
    normalizeQuery query = normalizeQuery (replacePipes query) ∧
    (∀ t ∈ normalizeQuery query, '|' ∉ t) ∧
    normalizeQuery "api|auth".toList = ["api".toList, "auth".toList] ∧
    normalizeQuery "api auth".toList = ["api".toList, "auth".toList] := by
  have htok : queryTokens (replacePipes query) = queryTokens query := by
    rw [queryTokens_eq, queryTokens_eq, replacePipes_of_clean _ (replacePipes_clean query)]
  refine ⟨?_, ?_, by decide, by decide⟩
  · unfold normalizeQuery
    rw [htok]
  · intro t ht hpipe
    obtain ⟨c, hc, h⟩ := normalizeQuery_mem query t ht
    obtain ⟨tok, htok2, hceq, _, _⟩ := survivingTokens_mem query c hc
    have hcpipe : '|' ∈ c := by
      rcases h with h | h
      · rw [← h]
        exact hpipe
      · exact (generateTermVariations_mem c t h).1.subset hpipe
    rw [hceq] at hcpipe
    have h1 : '|' ∈ strings.ToLower (strings.TrimSpace tok) :=
      (trimFunc_sublist _ _).subset hcpipe
    obtain ⟨x, hx, hxl⟩ := List.mem_map.mp h1
    have hx2 : x = '|' := toLower_eq_pipe x hxl
    rw [hx2] at hx
    have h2 : '|' ∈ tok := (trimFunc_sublist _ _).subset hx
    rw [queryTokens_eq] at htok2
    rcases fieldsLoop_chars unicode.IsSpace _ [] tok htok2 '|' h2 with h3 | h3
    · exact replacePipes_clean query h3
    · cases h3

/-! ## Documentation files -/

theorem takeWhile_append_of_exists {α : Type} (p : α → Bool) (xs ys : List α)
    (h : ∃ a ∈ xs, p a = false) : (xs ++ ys).takeWhile p = xs.takeWhile p := by
  induction xs with
  | nil =>
    obtain ⟨a, ha, _⟩ := h
    cases ha
  | cons x xs ih =>
    rw [List.cons_append]
    by_cases hx : p x = true
    · rw [List.takeWhile_cons_of_pos hx, List.takeWhile_cons_of_pos hx, ih]
      obtain ⟨a, ha, hpa⟩ := h
      rcases List.mem_cons.mp ha with h1 | h1
      · rw [h1, hx] at hpa
        cases hpa
      · exact ⟨a, h1, hpa⟩
    · rw [List.takeWhile_cons_of_neg hx, List.takeWhile_cons_of_neg hx]

theorem ext_of_element (name : GoString) :
    (if name.contains '.' = true then
        '.' :: (name.reverse.takeWhile (fun r => r != '.')).reverse
      else []) = suffixFromLastDot name := by
  induction name with
  | nil => rfl
  | cons c cs ih =>
    unfold suffixFromLastDot
    by_cases hdot : '.' ∈ cs
    · have hc : cs.contains '.' = true := by simpa using hdot
      rw [if_pos hdot, ← ih, if_pos hc, if_pos (by simp [hdot]), List.reverse_cons,
        takeWhile_append_of_exists _ _ _ ⟨'.', List.mem_reverse.mpr hdot, by decide⟩]
    · rw [if_neg hdot]
      have hall : ∀ a ∈ cs.reverse, (fun r : Char => r != '.') a = true := by
        intro a ha
        have : a ≠ '.' := fun h => hdot (by rw [← h]; exact List.mem_reverse.mp ha)
        simpa using this
      by_cases hc : c = '.'
      · subst hc
        rw [if_pos rfl, if_pos (by simp), List.reverse_cons,
          List.takeWhile_append_of_pos hall]
        simp
      · rw [if_neg hc, if_neg]
        intro h
        have hm : '.' ∈ c :: cs := by simpa using h
        rcases List.mem_cons.mp hm with h1 | h1
        · exact hc h1.symm
        · exact hdot h1

theorem ext_eq_of_no_trailing_slash (path : GoString) (hne : path ≠ [])
    (hs : path.getLast? ≠ some '/') :
    filepath.Ext path = suffixFromLastDot (filepath.Base path) := by
  unfold filepath.Ext filepath.Base
  rw [if_neg hne]
  simp only
  cases hr : path.reverse with
  | nil => exact absurd (List.reverse_eq_nil_iff.mp hr) hne
  | cons x xs =>
    have hx : x ≠ '/' := by
      intro h
      apply hs
      rw [← List.head?_reverse, hr, h]
      rfl
    have hd : (x :: xs).dropWhile (fun r => r == '/') = x :: xs := by
      rw [List.dropWhile_cons_of_neg (by simpa using hx)]
    rw [hd]
    simp only [List.reverse_reverse]
    have hl : ((x :: xs).takeWhile (fun r => r != '/')).reverse ≠ [] := by
      rw [List.takeWhile_cons_of_pos (by simpa using hx)]
      simp
    rw [if_neg hl]
    have := ext_of_element ((x :: xs).takeWhile (fun r => r != '/')).reverse
    simp only [List.reverse_reverse] at this
    exact this

/-- C13, as stated, fails for a path with a trailing separator: the base name of
`docs/readme.md/` is `readme.md`, which does not start with `.` and whose suffix from
the last `.` is `.md`, but `filepath.Ext` of the path is empty and
`isDocumentationFile` is false. -/
theorem isDocumentationFile_trailing_slash :
    isDocumentationFile "docs/readme.md/".toList = false ∧
    filepath.Base "docs/readme.md/".toList = "readme.md".toList ∧
    ¬ (['.'] <+: filepath.Base "docs/readme.md/".toList) ∧
    strings.ToLower (suffixFromLastDot (filepath.Base "docs/readme.md/".toList)) ∈
      docExtensions ∧
    filepath.Ext "docs/readme.md/".toList = [] := by
  decide

/-- C13, amended: for every path that does not end in `/`, `isDocumentationFile` is true
exactly when the base name does not start with `.` and the lower-cased suffix of the base
name starting at its last `.` is one of the eight documentation extensions.  `.gitignore`
and `docs/.md` are false, `main.go` and `image.png` are false, `README` is false. -/
theorem isDocumentationFile_iff (path : GoString) (hs : path.getLast? ≠ some '/') :
    (isDocumentationFile path = true ↔
      ¬ (['.'] <+: filepath.Base path) ∧
        strings.ToLower (suffixFromLastDot (filepath.Base path)) ∈
          [".md", ".html", ".txt", ".json", ".yaml", ".yml", ".rst", ".adoc"].map
            String.toList) ∧
    isDocumentationFile ".gitignore".toList = false ∧
    isDocumentationFile "docs/.md".toList = false ∧
    isDocumentationFile "main.go".toList = false ∧
    isDocumentationFile "image.png".toList = false ∧
    isDocumentationFile "README".toList = false := by
  refine ⟨?_, by decide, by decide, by decide, by decide, by decide⟩
  by_cases hne : path = []
  · subst hne
    constructor
    · intro h
      exact absurd h (by decide)
    · rintro ⟨h, _⟩
      exact absurd (by decide) h
  · unfold isDocumentationFile
    simp only
    rw [ext_eq_of_no_trailing_slash path hne hs]
    have hp := hasPrefix_iff (filepath.Base path) ['.']
    by_cases hdot : strings.HasPrefix (filepath.Base path) ['.'] = true
    · rw [if_pos hdot]
      constructor
      · intro h
        cases h
      · rintro ⟨h, _⟩
        exact absurd (hp.mp hdot) h
    · rw [if_neg hdot]
      have hnp : ¬ (['.'] <+: filepath.Base path) := fun h => hdot (hp.mpr h)
      constructor
      · intro h
        refine ⟨hnp, ?_⟩
        have hm : strings.ToLower (suffixFromLastDot (filepath.Base path)) ∈ docExtensions := by
          simpa using h
        exact hm
      · rintro ⟨_, h⟩
        have hm : strings.ToLower (suffixFromLastDot (filepath.Base path)) ∈ docExtensions := h
        simpa using hm

theorem isDocumentationFile_iff_witness :
    (isDocumentationFile "docs/Index.HTML".toList = true ↔
      ¬ (['.'] <+: filepath.Base "docs/Index.HTML".toList) ∧
        strings.ToLower (suffixFromLastDot (filepath.Base "docs/Index.HTML".toList)) ∈
          [".md", ".html", ".txt", ".json", ".yaml", ".yml", ".rst", ".adoc"].map
            String.toList) ∧
    isDocumentationFile "docs/Index.HTML".toList = true :=
  ⟨(isDocumentationFile_iff "docs/Index.HTML".toList (by decide)).1, by decide⟩

/-! ## Fields are the maximal runs -/

theorem getLast?_append_cons {α : Type} (a a2 : List α) (x y : α)
    (hy : a2.getLast? = some y) : (a ++ x :: a2).getLast? = some y := by
  cases a2 with
  | nil => cases hy
  | cons z a2 =>
    rw [List.getLast?_append, List.getLast?_cons_cons, hy]
    rfl

theorem maximalRun_of_clean (f : Char → Bool) (t w : GoString) (ht : ∀ c ∈ t, f c = false) :
    IsMaximalRun f t w ↔ t ≠ [] ∧ w = t := by
  constructor
  · rintro ⟨pre, post, heq, hne, _, hpre, hpost⟩
    have hp : pre = [] := by
      cases hl : pre.getLast? with
      | none => exact List.getLast?_eq_none_iff.mp hl
      | some x =>
        have hx := hpre x hl
        have hm : x ∈ t := by
          rw [heq]
          exact List.mem_append_left _ (List.mem_append_left _ (List.mem_of_getLast?_eq_some hl))
        rw [ht x hm] at hx
        cases hx
    have hq : post = [] := by
      cases hl : post.head? with
      | none => exact List.head?_eq_none_iff.mp hl
      | some x =>
        have hx := hpost x hl
        have hm : x ∈ t := by
          rw [heq]
          exact List.mem_append_right _ (List.mem_of_mem_head? (Option.mem_def.mpr hl))
        rw [ht x hm] at hx
        cases hx
    subst hp hq
    simp only [List.nil_append, List.append_nil] at heq
    subst heq
    exact ⟨hne, rfl⟩
  · rintro ⟨hne, rfl⟩
    exact ⟨[], [], by simp, hne, ht, by simp, by simp⟩

theorem maximalRun_split (f : Char → Bool) (a b w : GoString) (c : Char) (hc : f c = true) :
    IsMaximalRun f (a ++ c :: b) w ↔ IsMaximalRun f a w ∨ IsMaximalRun f b w := by
  constructor
  · rintro ⟨pre, post, heq, hne, hrun, hpre, hpost⟩
    have hcw : c ∉ w := by
      intro hm
      rw [hrun c hm] at hc
      cases hc
    rw [List.append_assoc] at heq
    rcases List.append_eq_append_iff.mp heq with ⟨a2, ha, hrest⟩ | ⟨c2, hpre2, hrest⟩
    · -- `pre = a ++ a2`: the run lies in `c :: b`
      cases a2 with
      | nil =>
        exfalso
        rw [List.nil_append] at hrest
        cases w with
        | nil => exact hne rfl
        | cons x w =>
          rw [List.cons_append] at hrest
          have := (List.cons.inj hrest).1
          exact hcw (by rw [this]; exact List.mem_cons_self _ _)
      | cons x a2 =>
        rw [List.cons_append] at hrest
        obtain ⟨hx, hb⟩ := List.cons.inj hrest
        right
        refine ⟨a2, post, by rw [hb, List.append_assoc], hne, hrun, ?_, hpost⟩
        intro y hy
        apply hpre y
        rw [ha]
        exact getLast?_append_cons a a2 x y hy
    · -- `a = pre ++ c2`: the run starts in `a`
      rcases List.append_eq_append_iff.mp hrest.symm with ⟨x2, hw2, hp2⟩ | ⟨y2, hc2, hp2⟩
      · -- `w = c2 ++ x2`, `c :: b = x2 ++ post`
        cases x2 with
        | nil =>
          left
          rw [List.append_nil] at hw2
          rw [List.nil_append] at hp2
          refine ⟨pre, [], by rw [hpre2, hw2, List.append_nil], hne, hrun, hpre, by simp⟩
        | cons z x2 =>
          exfalso
          rw [List.cons_append] at hp2
          have := (List.cons.inj hp2).1
          exact hcw (by rw [hw2, this]; exact List.mem_append_right _ (List.mem_cons_self _ _))
      · -- `c2 = w ++ y2`, `post = y2 ++ c :: b`
        left
        refine ⟨pre, y2, by rw [hpre2, hc2, List.append_assoc], hne, hrun, hpre, ?_⟩
        intro y hy
        apply hpost y
        rw [hp2]
        cases y2 with
        | nil => cases hy
        | cons z y2 => exact hy
  · rintro (⟨pre, post, heq, hne, hrun, hpre, hpost⟩ | ⟨pre, post, heq, hne, hrun, hpre, hpost⟩)
    · refine ⟨pre, post ++ c :: b, by rw [heq]; simp, hne, hrun, hpre, ?_⟩
      intro y hy
      cases post with
      | nil =>
        rw [List.nil_append, List.head?_cons] at hy
        rw [← Option.some.inj hy]
        exact hc
      | cons z post => exact hpost y hy
    · refine ⟨a ++ c :: pre, post, by rw [heq]; simp, hne, hrun, ?_, hpost⟩
      intro y hy
      rw [List.getLast?_append] at hy
      cases pre with
      | nil =>
        simp only [List.getLast?_singleton, Option.or_some] at hy
        rw [← Option.some.inj hy]
        exact hc
      | cons z pre =>
        rw [List.getLast?_cons_cons] at hy
        apply hpre y
        cases hl : (z :: pre).getLast? with
        | none => exact absurd (List.getLast?_eq_none_iff.mp hl) (by simp)
        | some u =>
          rw [hl] at hy
          exact hy

theorem fieldsLoop_nil_iff (f : Char → Bool) (cur w : GoString) (hcur : ∀ c ∈ cur, f c = false) :
    w ∈ strings.fieldsLoop f [] cur ↔ IsMaximalRun f cur.reverse w := by
  rw [maximalRun_of_clean f _ w (fun c hc => hcur c (List.mem_reverse.mp hc))]
  unfold strings.fieldsLoop
  split_ifs with h
  · subst h
    simp
  · simp [h]

/-- The fields computed by the loop of `strings.FieldsFunc` are the maximal runs of
non-separators of the text made of the pending field and the rest of the input. -/
theorem mem_fieldsLoop_iff (f : Char → Bool) (s cur w : GoString)
    (hcur : ∀ c ∈ cur, f c = false) :
    w ∈ strings.fieldsLoop f s cur ↔ IsMaximalRun f (cur.reverse ++ s) w := by
  induction s generalizing cur with
  | nil =>
    rw [List.append_nil]
    exact fieldsLoop_nil_iff f cur w hcur
  | cons c cs ih =>
    by_cases hfc : f c = true
    · rw [fieldsLoop_flush f cs cur c hfc, List.mem_append, maximalRun_split f _ _ w c hfc,
        ih [] (by simp), List.reverse_nil, List.nil_append]
      have h0 := fieldsLoop_nil_iff f cur w hcur
      rw [h0]
    · have hfc2 : f c = false := by
        cases h : f c
        · rfl
        · exact absurd h hfc
      have := ih (c :: cur) (by
        intro x hx
        rcases List.mem_cons.mp hx with h | h
        · rw [h]
          exact hfc2
        · exact hcur x h)
      rw [List.reverse_cons, List.append_assoc, List.singleton_append] at this
      rw [← this]
      simp [strings.fieldsLoop, hfc]

theorem notAlnum_eq (r : Char) : notAlnum r = !r.isAlphanum := by
  unfold notAlnum Char.isAlphanum Char.isAlpha Char.isUpper Char.isLower Char.isDigit
  have h1 : (r ≥ 'a') = (r.val ≥ 97) := rfl
  have h2 : (r ≤ 'z') = (r.val ≤ 122) := rfl
  have h3 : (r ≥ 'A') = (r.val ≥ 65) := rfl
  have h4 : (r ≤ 'Z') = (r.val ≤ 90) := rfl
  have h5 : (r ≥ '0') = (r.val ≥ 48) := rfl
  have h6 : (r ≤ '9') = (r.val ≤ 57) := rfl
  simp only [h1, h2, h3, h4, h5, h6]
  cases decide (r.val ≥ 97) <;> cases decide (r.val ≤ 122) <;> cases decide (r.val ≥ 65) <;>
    cases decide (r.val ≤ 90) <;> cases decide (r.val ≥ 48) <;> cases decide (r.val ≤ 57) <;> rfl

/-- C14: `isWordInString text w` holds exactly when some maximal run of ASCII letters and
digits of `text`, lower-cased, equals `w`.  `application` does not contain the word `api`
and `hello world` does not contain `hell`; `api-documentation` contains `api`,
`hello, world!` contains `hello`, and `Hello World` contains `hello`. -/
theorem isWordInString_iff (text word : GoString) :
    (isWordInString text word = true ↔
      ∃ run, IsMaximalRun (fun r => !r.isAlphanum) text run ∧ strings.ToLower run = word) ∧
    isWordInString "application".toList "api".toList = false ∧
    isWordInString "hello world".toList "hell".toList = false ∧
    isWordInString "api-documentation".toList "api".toList = true ∧
    isWordInString "hello, world!".toList "hello".toList = true ∧
    isWordInString "Hello World".toList "hello".toList = true := by
  refine ⟨?_, by decide, by decide, by decide, by decide, by decide⟩
  have hf : notAlnum = fun r => !r.isAlphanum := funext notAlnum_eq
  unfold isWordInString strings.FieldsFunc
  rw [List.any_eq_true, ← hf]
  constructor
  · rintro ⟨w, hw, hl⟩
    refine ⟨w, ?_, of_decide_eq_true hl⟩
    have := (mem_fieldsLoop_iff notAlnum text [] w (by simp)).mp hw
    simpa using this
  · rintro ⟨run, hrun, hl⟩
    refine ⟨run, ?_, decide_eq_true hl⟩
    apply (mem_fieldsLoop_iff notAlnum text [] run (by simp)).mpr
    simpa using hrun

/-! ## Unreadable files -/

theorem contains_nil_of_ne_nil (t : GoString) (h : t ≠ []) : strings.Contains [] t = false := by
  cases t with
  | nil => exact absurd rfl h
  | cons c t => rfl

theorem toLower_ne_nil (t : GoString) (h : t ≠ []) : strings.ToLower t ≠ [] := by
  unfold strings.ToLower
  intro hm
  exact h (List.map_eq_nil_iff.mp hm)

theorem contentFold_empty (queryTerms : List GoString) (hterms : ∀ t ∈ queryTerms, t ≠ [])
    (st : ℚ × Nat) : queryTerms.foldl (contentStep []) st = st := by
  induction queryTerms generalizing st with
  | nil => rfl
  | cons t rest ih =>
    rw [List.foldl_cons]
    have ht := hterms t (List.mem_cons_self _ _)
    have hstep : contentStep [] st t = st := by
      unfold contentStep
      simp only
      rw [contains_nil_of_ne_nil _ (toLower_ne_nil t ht)]
      rfl
    rw [hstep]
    exact ih (fun t h => hterms t (List.mem_cons_of_mem _ h)) st

theorem scoreFileContent_unreadable (ff : FileFinder) (filePath : GoString)
    (queryTerms : List GoString) (h : ff.fs.readFile filePath = none) :
    scoreFileContent ff filePath queryTerms = (0, []) := by
  unfold scoreFileContent
  rw [h]

theorem scoreFileContent_empty (ff : FileFinder) (filePath : GoString)
    (queryTerms : List GoString) (hterms : ∀ t ∈ queryTerms, t ≠ [])
    (h : ff.fs.readFile filePath = some []) :
    scoreFileContent ff filePath queryTerms = (0, []) := by
  unfold scoreFileContent
  rw [h]
  simp only
  have : strings.ToLower [] = [] := rfl
  rw [this, contentFold_empty queryTerms hterms]
  simp

/-- C16: for a list of non-empty terms, `calculateFileScore` returns the same score and
reason when the file cannot be read as when it is readable with empty content; in both
cases the content signal is `(0, "")`. -/
theorem calculateFileScore_unreadable_as_empty (ff1 ff2 : FileFinder) (filePath : GoString)
    (queryTerms : List GoString) (hterms : ∀ t ∈ queryTerms, t ≠ [])
    (h1 : ff1.fs.readFile filePath = none) (h2 : ff2.fs.readFile filePath = some []) :
    calculateFileScore ff1 filePath queryTerms = calculateFileScore ff2 filePath queryTerms ∧
    scoreFileContent ff1 filePath queryTerms = (0, []) ∧
    scoreFileContent ff2 filePath queryTerms = (0, []) := by
  have e1 := scoreFileContent_unreadable ff1 filePath queryTerms h1
  have e2 := scoreFileContent_empty ff2 filePath queryTerms hterms h2
  refine ⟨?_, e1, e2⟩
  unfold calculateFileScore
  rw [e1, e2]

theorem calculateFileScore_unreadable_as_empty_witness :
    calculateFileScore { fs := unreadableFS } "docs/notes.md".toList ["notes".toList] =
      calculateFileScore { fs := emptyFileFS } "docs/notes.md".toList ["notes".toList] ∧
    scoreFileContent { fs := unreadableFS } "docs/notes.md".toList ["notes".toList] = (0, []) ∧
    scoreFileContent { fs := emptyFileFS } "docs/notes.md".toList ["notes".toList] = (0, []) :=
  calculateFileScore_unreadable_as_empty { fs := unreadableFS } { fs := emptyFileFS }
    "docs/notes.md".toList ["notes".toList] (by decide) (by decide) (by decide)

theorem lineFold_empty (line : GoString) (queryTerms : List GoString)
    (hterms : ∀ t ∈ queryTerms, t ≠ []) (st : ℚ × Nat) :
    queryTerms.foldl (lineStep line []) st = st := by
  induction queryTerms generalizing st with
  | nil => rfl
  | cons t rest ih =>
    rw [List.foldl_cons]
    have ht := hterms t (List.mem_cons_self _ _)
    have hstep : lineStep line [] st t = st := by
      unfold lineStep
      simp only
      rw [contains_nil_of_ne_nil _ (toLower_ne_nil t ht)]
      rfl
    rw [hstep]
    exact ih (fun t h => hterms t (List.mem_cons_of_mem _ h)) st

theorem findRelevantSections_empty (queryTerms : List GoString)
    (hterms : ∀ t ∈ queryTerms, t ≠ []) (contextLines : Int) :
    findRelevantSections [] queryTerms contextLines = [] := by
  have hscore : scoreLineRelevance [] queryTerms = 0 := by
    unfold scoreLineRelevance
    split_ifs with h
    · rfl
    · simp only
      have : strings.ToLower [] = [] := rfl
      rw [this, lineFold_empty [] queryTerms hterms]
      simp
  unfold findRelevantSections
  have hs : strings.Split [] '\n' = [[]] := rfl
  simp only [hs, scoreLines, hscore]
  rfl

theorem getContentSample_nil (maxLength : Int) (h : 0 ≤ maxLength) :
    getContentSample [] maxLength = some [] := by
  unfold getContentSample
  rw [if_pos (by simpa using h)]

theorem ExtractRelevantContent_of_empty (ce : ContentExtractor) (filePath query : GoString)
    (contextLines : Int) (h : ce.fs.readFile filePath = some []) :
    ExtractRelevantContent ce filePath query contextLines = some ([], none) := by
  unfold ExtractRelevantContent fs.ReadFile
  rw [h]
  simp only
  have hu : utf8 [] = [] := rfl
  rw [findRelevantSections_empty _ (fun t ht => normalizeQuery_ne_nil query t ht), hu,
    getContentSample_nil 1000 (by decide)]
  simp

/-- C15, as stated, fails: for a file that cannot be read, `ExtractRelevantContent`
returns the read error to its caller (line 24), whereas for the same file readable with
empty content it returns no error. -/
theorem ExtractRelevantContent_surfaces_read_error :
    unreadableFS.readFile "docs/notes.md".toList = none ∧
    emptyFileFS.readFile "docs/notes.md".toList = some [] ∧
    (fs.ReadFile unreadableFS "docs/notes.md".toList).2 ≠ none ∧
    ExtractRelevantContent { fs := unreadableFS } "docs/notes.md".toList "api".toList 10 =
      some ([], (fs.ReadFile unreadableFS "docs/notes.md".toList).2) ∧
    ExtractRelevantContent { fs := emptyFileFS } "docs/notes.md".toList "api".toList 10 =
      some ([], none) := by
  decide

/-- C15, amended: when the file at `filePath` cannot be read, `ExtractRelevantContent`
returns the empty string, which is also the string it returns for a readable file with
empty content, but together with the read error: the failure is passed on to the caller
and not recovered. -/
theorem ExtractRelevantContent_unreadable (ce ce2 : ContentExtractor)
    (filePath query : GoString) (contextLines : Int)
    (h : ce.fs.readFile filePath = none) (h2 : ce2.fs.readFile filePath = some []) :
    (∃ err, ExtractRelevantContent ce filePath query contextLines = some ([], some err)) ∧
    ExtractRelevantContent ce2 filePath query contextLines = some ([], none) := by
  refine ⟨?_, ExtractRelevantContent_of_empty ce2 filePath query contextLines h2⟩
  unfold ExtractRelevantContent fs.ReadFile
  rw [h]
  exact ⟨_, rfl⟩

theorem ExtractRelevantContent_unreadable_witness :
    (∃ err, ExtractRelevantContent { fs := unreadableFS } "docs/notes.md".toList
        "api".toList 10 = some ([], some err)) ∧
    ExtractRelevantContent { fs := emptyFileFS } "docs/notes.md".toList "api".toList 10 =
      some ([], none) :=
  ExtractRelevantContent_unreadable { fs := unreadableFS } { fs := emptyFileFS }
    "docs/notes.md".toList "api".toList 10 (by decide) (by decide)

/-! ## Formatting the sections -/

theorem join_snoc (l : List GoString) (x sep : GoString) :
    strings.Join (l ++ [x]) sep = l.flatMap (fun y => y ++ sep) ++ x := by
  induction l with
  | nil => rfl
  | cons y l ih =>
    cases hl : l ++ [x] with
    | nil => exact absurd hl (by simp)
    | cons z zs =>
      rw [List.cons_append, hl, strings.Join, ← hl, ih, List.flatMap_cons]
      simp only [List.append_assoc]

theorem join_cons_cons (a b : GoString) (rest : List GoString) (sep : GoString) :
    strings.Join (a :: b :: rest) sep = a ++ sep ++ strings.Join (b :: rest) sep := rfl

theorem formatLoop_join (n : Nat) (hn1 : 1 < n) (hn10 : n ≤ 10) (secs : List ContentSection)
    (hne : secs ≠ []) (i : Nat) (hi : i + secs.length = n) (result : List GoString) :
    strings.Join (formatLoop n i secs result) ['\n'] =
      result.flatMap (fun y => y ++ ['\n']) ++
        strings.Join (secs.map renderSection) ['\n', '\n'] := by
  induction secs generalizing i result with
  | nil => exact absurd rfl hne
  | cons s rest ih =>
    rw [List.length_cons] at hi
    unfold formatLoop
    rw [if_neg (by omega)]
    simp only
    rw [if_pos hn1]
    cases rest with
    | nil =>
      rw [List.length_nil] at hi
      rw [if_neg (by omega)]
      simp only [formatLoop, List.map_cons, List.map_nil, strings.Join]
      rw [join_snoc, List.flatMap_append]
      simp [renderSection]
    | cons s2 rest2 =>
      rw [List.length_cons] at hi
      rw [if_pos ⟨by omega, hn1⟩]
      rw [ih (by simp) (i + 1) (by rw [List.length_cons]; omega)]
      simp only [List.map_cons]
      rw [join_cons_cons (renderSection s)]
      simp only [List.flatMap_append, List.flatMap_cons, List.flatMap_nil, List.append_nil,
        List.append_assoc, List.nil_append, renderSection, List.singleton_append,
        List.cons_append]

/-- C17: for a list of `n` sections, `1 ≤ n ≤ 5`, `formatRelevantSections` returns the
content of the section alone when `n = 1`, and for `n ≥ 2` the sections in their order,
each as the line `--- Relevant Section ---`, a newline and its content, consecutive
sections separated by one blank line and nothing after the last one. -/
theorem formatRelevantSections_layout (originalContent : GoString)
    (sections : List ContentSection) (h1 : 1 ≤ sections.length) (h5 : sections.length ≤ 5) :
    (∀ sec, sections = [sec] →
      formatRelevantSections originalContent sections = some (utf8 sec.Content)) ∧
    (2 ≤ sections.length →
      formatRelevantSections originalContent sections =
        some (utf8 (strings.Join
          (sections.map (fun sec => "--- Relevant Section ---".toList ++ "\n".toList ++ sec.Content))
          "\n\n".toList))) := by
  constructor
  · intro sec hsec
    subst hsec
    rfl
  · intro h2
    unfold formatRelevantSections
    rw [if_neg (by omega)]
    have hne : sections ≠ [] := by
      intro h
      rw [h] at h1
      exact absurd h1 (by decide)
    have := formatLoop_join sections.length (by omega) (by omega) sections hne 0 (by omega) []
    rw [this]
    rfl

theorem formatRelevantSections_layout_witness :
    (∀ sec, [({ LineNumber := 0, EndLine := 0, Score := 1, Content := "a".toList } : ContentSection),
        { LineNumber := 2, EndLine := 2, Score := 1, Content := "b".toList }] = [sec] →
      formatRelevantSections "x".toList
        [{ LineNumber := 0, EndLine := 0, Score := 1, Content := "a".toList },
         { LineNumber := 2, EndLine := 2, Score := 1, Content := "b".toList }] =
        some (utf8 sec.Content)) ∧
    ((2 : Nat) ≤ 2 →
      formatRelevantSections "x".toList
        [{ LineNumber := 0, EndLine := 0, Score := 1, Content := "a".toList },
         { LineNumber := 2, EndLine := 2, Score := 1, Content := "b".toList }] =
        some (utf8 "--- Relevant Section ---\na\n\n--- Relevant Section ---\nb".toList)) :=
  formatRelevantSections_layout "x".toList
    [{ LineNumber := 0, EndLine := 0, Score := 1, Content := "a".toList },
     { LineNumber := 2, EndLine := 2, Score := 1, Content := "b".toList }] (by decide) (by decide)

/-! ## The fallback sample -/

theorem lastIndex_spec (sep : UInt8) (s : GoBytes) :
    (strings.LastIndex sep s = -1 ∧ sep ∉ s) ∨
      (0 ≤ strings.LastIndex sep s ∧ (strings.LastIndex sep s).toNat < s.length ∧
        s[(strings.LastIndex sep s).toNat]? = some sep ∧
        ∀ q, (strings.LastIndex sep s).toNat < q → s[q]? ≠ some sep) := by
  induction s with
  | nil =>
    left
    exact ⟨rfl, by simp⟩
  | cons b rest ih =>
    unfold strings.LastIndex
    rcases ih with ⟨hr, hnot⟩ | ⟨h0, hlt, hat, hafter⟩
    · rw [hr, if_neg (by decide)]
      by_cases hb : b = sep
      · right
        rw [if_pos hb]
        refine ⟨le_refl _, by simp, by simp [hb], ?_⟩
        intro q hq hget
        cases q with
        | zero => exact absurd hq (by simp)
        | succ q =>
          rw [List.getElem?_cons_succ] at hget
          exact hnot (List.getElem?_mem hget)
      · left
        rw [if_neg hb]
        refine ⟨rfl, ?_⟩
        intro hm
        rcases List.mem_cons.mp hm with h | h
        · exact hb h.symm
        · exact hnot h
    · right
      rw [if_pos h0]
      have e : (strings.LastIndex sep rest + 1).toNat = (strings.LastIndex sep rest).toNat + 1 := by
        omega
      refine ⟨by omega, ?_, ?_, ?_⟩
      · rw [e, List.length_cons]
        omega
      · rw [e, List.getElem?_cons_succ]
        exact hat
      · intro q hq
        rw [e] at hq
        cases q with
        | zero => exact absurd hq (by omega)
        | succ q =>
          rw [List.getElem?_cons_succ]
          exact hafter q (by omega)

/-- The index computed by `strings.LastIndex` on the first `limit` bytes is the position
of the last newline among them. -/
theorem lastIndex_of_isLastNewline (content : GoBytes) (limit p : Nat)
    (h : IsLastNewline content limit p) :
    strings.LastIndex 10 (content.take limit) = (p : Int) := by
  obtain ⟨hp, hat, hafter⟩ := h
  have hsample : ∀ q, q < limit → (content.take limit)[q]? = content[q]? := by
    intro q hq
    rw [List.getElem?_take]
    rw [if_pos hq]
  rcases lastIndex_spec 10 (content.take limit) with ⟨_, hnot⟩ | ⟨h0, hlt, hr, hmax⟩
  · exfalso
    apply hnot
    have := hsample p hp
    rw [hat] at this
    exact List.getElem?_mem this
  · have hlt2 : (strings.LastIndex 10 (content.take limit)).toNat < limit := by
      have := List.length_take_le limit content
      omega
    rcases Nat.lt_trichotomy (strings.LastIndex 10 (content.take limit)).toNat p with h1 | h1 | h1
    · exfalso
      apply hmax p h1
      rw [hsample p hp]
      exact hat
    · omega
    · exfalso
      apply hafter _ h1 hlt2
      rw [← hsample _ hlt2]
      exact hr

theorem lastIndex_of_no_newline (content : GoBytes) (limit : Nat)
    (h : ∀ p, p < limit → content[p]? ≠ some 10) :
    strings.LastIndex 10 (content.take limit) = -1 := by
  rcases lastIndex_spec 10 (content.take limit) with ⟨hr, _⟩ | ⟨h0, hlt, hr, _⟩
  · exact hr
  · exfalso
    have hlt2 : (strings.LastIndex 10 (content.take limit)).toNat < limit := by
      have := List.length_take_le limit content
      omega
    apply h _ hlt2
    rw [List.getElem?_take, if_pos hlt2] at hr
    exact hr

theorem getContentSample_cases (content : GoBytes) (m : Nat) :
    (content.length ≤ m → getContentSample content (m : Int) = some content) ∧
    (m < content.length →
      (∀ p, IsLastNewline content m p →
        (m / 2 < p → getContentSample content (m : Int) = some (content.take p)) ∧
        (p ≤ m / 2 → getContentSample content (m : Int) = some (content.take m))) ∧
      ((∀ p, p < m → content[p]? ≠ some 10) →
        getContentSample content (m : Int) = some (content.take m))) := by
  have hdiv : Int.tdiv (m : Int) 2 = ((m / 2 : Nat) : Int) := by
    rw [Int.tdiv_eq_ediv (by omega) (by omega)]
    rfl
  constructor
  · intro h
    unfold getContentSample
    rw [if_pos (by omega)]
  · intro h
    have hstart : getContentSample content (m : Int) =
        if strings.LastIndex 10 (content.take m) > ((m / 2 : Nat) : Int) then
          some (content.take (strings.LastIndex 10 (content.take m)).toNat)
        else some (content.take m) := by
      unfold getContentSample
      rw [if_neg (by omega), if_neg (by omega)]
      simp only [Int.toNat_ofNat, hdiv]
    constructor
    · intro p hp
      have hl := lastIndex_of_isLastNewline content m p hp
      rw [hstart, hl]
      constructor
      · intro hgt
        rw [if_pos (by omega), Int.toNat_ofNat]
      · intro hle
        rw [if_neg (by omega)]
    · intro hno
      rw [hstart, lastIndex_of_no_newline content m hno, if_neg (by omega)]

theorem getContentSample_prefix (content : GoBytes) (m : Nat) :
    ∃ r, getContentSample content (m : Int) = some r ∧ r <+: content ∧ r.length ≤ m := by
  unfold getContentSample
  by_cases h1 : (content.length : Int) ≤ (m : Int)
  · rw [if_pos h1]
    exact ⟨content, rfl, List.prefix_refl _, by omega⟩
  · rw [if_neg h1, if_neg (by omega)]
    simp only [Int.toNat_ofNat]
    by_cases h3 : strings.LastIndex 10 (content.take m) > Int.tdiv (m : Int) 2
    · rw [if_pos h3]
      refine ⟨_, rfl, List.take_prefix _ _, ?_⟩
      rw [List.length_take]
      rcases lastIndex_spec 10 (content.take m) with ⟨hr, _⟩ | ⟨h0, hlt, _, _⟩
      · rw [hr] at h3
        have : (0 : Int) ≤ Int.tdiv (m : Int) 2 := Int.tdiv_nonneg (by omega) (by omega)
        omega
      · have := List.length_take_le m content
        omega
    · rw [if_neg h3]
      refine ⟨_, rfl, List.take_prefix _ _, ?_⟩
      rw [List.length_take]
      omega

/-- C18: for `maxLength ≥ 0`, `getContentSample content maxLength` is a prefix of
`content` of at most `maxLength` bytes; it is the whole content when
`len(content) ≤ maxLength`; otherwise, with `p` the index of the last newline among the
first `maxLength` bytes, it is `content[0..p)` when `p > maxLength/2`, and
`content[0..maxLength)` when `p ≤ maxLength/2` or there is no such newline.  The fallback
sample of `ExtractRelevantContent` therefore has at most 1000 bytes. -/
theorem getContentSample_spec (content : GoBytes) (maxLength : Int) (hmax : 0 ≤ maxLength) :
    (∃ r, getContentSample content maxLength = some r ∧ r <+: content ∧
      (r.length : Int) ≤ maxLength) ∧
    ((content.length : Int) ≤ maxLength → getContentSample content maxLength = some content) ∧
    (maxLength < (content.length : Int) →
      (∀ p, IsLastNewline content maxLength.toNat p →
        (maxLength / 2 < (p : Int) → getContentSample content maxLength = some (content.take p)) ∧
        ((p : Int) ≤ maxLength / 2 →
          getContentSample content maxLength = some (content.take maxLength.toNat))) ∧
      ((∀ p, p < maxLength.toNat → content[p]? ≠ some 10) →
        getContentSample content maxLength = some (content.take maxLength.toNat))) ∧
    (∀ (ce : ContentExtractor) (filePath data : GoString) (contextLines : Int),
      ce.fs.readFile filePath = some data →
      ∃ r, ExtractRelevantContent ce filePath [] contextLines = some (r, none) ∧
        r <+: utf8 data ∧ r.length ≤ 1000) := by
  obtain ⟨m, rfl⟩ := Int.eq_ofNat_of_zero_le hmax
  have hc := getContentSample_cases content m
  refine ⟨?_, ?_, ?_, ?_⟩
  · obtain ⟨r, hr, hp, hl⟩ := getContentSample_prefix content m
    exact ⟨r, hr, hp, by omega⟩
  · intro h
    exact hc.1 (by omega)
  · intro h
    obtain ⟨h1, h2⟩ := hc.2 (by omega)
    simp only [Int.toNat_ofNat]
    refine ⟨?_, h2⟩
    intro p hp
    obtain ⟨ha, hb⟩ := h1 p hp
    constructor
    · intro hgt
      exact ha (by omega)
    · intro hle
      exact hb (by omega)
  · intro ce filePath data contextLines hread
    obtain ⟨r, hr, hp, hl⟩ := getContentSample_prefix (utf8 data) 1000
    refine ⟨r, ?_, hp, hl⟩
    unfold ExtractRelevantContent fs.ReadFile
    rw [hread]
    have hq : normalizeQuery [] = [] := by decide
    simp only [hq, List.length_nil, if_true]
    have hr2 : getContentSample (utf8 data) 1000 = some r := hr
    rw [hr2]
    rfl

theorem getContentSample_spec_witness :
    (∃ r, getContentSample (utf8 "abcdef\nghi".toList) 8 = some r ∧
      r <+: utf8 "abcdef\nghi".toList ∧ (r.length : Int) ≤ 8) ∧
    getContentSample (utf8 "abcdef\nghi".toList) 8 = some (utf8 "abcdef".toList) ∧
    getContentSample (utf8 "ab\ncdefghi".toList) 8 = some (utf8 "ab\ncdefg".toList) ∧
    getContentSample (utf8 "abcdef\nghi".toList) 20 = some (utf8 "abcdef\nghi".toList) :=
  ⟨(getContentSample_spec (utf8 "abcdef\nghi".toList) 8 (by decide)).1, by decide, by decide,
    by decide⟩

/-! ## Merging the clauses of a query -/

theorem lookup_cons_eq (k2 k0 : GoString) (v0 : FileMatch)
    (rest : List (GoString × FileMatch)) :
    List.lookup k2 ((k0, v0) :: rest) = if k2 = k0 then some v0 else List.lookup k2 rest := by
  by_cases h : k2 = k0
  · have hb : (k2 == k0) = true := by simpa using h
    rw [if_pos h, List.lookup, hb]
  · have hb : (k2 == k0) = false := by simpa using h
    rw [if_neg h, List.lookup, hb]

theorem lookup_mapAssign (m : List (GoString × FileMatch)) (k : GoString) (v : FileMatch)
    (k2 : GoString) :
    (mapAssign m k v).lookup k2 = if k2 = k then some v else m.lookup k2 := by
  induction m with
  | nil =>
    unfold mapAssign
    rw [lookup_cons_eq]
  | cons kv rest ih =>
    obtain ⟨k0, v0⟩ := kv
    unfold mapAssign
    by_cases h0 : k0 = k
    · rw [if_pos h0, lookup_cons_eq, lookup_cons_eq, h0]
      by_cases h : k2 = k
      · rw [if_pos h, if_pos h]
      · rw [if_neg h, if_neg h, if_neg h]
    · rw [if_neg h0, lookup_cons_eq, lookup_cons_eq, ih]
      by_cases h : k2 = k0
      · rw [if_pos h, if_pos h, if_neg (fun hh => h0 (by rw [← h, hh]))]
      · rw [if_neg h, if_neg h]

theorem keys_mapAssign (m : List (GoString × FileMatch)) (k : GoString) (v : FileMatch) :
    (mapAssign m k v).map Prod.fst =
      if k ∈ m.map Prod.fst then m.map Prod.fst else m.map Prod.fst ++ [k] := by
  induction m with
  | nil =>
    unfold mapAssign
    rw [List.map_nil, if_neg (List.not_mem_nil _)]
    rfl
  | cons kv rest ih =>
    obtain ⟨k0, v0⟩ := kv
    unfold mapAssign
    by_cases h0 : k0 = k
    · rw [if_pos h0, List.map_cons, List.map_cons, if_pos]
      · rw [h0]
      · rw [h0]
        exact List.mem_cons_self _ _
    · rw [if_neg h0, List.map_cons, List.map_cons, ih]
      have hk : k ≠ k0 := fun h => h0 h.symm
      by_cases hm : k ∈ rest.map Prod.fst
      · rw [if_pos hm, if_pos (List.mem_cons_of_mem _ hm)]
      · rw [if_neg hm, if_neg, List.cons_append]
        intro hmem
        rcases List.mem_cons.mp hmem with h1 | h1
        · exact hk h1
        · exact hm h1

theorem lookup_of_mem (m : List (GoString × FileMatch)) (hnd : (m.map Prod.fst).Nodup)
    (k : GoString) (v : FileMatch) (h : (k, v) ∈ m) : m.lookup k = some v := by
  induction m with
  | nil => cases h
  | cons kv rest ih =>
    obtain ⟨k0, v0⟩ := kv
    rw [List.map_cons, List.nodup_cons] at hnd
    rw [lookup_cons_eq]
    rcases List.mem_cons.mp h with h1 | h1
    · obtain ⟨hk, hv⟩ := Prod.mk.inj h1
      rw [if_pos hk, hv]
    · have hne : k ≠ k0 := by
        intro hk
        apply hnd.1
        rw [← hk]
        exact List.mem_map.mpr ⟨(k, v), h1, rfl⟩
      rw [if_neg hne]
      exact ih hnd.2 h1

theorem mergeInv_empty : MergeInv [] [] := by
  refine ⟨List.nodup_nil, ?_, ?_⟩
  · intro k v h
    cases h
  · intro r hr
    cases hr

theorem mergeInv_keep {m : List (GoString × FileMatch)} {seen : List FileMatch}
    (h : MergeInv m seen) (result : FileMatch) (v : FileMatch)
    (hv : m.lookup result.Path = some v) (hle : result.Score ≤ v.Score) :
    MergeInv m (seen ++ [result]) := by
  obtain ⟨h1, h2, h3⟩ := h
  refine ⟨h1, ?_, ?_⟩
  · intro k w hw
    obtain ⟨hp, r, hr, hrp, hrs⟩ := h2 k w hw
    exact ⟨hp, r, List.mem_append_left _ hr, hrp, hrs⟩
  · intro r hr
    rcases List.mem_append.mp hr with h | h
    · exact h3 r h
    · rw [List.mem_singleton] at h
      subst h
      exact ⟨v, hv, hle⟩

theorem mergeInv_assign {m : List (GoString × FileMatch)} {seen : List FileMatch}
    (h : MergeInv m seen) (result stored : FileMatch) (hp : stored.Path = result.Path)
    (hs : stored.Score = result.Score)
    (hdom : ∀ v, m.lookup result.Path = some v → v.Score ≤ result.Score) :
    MergeInv (mapAssign m result.Path stored) (seen ++ [result]) := by
  obtain ⟨h1, h2, h3⟩ := h
  refine ⟨?_, ?_, ?_⟩
  · rw [keys_mapAssign]
    split_ifs with hm
    · exact h1
    · refine List.Nodup.append h1 (List.nodup_singleton _) ?_
      intro x hx hx2
      rw [List.mem_singleton] at hx2
      rw [hx2] at hx
      exact hm hx
  · intro k w hw
    rw [lookup_mapAssign] at hw
    split_ifs at hw with hk
    · have := Option.some.inj hw
      subst this
      subst hk
      exact ⟨hp, result, by simp, rfl, hs.symm⟩
    · obtain ⟨hp2, r, hr, hrp, hrs⟩ := h2 k w hw
      exact ⟨hp2, r, List.mem_append_left _ hr, hrp, hrs⟩
  · intro r hr
    rw [lookup_mapAssign]
    rcases List.mem_append.mp hr with h | h
    · obtain ⟨v, hv, hle⟩ := h3 r h
      by_cases hk : r.Path = result.Path
      · rw [if_pos hk]
        rw [hk] at hv
        exact ⟨stored, rfl, by rw [hs]; exact le_trans hle (hdom v hv)⟩
      · rw [if_neg hk]
        exact ⟨v, hv, hle⟩
    · rw [List.mem_singleton] at h
      subst h
      rw [if_pos rfl]
      exact ⟨stored, rfl, by rw [hs]⟩

theorem mergeResult_inv (term : GoString) (m : List (GoString × FileMatch))
    (seen : List FileMatch) (result : FileMatch) (h : MergeInv m seen) :
    MergeInv (mergeResult term m result) (seen ++ [result]) := by
  unfold mergeResult
  simp only
  cases hl : m.lookup result.Path with
  | none =>
    simp only [Option.isSome_none, Bool.not_false, Bool.true_or, if_true, Option.getD_none]
    apply mergeInv_assign h
    · rfl
    · rfl
    · intro v hv
      rw [hl] at hv
      cases hv
  | some existing =>
    simp only [Option.isSome_some, Bool.not_true, Bool.false_or, Option.getD_some,
      decide_eq_true_eq]
    by_cases hgt : result.Score > existing.Score
    · rw [if_pos hgt]
      apply mergeInv_assign h
      · rfl
      · rfl
      · intro v hv
        rw [hl] at hv
        have := Option.some.inj hv
        subst this
        exact le_of_lt hgt
    · rw [if_neg hgt]
      exact mergeInv_keep h result existing hl (not_lt.mp hgt)

theorem mergeFold_inv (term : GoString) (results : List FileMatch)
    (m : List (GoString × FileMatch)) (seen : List FileMatch) (h : MergeInv m seen) :
    MergeInv (results.foldl (mergeResult term) m) (seen ++ results) := by
  induction results generalizing m seen with
  | nil => simpa using h
  | cons r rest ih =>
    rw [List.foldl_cons]
    have := ih _ _ (mergeResult_inv term m seen r h)
    rw [List.append_assoc, List.singleton_append] at this
    exact this

theorem clauseStep_inv (engine : FileFinder) (m : List (GoString × FileMatch))
    (seen : List FileMatch) (term : GoString) (h : MergeInv m seen) :
    MergeInv (clauseStep engine m term)
      (seen ++ if strings.TrimSpace term = [] then []
        else (FindRelevantFiles engine (strings.TrimSpace term) 10).1) := by
  unfold clauseStep
  simp only
  split_ifs with hempty
  · simpa using h
  · have herr : (FindRelevantFiles engine (strings.TrimSpace term) 10).2 = none := by
      rw [FindRelevantFiles_eq]
    rw [herr]
    exact mergeFold_inv _ _ m seen h

theorem clauseFold_inv (engine : FileFinder) (terms : List GoString)
    (m : List (GoString × FileMatch)) (seen : List FileMatch) (h : MergeInv m seen) :
    MergeInv (terms.foldl (clauseStep engine) m)
      (seen ++ terms.flatMap (fun term =>
        if strings.TrimSpace term = [] then []
        else (FindRelevantFiles engine (strings.TrimSpace term) 10).1)) := by
  induction terms generalizing m seen with
  | nil => simpa using h
  | cons t rest ih =>
    rw [List.foldl_cons, List.flatMap_cons, ← List.append_assoc]
    exact ih _ _ (clauseStep_inv engine m seen t h)

theorem clauseResults_eq (engine : FileFinder) (query : GoString) :
    clauseResults engine query =
      (strings.Split query '|').flatMap (fun term =>
        if strings.TrimSpace term = [] then []
        else (FindRelevantFiles engine (strings.TrimSpace term) 10).1) := by
  unfold clauseResults queryClauses
  induction strings.Split query '|' with
  | nil => rfl
  | cons t rest ih =>
    rw [List.map_cons, List.flatMap_cons, ← ih]
    by_cases h : strings.TrimSpace t = []
    · simp [List.filter_cons, h]
    · simp [List.filter_cons, h]

/-- C19: the list merged from the clauses of a query holds each path at most once, the
score of every entry is the maximum score that its path has in any clause's result list,
the list is sorted by non-increasing score, and it has at most 10 entries. -/
theorem mergeClauses_best_score (engine : FileFinder) (query : GoString) :
    ((mergeClauses engine query).map (fun m => m.Path)).Nodup ∧
    (∀ m ∈ mergeClauses engine query,
      (∃ r ∈ clauseResults engine query, r.Path = m.Path ∧ r.Score = m.Score) ∧
      ∀ r ∈ clauseResults engine query, r.Path = m.Path → r.Score ≤ m.Score) ∧
    (mergeClauses engine query).Pairwise (fun a b => a.Score ≥ b.Score) ∧
    (mergeClauses engine query).length ≤ 10 := by
  have hinv := clauseFold_inv engine (strings.Split query '|') [] [] mergeInv_empty
  rw [List.nil_append, ← clauseResults_eq] at hinv
  obtain ⟨hnd, hattain, hmax⟩ := hinv
  set fileScores := (strings.Split query '|').foldl (clauseStep engine) [] with hfs
  set sorted := sort.Slice (fileScores.map (fun kv => kv.2))
    (fun a b => decide (a.Score > b.Score)) with hsorted
  have hmerged : mergeClauses engine query = sorted.take 10 := by
    unfold mergeClauses
    simp only
    split_ifs with hlen
    · rfl
    · rw [List.take_of_length_le (not_lt.mp hlen)]
  have hperm : sorted.Perm (fileScores.map (fun kv => kv.2)) := sortSlice_perm _ _
  have hentry : ∀ kv ∈ fileScores, fileScores.lookup kv.1 = some kv.2 :=
    fun kv hkv => lookup_of_mem fileScores hnd kv.1 kv.2 hkv
  have hpaths : (fileScores.map (fun kv => kv.2)).map (fun m => m.Path) =
      fileScores.map Prod.fst := by
    rw [List.map_map]
    apply List.map_congr_left
    intro kv hkv
    exact (hattain kv.1 kv.2 (hentry kv hkv)).1
  rw [hmerged]
  refine ⟨?_, ?_, ?_, ?_⟩
  · have h1 : (sorted.map (fun m => m.Path)).Nodup := by
      rw [(hperm.map _).nodup_iff, hpaths]
      exact hnd
    exact List.Nodup.sublist ((List.take_sublist _ _).map _) h1
  · intro m hm
    have hm2 := hperm.mem_iff.mp (List.mem_of_mem_take hm)
    obtain ⟨kv, hkv, rfl⟩ := List.mem_map.mp hm2
    have hl := hentry kv hkv
    obtain ⟨hp, r, hr, hrp, hrs⟩ := hattain kv.1 kv.2 hl
    refine ⟨⟨r, hr, by rw [hrp, hp], hrs⟩, ?_⟩
    intro r2 hr2 hpath
    obtain ⟨v, hv, hle⟩ := hmax r2 hr2
    rw [hpath, hp, hl] at hv
    rw [Option.some.inj hv]
    exact hle
  · exact List.Pairwise.sublist (List.take_sublist _ _)
      (sortSlice_sorted (fun m : FileMatch => m.Score) _)
  · rw [List.length_take]
    omega

/-- C20 fails on the code: for the query `api|auth`, the file `api/auth_notes.md` is
found by both clauses; the clause `api` comes first and gives the higher score, so the
result of the clause `auth` is dropped without any change of the reason, and the merged
reason does not mention `auth`.  With the clauses in the other order the reason names
both. -/
theorem mergeClauses_reason_misses_clause :
    ((FindRelevantFiles { fs := mergeFS } "api".toList 10).1.map
      (fun m => (m.Path, m.Score))) = [("api/auth_notes.md".toList, 5 / 8)] ∧
    ((FindRelevantFiles { fs := mergeFS } "auth".toList 10).1.map
      (fun m => (m.Path, m.Score))) = [("api/auth_notes.md".toList, 3 / 8)] ∧
    (mergeClauses { fs := mergeFS } "api|auth".toList).map (fun m => (m.Path, m.Reason)) =
      [("api/auth_notes.md".toList,
        "matched term: api (directory exact match 'api')".toList)] ∧
    strings.Contains "matched term: api (directory exact match 'api')".toList
      "auth".toList = false ∧
    (mergeClauses { fs := mergeFS } "auth|api".toList).map (fun m => (m.Path, m.Reason)) =
      [("api/auth_notes.md".toList,
        "matched terms: api, matched term: auth (filename contains 'auth')".toList)] := by
  decide!

/-! ## The rules of the directory signal -/

/-- C21 fails on the code: for the path `apis/api/guide.md` and the term `api` the
component `api` equals the term, but the loop over the components stops at the earlier
component `apis`, which merely contains the term: the directory signal adds 1.8 with the
fragment `directory contains 'api'`, and the final score is 0.45, below 0.625. -/
theorem directory_exact_match_shadowed :
    "api".toList ∈ strings.Split (strings.ToLower (filepath.Dir "apis/api/guide.md".toList)) '/' ∧
    dirStep (strings.ToLower (filepath.Dir "apis/api/guide.md".toList)) (0, []) "api".toList =
      (1.8, ["directory contains 'api'".toList]) ∧
    calculateFileScore { fs := shadowFS } "apis/api/guide.md".toList ["api".toList] =
      (0.45, "directory contains 'api'".toList) ∧
    (calculateFileScore { fs := shadowFS } "api/apis/guide.md".toList ["api".toList]).1 =
      0.625 := by
  decide!

theorem join_nil_eq_flatten (l : List GoString) : strings.Join l [] = l.flatten := by
  match l with
  | [] => rfl
  | [a] => simp [strings.Join]
  | a :: b :: rest =>
    rw [strings.Join, join_nil_eq_flatten (b :: rest)]
    simp

theorem dirComponentLoop_cases (term termLower : GoString) (comps : List GoString)
    (st : ScoreState) :
    dirComponentLoop term termLower comps st = st ∨
    ((dirComponentLoop term termLower comps st =
        (st.1 + 2.5, st.2 ++ ["directory exact match '".toList ++ term ++ "'".toList]) ∨
      dirComponentLoop term termLower comps st =
        (st.1 + 1.8, st.2 ++ ["directory contains '".toList ++ term ++ "'".toList])) ∧
      strings.Contains (strings.Join comps []) termLower = true) := by
  induction comps with
  | nil =>
    left
    rfl
  | cons c rest ih =>
    have hin : ∀ x : GoString, x <:+: c → strings.Contains (strings.Join (c :: rest) []) x = true := by
      intro x hx
      rw [contains_iff, join_nil_eq_flatten]
      exact hx.trans (List.infix_of_mem_flatten (List.mem_cons_self _ _))
    unfold dirComponentLoop
    split_ifs with h1 h2
    · right
      exact ⟨Or.inl rfl, hin termLower (by rw [h1])⟩
    · right
      exact ⟨Or.inr rfl, hin termLower ((contains_iff c termLower).mp h2)⟩
    · rcases ih with h | ⟨h, hc⟩
      · left
        exact h
      · right
        refine ⟨h, ?_⟩
        rw [contains_iff, join_nil_eq_flatten] at hc ⊢
        rw [List.flatten_cons]
        exact hc.trans (List.suffix_append _ _).isInfix

theorem dirStep_one_rule_aux (dirPath : GoString) (st : ScoreState) (term : GoString) :
    dirStep dirPath st term = st ∨
    dirStep dirPath st term =
      (st.1 + 1.2, st.2 ++ ["path contains '".toList ++ term ++ "'".toList]) ∨
    dirStep dirPath st term =
      (st.1 + 1.8, st.2 ++ ["directory contains '".toList ++ term ++ "'".toList]) ∨
    dirStep dirPath st term =
      (st.1 + 2.5, st.2 ++ ["directory exact match '".toList ++ term ++ "'".toList]) := by
  unfold dirStep
  simp only
  rcases dirComponentLoop_cases term (strings.ToLower term) (strings.Split dirPath '/') st with
    h | ⟨h, hc⟩
  · rw [h]
    split_ifs
    · right
      left
      rfl
    · left
      rfl
  · rw [hc]
    simp only [Bool.not_true, Bool.and_false, Bool.false_eq_true, if_false]
    rcases h with h | h
    · right
      right
      right
      exact h
    · right
      right
      left
      exact h

/-- C22: for every directory path and term, at most one of the three directory rules
fires: the step of the directory loop leaves the state unchanged, or adds 1.2 with the
fragment `path contains`, or adds 1.8 with `directory contains`, or adds 2.5 with
`directory exact match`, and nothing else. -/
theorem dirStep_one_rule (dirPath : GoString) (st : ScoreState) (term : GoString) :
    dirStep dirPath st term = st ∨
    dirStep dirPath st term =
      (st.1 + 1.2, st.2 ++ ["path contains '".toList ++ term ++ "'".toList]) ∨
    dirStep dirPath st term =
      (st.1 + 1.8, st.2 ++ ["directory contains '".toList ++ term ++ "'".toList]) ∨
    dirStep dirPath st term =
      (st.1 + 2.5, st.2 ++ ["directory exact match '".toList ++ term ++ "'".toList]) :=
  dirStep_one_rule_aux dirPath st term

/-! ## The partial filename rule -/

theorem field_within (f : Char → Bool) (s w : GoString) (hw : w ∈ strings.FieldsFunc s f) :
    w <:+: s := by
  unfold strings.FieldsFunc at hw
  obtain ⟨pre, post, heq, _⟩ := (mem_fieldsLoop_iff f s [] w (by simp)).mp hw
  rw [List.reverse_nil, List.nil_append] at heq
  exact ⟨pre, post, heq.symm⟩

theorem partialWordLoop_cases (term termLower : GoString) (words : List GoString)
    (st : ScoreState) :
    partialWordLoop term termLower words st = st ∨
    (partialWordLoop term termLower words st =
        (st.1 + 0.5, st.2 ++ ["partial filename match '".toList ++ term ++ "'".toList]) ∧
      ∃ word ∈ words, 3 ≤ len word ∧ 3 ≤ len termLower ∧
        ((3 < len termLower ∧ strings.Contains termLower word = true) ∨
          (3 < len word ∧ strings.Contains word termLower = true))) := by
  induction words with
  | nil =>
    left
    rfl
  | cons w rest ih =>
    unfold partialWordLoop
    split_ifs with h1 h2
    · rcases ih with h | ⟨h, word, hw, hrest⟩
      · exact Or.inl h
      · exact Or.inr ⟨h, word, List.mem_cons_of_mem _ hw, hrest⟩
    · right
      refine ⟨rfl, w, List.mem_cons_self _ _, ?_⟩
      simp only [Bool.or_eq_true, decide_eq_true_eq, not_or, not_lt] at h1
      simp only [Bool.or_eq_true, Bool.and_eq_true, decide_eq_true_eq] at h2
      exact ⟨h1.1, h1.2, h2⟩
    · rcases ih with h | ⟨h, word, hw, hrest⟩
      · exact Or.inl h
      · exact Or.inr ⟨h, word, List.mem_cons_of_mem _ hw, hrest⟩

/-- C23, as stated, fails: for the file name `api_x` and the term `apis` the 0.5 rule
fires through the token `api`, whose length is 3; the file name has no token of length
greater than 3. -/
theorem partial_rule_fires_on_short_token :
    strings.FieldsFunc "api_x".toList notAlnum = ["api".toList, "x".toList] ∧
    len "api".toList = 3 ∧ len "x".toList = 1 ∧
    fileNameStep "api_x".toList (0, []) "apis".toList =
      (0.5, ["partial filename match 'apis'".toList]) ∧
    calculateFileScore { fs := unreadableFS } "docs/api_x.md".toList ["apis".toList] =
      (0.125, "partial filename match 'apis'".toList) := by
  decide!

/-- C23, amended: the 0.5 partial-filename rule fires for a term only through a filename
token of length at least 3 that is contained in the term, the term having length greater
than 3; a term of length at most 3 never earns the 0.5 partial credit. -/
theorem partial_rule_requires (fileNameNoExt : GoString) (st : ScoreState) (term : GoString) :
    ((fileNameStep fileNameNoExt st term).1 = st.1 + 0.5 →
      ∃ word ∈ strings.FieldsFunc fileNameNoExt notAlnum,
        3 ≤ len word ∧ 3 < len (strings.ToLower term) ∧
          strings.Contains (strings.ToLower term) word = true) ∧
    (len (strings.ToLower term) ≤ 3 → (fileNameStep fileNameNoExt st term).1 ≠ st.1 + 0.5) := by
  have main : (fileNameStep fileNameNoExt st term).1 = st.1 + 0.5 →
      ∃ word ∈ strings.FieldsFunc fileNameNoExt notAlnum,
        3 ≤ len word ∧ 3 < len (strings.ToLower term) ∧
          strings.Contains (strings.ToLower term) word = true := by
    unfold fileNameStep
    simp only
    split_ifs with h1 h2 h3
    · intro h
      simp only at h
      linarith
    · intro h
      simp only at h
      linarith
    · intro h
      simp only at h
      linarith
    · intro h
      rcases partialWordLoop_cases term (strings.ToLower term)
          (strings.FieldsFunc fileNameNoExt notAlnum) st with hc | ⟨_, word, hw, hl1, _, hor⟩
      · rw [hc] at h
        linarith
      · refine ⟨word, hw, hl1, ?_⟩
        rcases hor with hA | hB
        · exact hA
        · exfalso
          apply h2
          rw [contains_iff]
          exact ((contains_iff _ _).mp hB.2).trans (field_within notAlnum _ _ hw)
  refine ⟨main, ?_⟩
  intro hlen hfire
  obtain ⟨_, _, _, hgt, _⟩ := main hfire
  omega

theorem partial_rule_requires_witness :
    (∃ word ∈ strings.FieldsFunc "api_x".toList notAlnum,
        3 ≤ len word ∧ 3 < len (strings.ToLower "apis".toList) ∧
          strings.Contains (strings.ToLower "apis".toList) word = true) ∧
    (fileNameStep "api_x".toList (0, []) "xyz".toList).1 ≠ (0 : ℚ) + 0.5 :=
  ⟨(partial_rule_requires "api_x".toList (0, []) "apis".toList).1 (by decide!),
    (partial_rule_requires "api_x".toList (0, []) "xyz".toList).2 (by decide)⟩

/-! ## Rounding to `float64` -/

theorem bitLength_spec (fuel n : Nat) (hn : n ≠ 0) (hf : n ≤ fuel) :
    ∃ k : Nat, bitLength fuel n = k + 1 ∧ 2 ^ k ≤ n ∧ n < 2 ^ (k + 1) := by
  induction fuel generalizing n with
  | zero => omega
  | succ fuel ih =>
    unfold bitLength
    rw [if_neg hn]
    by_cases h2 : n / 2 = 0
    · have h1 : n = 1 := by omega
      subst h1
      refine ⟨0, ?_, by norm_num, by norm_num⟩
      cases fuel <;> simp [bitLength]
    · obtain ⟨k, hk, h1, h3⟩ := ih (n / 2) h2 (by omega)
      refine ⟨k + 1, by rw [hk], ?_, ?_⟩
      · rw [pow_succ]
        omega
      · rw [pow_succ] at h3 ⊢
        omega

theorem abs_eq_natAbs_div (x : ℚ) : |x| = (x.num.natAbs : ℚ) / (x.den : ℚ) := by
  conv_lhs => rw [← Rat.num_div_den x]
  rw [abs_div, Nat.abs_cast, Nat.cast_natAbs, Int.cast_abs]

theorem binaryExponent_spec (x : ℚ) (hx : x ≠ 0) :
    (2 : ℚ) ^ binaryExponent x ≤ |x| ∧ |x| < (2 : ℚ) ^ (binaryExponent x + 1) := by
  have hn : x.num.natAbs ≠ 0 := by
    rw [Ne, Int.natAbs_eq_zero]
    exact Rat.num_ne_zero.mpr hx
  obtain ⟨A, hA, hA1, hA2⟩ := bitLength_spec x.num.natAbs x.num.natAbs hn (le_refl _)
  obtain ⟨B, hB, hB1, hB2⟩ := bitLength_spec x.den x.den x.den_nz (le_refl _)
  have habs := abs_eq_natAbs_div x
  have hd : (0 : ℚ) < (x.den : ℚ) := by exact_mod_cast x.den_pos
  have qA1 : (2 : ℚ) ^ A ≤ (x.num.natAbs : ℚ) := by exact_mod_cast hA1
  have qA2 : (x.num.natAbs : ℚ) < (2 : ℚ) ^ (A + 1) := by exact_mod_cast hA2
  have qB1 : (2 : ℚ) ^ B ≤ (x.den : ℚ) := by exact_mod_cast hB1
  have qB2 : (x.den : ℚ) < (2 : ℚ) ^ (B + 1) := by exact_mod_cast hB2
  have h2 : (2 : ℚ) ≠ 0 := by norm_num
  have pA : (0 : ℚ) < (2 : ℚ) ^ A := by positivity
  have pB : (0 : ℚ) < (2 : ℚ) ^ B := by positivity
  have ha : ((bitLength x.num.natAbs x.num.natAbs : Int) - (bitLength x.den x.den : Int)) =
      (A : Int) - (B : Int) := by
    rw [hA, hB]
    push_cast
    ring
  have e0 : (2 : ℚ) ^ ((A : Int) - (B : Int)) = (2 : ℚ) ^ A / (2 : ℚ) ^ B := by
    rw [zpow_sub₀ h2, zpow_natCast, zpow_natCast]
  have e1 : (2 : ℚ) ^ ((A : Int) - (B : Int) + 1) = (2 : ℚ) ^ (A + 1) / (2 : ℚ) ^ B := by
    rw [zpow_add_one₀ h2, e0, pow_succ]
    ring
  have em : (2 : ℚ) ^ ((A : Int) - (B : Int) - 1) = (2 : ℚ) ^ A / (2 : ℚ) ^ (B + 1) := by
    rw [zpow_sub_one₀ h2, e0, pow_succ]
    field_simp
  unfold binaryExponent
  simp only [ha]
  split_ifs with hc
  · refine ⟨hc, ?_⟩
    rw [e1, habs, div_lt_div_iff₀ hd pB]
    calc (x.num.natAbs : ℚ) * (2 : ℚ) ^ B < (2 : ℚ) ^ (A + 1) * (2 : ℚ) ^ B :=
          mul_lt_mul_of_pos_right qA2 pB
      _ ≤ (2 : ℚ) ^ (A + 1) * (x.den : ℚ) :=
          mul_le_mul_of_nonneg_left qB1 (by positivity)
  · constructor
    · rw [em, habs, div_le_div_iff₀ (by positivity) hd]
      calc (2 : ℚ) ^ A * (x.den : ℚ) ≤ (2 : ℚ) ^ A * (2 : ℚ) ^ (B + 1) :=
            mul_le_mul_of_nonneg_left (le_of_lt qB2) (le_of_lt pA)
        _ ≤ (x.num.natAbs : ℚ) * (2 : ℚ) ^ (B + 1) :=
            mul_le_mul_of_nonneg_right qA1 (by positivity)
    · rw [sub_add_cancel]
      exact lt_of_not_le hc

theorem ulp_eq (e : Int) : (2 : ℚ) ^ (e - 52) = (2 : ℚ) ^ e * (1 / 2 ^ 52) := by
  have h52 : (2 : ℚ) ^ (52 : Int) = 2 ^ 52 := by norm_num
  rw [zpow_sub₀ (by norm_num : (2 : ℚ) ≠ 0), h52, div_eq_mul_one_div]

theorem float64_eq (x : ℚ) (hx : x ≠ 0) :
    ∃ n : Int, float64 x = (n : ℚ) * (2 : ℚ) ^ (binaryExponent x - 52) ∧
      |(n : ℚ) - x / (2 : ℚ) ^ (binaryExponent x - 52)| ≤ 1 / 2 ∧
      (⌊x / (2 : ℚ) ^ (binaryExponent x - 52)⌋ : Int) ≤ n := by
  unfold float64
  rw [if_neg hx]
  simp only
  have hf1 := Int.floor_le (x / (2 : ℚ) ^ (binaryExponent x - 52))
  have hf2 := Int.lt_floor_add_one (x / (2 : ℚ) ^ (binaryExponent x - 52))
  generalize (x / (2 : ℚ) ^ (binaryExponent x - 52)) = m at hf1 hf2
  generalize (⌊m⌋ : Int) = f at hf1 hf2
  refine ⟨_, rfl, ?_, ?_⟩
  · split_ifs with h1 h2 h3
    · rw [abs_le]
      constructor <;> linarith
    · rw [abs_le]
      push_cast
      constructor <;> linarith
    · rw [abs_le]
      constructor <;> linarith
    · rw [abs_le]
      push_cast
      constructor <;> linarith
  · split_ifs <;> omega

theorem float64_error (x : ℚ) : |float64 x - x| ≤ unitRoundoff * |x| := by
  by_cases hx : x = 0
  · subst hx
    simp [float64]
  · obtain ⟨n, hn, herr, _⟩ := float64_eq x hx
    obtain ⟨he, _⟩ := binaryExponent_spec x hx
    have h2 : (2 : ℚ) ≠ 0 := by norm_num
    have hulp : (0 : ℚ) < (2 : ℚ) ^ (binaryExponent x - 52) := by positivity
    have hsplit := ulp_eq (binaryExponent x)
    have hd : float64 x - x =
        ((n : ℚ) - x / (2 : ℚ) ^ (binaryExponent x - 52)) *
          (2 : ℚ) ^ (binaryExponent x - 52) := by
      rw [hn]
      field_simp
    rw [hd, abs_mul, abs_of_pos hulp]
    calc |(n : ℚ) - x / (2 : ℚ) ^ (binaryExponent x - 52)| * (2 : ℚ) ^ (binaryExponent x - 52)
        ≤ 1 / 2 * (2 : ℚ) ^ (binaryExponent x - 52) :=
          mul_le_mul_of_nonneg_right herr (le_of_lt hulp)
      _ = unitRoundoff * (2 : ℚ) ^ binaryExponent x := by
          rw [hsplit]
          unfold unitRoundoff
          ring
      _ ≤ unitRoundoff * |x| :=
          mul_le_mul_of_nonneg_left he (by unfold unitRoundoff; positivity)

theorem float64_bounds (x : ℚ) (hx : 0 ≤ x) :
    x * (1 - unitRoundoff) ≤ float64 x ∧ float64 x ≤ x * (1 + unitRoundoff) := by
  have h := float64_error x
  rw [abs_of_nonneg hx, abs_le] at h
  constructor <;> linarith [h.1, h.2]

theorem unitRoundoff_pos : 0 < unitRoundoff := by
  unfold unitRoundoff
  positivity

theorem unitRoundoff_lt_one : unitRoundoff < 1 := by
  unfold unitRoundoff
  norm_num

theorem float64_nonneg (x : ℚ) (hx : 0 ≤ x) : 0 ≤ float64 x := by
  have h := (float64_bounds x hx).1
  have h1 : 0 ≤ x * (1 - unitRoundoff) :=
    mul_nonneg hx (by linarith [unitRoundoff_lt_one])
  linarith

theorem float64_ge_half (x : ℚ) (hx : 1 / 2 ≤ x) : 1 / 2 ≤ float64 x := by
  have hx0 : x ≠ 0 := by
    intro h
    rw [h] at hx
    norm_num at hx
  have hxpos : 0 < x := by linarith
  obtain ⟨n, hn, _, hfl⟩ := float64_eq x hx0
  obtain ⟨he1, he2⟩ := binaryExponent_spec x hx0
  rw [abs_of_pos hxpos] at he1 he2
  have h2 : (2 : ℚ) ≠ 0 := by norm_num
  have hulp : (0 : ℚ) < (2 : ℚ) ^ (binaryExponent x - 52) := by positivity
  have hge : (-1 : Int) ≤ binaryExponent x := by
    by_contra hlt
    have hle : binaryExponent x + 1 ≤ -1 := by omega
    have : (2 : ℚ) ^ (binaryExponent x + 1) ≤ (2 : ℚ) ^ (-1 : Int) :=
      zpow_le_zpow_right₀ (by norm_num) hle
    have h3 : (2 : ℚ) ^ (-1 : Int) = 1 / 2 := by norm_num
    rw [h3] at this
    linarith
  have hm : ((2 ^ 52 : Int) : ℚ) ≤ x / (2 : ℚ) ^ (binaryExponent x - 52) := by
    rw [le_div_iff₀ hulp]
    have : ((2 ^ 52 : Int) : ℚ) * (2 : ℚ) ^ (binaryExponent x - 52) =
        (2 : ℚ) ^ binaryExponent x := by
      rw [ulp_eq]
      push_cast
      ring
    rw [this]
    exact he1
  have hfloor : (2 ^ 52 : Int) ≤ n := le_trans (Int.le_floor.mpr hm) hfl
  have hnq : ((2 ^ 52 : Int) : ℚ) ≤ (n : ℚ) := by exact_mod_cast hfloor
  rw [hn]
  calc (1 / 2 : ℚ) = (2 : ℚ) ^ (-1 : Int) := by norm_num
    _ ≤ (2 : ℚ) ^ binaryExponent x := zpow_le_zpow_right₀ (by norm_num) hge
    _ = ((2 ^ 52 : Int) : ℚ) * (2 : ℚ) ^ (binaryExponent x - 52) := by
        rw [ulp_eq]
        push_cast
        ring
    _ ≤ (n : ℚ) * (2 : ℚ) ^ (binaryExponent x - 52) :=
        mul_le_mul_of_nonneg_right hnq (le_of_lt hulp)

/-! ## The score of a line -/

theorem exactTerms_le (line : GoString) (queryTerms : List GoString) :
    exactTerms line queryTerms ≤ occurringTerms line queryTerms := by
  unfold exactTerms occurringTerms
  apply List.countP_mono_left
  intro t _ h
  simp only [Bool.and_eq_true] at h
  exact h.1

theorem approx_refl (S : ℚ) : Approx 0 S S := by
  unfold Approx
  simp

theorem approx_nonneg (j : Nat) (s S : ℚ) (hS : 0 ≤ S) (h : Approx j s S) : 0 ≤ s := by
  have h1 : (0 : ℚ) ≤ (1 - unitRoundoff) ^ j :=
    pow_nonneg (by linarith [unitRoundoff_lt_one]) j
  exact le_trans (mul_nonneg hS h1) h.1

theorem approx_mono (i j : Nat) (s S : ℚ) (hS : 0 ≤ S) (hij : i ≤ j) (h : Approx i s S) :
    Approx j s S := by
  have hu := unitRoundoff_pos
  have hu1 := unitRoundoff_lt_one
  have h1 : (1 - unitRoundoff) ^ j ≤ (1 - unitRoundoff) ^ i :=
    pow_le_pow_of_le_one (by linarith) (by linarith) hij
  have h2 : (1 + unitRoundoff) ^ i ≤ (1 + unitRoundoff) ^ j :=
    pow_le_pow_right₀ (by linarith) hij
  exact ⟨le_trans (mul_le_mul_of_nonneg_left h1 hS) h.1,
    le_trans h.2 (mul_le_mul_of_nonneg_left h2 hS)⟩

theorem approx_succ (j : Nat) (x X : ℚ) (hX : 0 ≤ X) (h : Approx j x X) :
    Approx (j + 1) (float64 x) X := by
  have hu := unitRoundoff_pos
  have hu1 := unitRoundoff_lt_one
  have hx := approx_nonneg j x X hX h
  obtain ⟨b1, b2⟩ := float64_bounds x hx
  constructor
  · rw [pow_succ, ← mul_assoc]
    exact le_trans (mul_le_mul_of_nonneg_right h.1 (by linarith)) b1
  · rw [pow_succ, ← mul_assoc]
    exact le_trans b2 (mul_le_mul_of_nonneg_right h.2 (by linarith))

theorem approx_float64 (c : ℚ) (hc : 0 ≤ c) : Approx 1 (float64 c) c :=
  approx_succ 0 c c hc (approx_refl c)

theorem approx_sum (j : Nat) (s S c C : ℚ) (hs : Approx j s S) (hc : Approx j c C) :
    Approx j (s + c) (S + C) := by
  constructor
  · rw [add_mul]
    exact add_le_add hs.1 hc.1
  · rw [add_mul]
    exact add_le_add hs.2 hc.2

theorem approx_add (j : Nat) (s S c C : ℚ) (hS : 0 ≤ S) (hC : 0 ≤ C) (hs : Approx j s S)
    (hc : Approx j c C) : Approx (j + 1) (float64 (s + c)) (S + C) :=
  approx_succ j (s + c) (S + C) (add_nonneg hS hC) (approx_sum j s S c C hs hc)

theorem approx_prod (i j : Nat) (a A b B : ℚ) (hA : 0 ≤ A) (hB : 0 ≤ B) (ha : Approx i a A)
    (hb : Approx j b B) : Approx (i + j) (a * b) (A * B) := by
  have hu := unitRoundoff_pos
  have hu1 := unitRoundoff_lt_one
  have ha0 := approx_nonneg i a A hA ha
  have hb0 := approx_nonneg j b B hB hb
  have l1 : (0 : ℚ) ≤ (1 - unitRoundoff) ^ i := pow_nonneg (by linarith) i
  have l2 : (0 : ℚ) ≤ (1 - unitRoundoff) ^ j := pow_nonneg (by linarith) j
  constructor
  · rw [pow_add]
    calc A * B * ((1 - unitRoundoff) ^ i * (1 - unitRoundoff) ^ j)
        = A * (1 - unitRoundoff) ^ i * (B * (1 - unitRoundoff) ^ j) := by ring
      _ ≤ a * b := mul_le_mul ha.1 hb.1 (mul_nonneg hB l2) ha0
  · rw [pow_add]
    calc a * b ≤ A * (1 + unitRoundoff) ^ i * (B * (1 + unitRoundoff) ^ j) :=
          mul_le_mul ha.2 hb.2 hb0 (le_trans ha0 ha.2)
      _ = A * B * ((1 + unitRoundoff) ^ i * (1 + unitRoundoff) ^ j) := by ring

theorem lineStep_miss (line lineLower : GoString) (st : ℚ × Nat) (term : GoString)
    (h : strings.Contains lineLower (strings.ToLower term) = false) :
    lineStep line lineLower st term = st := by
  unfold lineStep
  simp only [h, Bool.false_eq_true, if_false]

theorem lineStep_hit (line lineLower : GoString) (st : ℚ × Nat) (term : GoString)
    (h : strings.Contains lineLower (strings.ToLower term) = true) :
    (lineStep line lineLower st term).2 = st.2 + 1 ∧
    (0 ≤ st.1 → 1 / 2 ≤ (lineStep line lineLower st term).1) ∧
    ∀ (j : Nat) (S : ℚ), 0 ≤ S → Approx (2 * j) st.1 S →
      Approx (2 * (j + 1)) (lineStep line lineLower st term).1
        (S + (if isExactWordMatch lineLower (strings.ToLower term) = true then 1 else 1 / 2) +
          (if isImportantLine line = true then 3 / 10 else 0)) := by
  have h03 : (0 : ℚ) ≤ float64 0.3 := float64_nonneg _ (by norm_num)
  have hfirst : (0 ≤ st.1 → 1 / 2 ≤
      (if isExactWordMatch lineLower (strings.ToLower term) = true then float64 (st.1 + 1.0)
        else float64 (st.1 + 0.5))) := by
    intro h0
    split_ifs
    · exact float64_ge_half _ (by norm_num; linarith)
    · exact float64_ge_half _ (by norm_num; linarith)
  have hfirstA : ∀ (j : Nat) (S : ℚ), 0 ≤ S → Approx (2 * j) st.1 S →
      Approx (2 * j + 1)
        (if isExactWordMatch lineLower (strings.ToLower term) = true then float64 (st.1 + 1.0)
          else float64 (st.1 + 0.5))
        (S + (if isExactWordMatch lineLower (strings.ToLower term) = true then 1 else 1 / 2)) := by
    intro j S hS hA
    split_ifs
    · have h1 : Approx (2 * j) (1.0 : ℚ) 1 := by
        have : (1.0 : ℚ) = 1 := by norm_num
        rw [this]
        exact approx_mono 0 _ _ _ (by norm_num) (Nat.zero_le _) (approx_refl 1)
      exact approx_add _ _ _ _ _ hS (by norm_num) hA h1
    · have h1 : Approx (2 * j) (0.5 : ℚ) (1 / 2) := by
        have : (0.5 : ℚ) = 1 / 2 := by norm_num
        rw [this]
        exact approx_mono 0 _ _ _ (by norm_num) (Nat.zero_le _) (approx_refl _)
      exact approx_add _ _ _ _ _ hS (by norm_num) hA h1
  unfold lineStep
  simp only [h, if_true]
  refine ⟨trivial, ?_, ?_⟩
  · intro h0
    have h1 := hfirst h0
    by_cases himp : isImportantLine line = true
    · simp only [himp, if_true]
      exact float64_ge_half _ (by linarith)
    · simp only [himp, Bool.false_eq_true, if_false]
      exact h1
  · intro j S hS hA
    have h1 := hfirstA j S hS hA
    have hS1 : (0 : ℚ) ≤
        S + (if isExactWordMatch lineLower (strings.ToLower term) = true then 1 else 1 / 2) := by
      split_ifs <;> linarith
    by_cases himp : isImportantLine line = true
    · simp only [himp, if_true]
      have hc : Approx (2 * j + 1) (float64 0.3) (3 / 10) := by
        have h3 : (0.3 : ℚ) = 3 / 10 := by norm_num
        have := approx_float64 (3 / 10) (by norm_num)
        rw [← h3] at this
        rw [h3] at this ⊢
        exact approx_mono 1 _ _ _ (by norm_num) (by omega) this
      exact approx_add _ _ _ _ _ hS1 (by norm_num) h1 hc
    · simp only [himp, Bool.false_eq_true, if_false, add_zero]
      exact approx_mono _ _ _ _ hS1 (by omega) h1

theorem lineFold_spec (line lineLower : GoString) (terms : List GoString) :
    ∀ (st : ℚ × Nat) (S : ℚ) (j : Nat), 0 ≤ S → Approx (2 * j) st.1 S →
      (terms.foldl (lineStep line lineLower) st).2 =
        st.2 + terms.countP (fun t => strings.Contains lineLower (strings.ToLower t)) ∧
      (terms.countP (fun t => strings.Contains lineLower (strings.ToLower t)) = 0 →
        terms.foldl (lineStep line lineLower) st = st) ∧
      (1 / 2 ≤ st.1 ∨
          terms.countP (fun t => strings.Contains lineLower (strings.ToLower t)) ≠ 0 →
        1 / 2 ≤ (terms.foldl (lineStep line lineLower) st).1) ∧
      Approx (2 * (j + terms.countP (fun t => strings.Contains lineLower (strings.ToLower t))))
        (terms.foldl (lineStep line lineLower) st).1
        (S +
          (terms.countP (fun t => strings.Contains lineLower (strings.ToLower t) &&
            isExactWordMatch lineLower (strings.ToLower t)) : ℚ) +
          1 / 2 * ((terms.countP (fun t => strings.Contains lineLower (strings.ToLower t)) : ℚ) -
            (terms.countP (fun t => strings.Contains lineLower (strings.ToLower t) &&
              isExactWordMatch lineLower (strings.ToLower t)) : ℚ)) +
          (if isImportantLine line = true then
            3 / 10 * (terms.countP (fun t => strings.Contains lineLower (strings.ToLower t)) : ℚ)
           else 0)) := by
  induction terms with
  | nil =>
    intro st S j hS hA
    refine ⟨rfl, fun _ => rfl, ?_, ?_⟩
    · rintro (h | h)
      · exact h
      · exact absurd rfl h
    · simp only [List.countP_nil, Nat.cast_zero, sub_zero, mul_zero, add_zero, ite_self]
      exact hA
  | cons t rest ih =>
    intro st S j hS hA
    rw [List.foldl_cons]
    have hst0 : 0 ≤ st.1 := approx_nonneg _ _ _ hS hA
    by_cases hc : strings.Contains lineLower (strings.ToLower t) = true
    · obtain ⟨s2, shalf, sA⟩ := lineStep_hit line lineLower st t hc
      have hS1 : (0 : ℚ) ≤ S +
          (if isExactWordMatch lineLower (strings.ToLower t) = true then 1 else 1 / 2) +
          (if isImportantLine line = true then 3 / 10 else 0) := by
        split_ifs <;> linarith
      obtain ⟨i1, _, i3, i4⟩ := ih (lineStep line lineLower st t) _ (j + 1) hS1 (sA j S hS hA)
      have hk : (t :: rest).countP (fun t => strings.Contains lineLower (strings.ToLower t)) =
          rest.countP (fun t => strings.Contains lineLower (strings.ToLower t)) + 1 := by
        rw [List.countP_cons]
        simp only [hc, if_true]
      have he : (t :: rest).countP (fun t => strings.Contains lineLower (strings.ToLower t) &&
            isExactWordMatch lineLower (strings.ToLower t)) =
          rest.countP (fun t => strings.Contains lineLower (strings.ToLower t) &&
            isExactWordMatch lineLower (strings.ToLower t)) +
          (if isExactWordMatch lineLower (strings.ToLower t) = true then 1 else 0) := by
        rw [List.countP_cons]
        simp only [hc, Bool.true_and]
      rw [hk, he]
      refine ⟨by rw [i1, s2]; omega, fun h => absurd h (Nat.succ_ne_zero _), ?_, ?_⟩
      · intro _
        exact i3 (Or.inl (shalf hst0))
      · have hidx : 2 * (j + (rest.countP
            (fun t => strings.Contains lineLower (strings.ToLower t)) + 1)) =
            2 * (j + 1 + rest.countP
              (fun t => strings.Contains lineLower (strings.ToLower t))) := by ring
        rw [hidx]
        convert i4 using 1
        push_cast
        split_ifs <;> ring
    · have hcf : strings.Contains lineLower (strings.ToLower t) = false := by
        simpa using hc
      rw [lineStep_miss line lineLower st t hcf]
      have hk : (t :: rest).countP (fun t => strings.Contains lineLower (strings.ToLower t)) =
          rest.countP (fun t => strings.Contains lineLower (strings.ToLower t)) := by
        rw [List.countP_cons]
        simp only [hcf, Bool.false_eq_true, if_false, add_zero]
      have he : (t :: rest).countP (fun t => strings.Contains lineLower (strings.ToLower t) &&
            isExactWordMatch lineLower (strings.ToLower t)) =
          rest.countP (fun t => strings.Contains lineLower (strings.ToLower t) &&
            isExactWordMatch lineLower (strings.ToLower t)) := by
        rw [List.countP_cons]
        simp only [hcf, Bool.false_and, Bool.false_eq_true, if_false, add_zero]
      rw [hk, he]
      exact ih st S j hS hA

theorem scoreLineRelevance_spec (line : GoString) (queryTerms : List GoString) :
    (scoreLineRelevance line queryTerms = 0 ↔ occurringTerms line queryTerms = 0) ∧
    (occurringTerms line queryTerms ≠ 0 → 1 / 2 ≤ scoreLineRelevance line queryTerms) ∧
    Approx (2 * occurringTerms line queryTerms + 1) (scoreLineRelevance line queryTerms)
      ((exactTerms line queryTerms : ℚ) +
        1 / 2 * ((occurringTerms line queryTerms : ℚ) - (exactTerms line queryTerms : ℚ)) +
        (if isImportantLine line = true then 3 / 10 * (occurringTerms line queryTerms : ℚ)
          else 0) +
        1 / 5 * max 0 ((occurringTerms line queryTerms : ℚ) - 1)) := by
  have hle : (exactTerms line queryTerms : ℚ) ≤ (occurringTerms line queryTerms : ℚ) := by
    exact_mod_cast exactTerms_le line queryTerms
  have he0 : (0 : ℚ) ≤ (exactTerms line queryTerms : ℚ) := Nat.cast_nonneg _
  have hk0 : (0 : ℚ) ≤ (occurringTerms line queryTerms : ℚ) := Nat.cast_nonneg _
  have himp : (0 : ℚ) ≤
      (if isImportantLine line = true then 3 / 10 * (occurringTerms line queryTerms : ℚ)
        else 0) := by
    split_ifs
    · linarith
    · exact le_refl _
  have hE : (0 : ℚ) ≤ (exactTerms line queryTerms : ℚ) +
      1 / 2 * ((occurringTerms line queryTerms : ℚ) - (exactTerms line queryTerms : ℚ)) +
      (if isImportantLine line = true then 3 / 10 * (occurringTerms line queryTerms : ℚ)
        else 0) := by linarith
  obtain ⟨f1, f2, f3, f4⟩ := lineFold_spec line (strings.ToLower line) queryTerms (0, 0) 0 0
    (le_refl _) (approx_refl 0)
  simp only [zero_add, Nat.zero_add] at f1 f4
  have f1k : (queryTerms.foldl (lineStep line (strings.ToLower line)) (0, 0)).2 =
      occurringTerms line queryTerms := f1
  have f2k : occurringTerms line queryTerms = 0 →
      queryTerms.foldl (lineStep line (strings.ToLower line)) (0, 0) = (0, 0) := f2
  have f3k : occurringTerms line queryTerms ≠ 0 →
      1 / 2 ≤ (queryTerms.foldl (lineStep line (strings.ToLower line)) (0, 0)).1 :=
    fun h => f3 (Or.inr h)
  have f4k : Approx (2 * occurringTerms line queryTerms)
      (queryTerms.foldl (lineStep line (strings.ToLower line)) (0, 0)).1
      ((exactTerms line queryTerms : ℚ) +
        1 / 2 * ((occurringTerms line queryTerms : ℚ) - (exactTerms line queryTerms : ℚ)) +
        (if isImportantLine line = true then 3 / 10 * (occurringTerms line queryTerms : ℚ)
          else 0)) := f4
  by_cases hnil : queryTerms.length = 0
  · have hq : queryTerms = [] := List.length_eq_zero.mp hnil
    subst hq
    have hz : scoreLineRelevance line [] = 0 := rfl
    have hkz : occurringTerms line [] = 0 := rfl
    have hez : exactTerms line [] = 0 := rfl
    rw [hz, hkz, hez]
    refine ⟨⟨fun _ => rfl, fun _ => rfl⟩, fun h => absurd rfl h, ?_⟩
    simp [Approx]
  · have hscore : scoreLineRelevance line queryTerms =
        if occurringTerms line queryTerms > 1 then
          float64 ((queryTerms.foldl (lineStep line (strings.ToLower line)) (0, 0)).1 +
            float64 (float64 0.2 * float64 ((occurringTerms line queryTerms - 1 : Nat) : ℚ)))
        else (queryTerms.foldl (lineStep line (strings.ToLower line)) (0, 0)).1 := by
      unfold scoreLineRelevance
      rw [if_neg hnil]
      simp only [f1k]
    by_cases hk : occurringTerms line queryTerms > 1
    · rw [hscore, if_pos hk]
      have hkne : occurringTerms line queryTerms ≠ 0 := by omega
      have hs := f3k hkne
      have hcast : ((occurringTerms line queryTerms - 1 : Nat) : ℚ) =
          (occurringTerms line queryTerms : ℚ) - 1 := by
        rw [Nat.cast_sub (le_of_lt hk)]
        simp
      have hk1 : (1 : ℚ) ≤ (occurringTerms line queryTerms : ℚ) := by
        exact_mod_cast le_of_lt hk
      have hb1 : Approx 1 (float64 0.2) (1 / 5) := by
        have h2 : (0.2 : ℚ) = 1 / 5 := by norm_num
        rw [h2]
        exact approx_float64 _ (by norm_num)
      have hb2 : Approx 1 (float64 ((occurringTerms line queryTerms - 1 : Nat) : ℚ))
          ((occurringTerms line queryTerms : ℚ) - 1) := by
        rw [hcast]
        exact approx_float64 _ (by linarith)
      have hb3 := approx_prod 1 1 _ _ _ _ (by norm_num) (by linarith) hb1 hb2
      have hB : (0 : ℚ) ≤ 1 / 5 * ((occurringTerms line queryTerms : ℚ) - 1) :=
        mul_nonneg (by norm_num) (by linarith)
      have hb4 := approx_succ _ _ _ hB hb3
      have hbonus : 0 ≤ float64 (float64 0.2 *
          float64 ((occurringTerms line queryTerms - 1 : Nat) : ℚ)) :=
        approx_nonneg _ _ _ hB hb4
      have hfinal : 1 / 2 ≤
          float64 ((queryTerms.foldl (lineStep line (strings.ToLower line)) (0, 0)).1 +
            float64 (float64 0.2 * float64 ((occurringTerms line queryTerms - 1 : Nat) : ℚ))) :=
        float64_ge_half _ (by linarith)
      refine ⟨⟨fun h => ?_, fun h => absurd h hkne⟩, fun _ => hfinal, ?_⟩
      · rw [h] at hfinal
        norm_num at hfinal
      · rw [max_eq_right (by linarith)]
        exact approx_add _ _ _ _ _ hE hB f4k
          (approx_mono _ _ _ _ hB (by omega) hb4)
    · rw [hscore, if_neg hk]
      have hk1 : (occurringTerms line queryTerms : ℚ) ≤ 1 := by
        exact_mod_cast not_lt.mp hk
      refine ⟨⟨fun h => ?_, fun h => ?_⟩, f3k, ?_⟩
      · by_contra hkne
        have := f3k hkne
        rw [h] at this
        norm_num at this
      · rw [f2k h]
      · rw [max_eq_left (by linarith), mul_zero, add_zero]
        exact approx_mono _ _ _ _ hE (by omega) f4k

theorem scoreLineRelevance_pos_iff (line : GoString) (queryTerms : List GoString) :
    0 < scoreLineRelevance line queryTerms ↔ occurringTerms line queryTerms ≠ 0 := by
  obtain ⟨h1, h2, _⟩ := scoreLineRelevance_spec line queryTerms
  constructor
  · intro hpos hk
    rw [h1.mpr hk] at hpos
    exact lt_irrefl _ hpos
  · intro hk
    have := h2 hk
    linarith

/-- C24 (the claim as worded fails in `float64` arithmetic): the lines `curl ab cd efx`
and `curl abx cd ef` have, for the terms `ab`, `cd`, `ef`, the same number of occurring
terms (3), the same number of whole-word terms (2) and are both important, so the formula
gives both the same value, 3.8; but the code adds the increments in term order and
rounds after each addition: the first line scores 3.7999999999999994
(`8556839292003941 / 2^51`), the second one 3.8 (the `float64` nearest to 19/5). -/
theorem scoreLineRelevance_formula_inexact :
    occurringTerms "curl ab cd efx".toList ["ab".toList, "cd".toList, "ef".toList] = 3 ∧
    exactTerms "curl ab cd efx".toList ["ab".toList, "cd".toList, "ef".toList] = 2 ∧
    isImportantLine "curl ab cd efx".toList = true ∧
    occurringTerms "curl abx cd ef".toList ["ab".toList, "cd".toList, "ef".toList] = 3 ∧
    exactTerms "curl abx cd ef".toList ["ab".toList, "cd".toList, "ef".toList] = 2 ∧
    isImportantLine "curl abx cd ef".toList = true ∧
    scoreLineRelevance "curl ab cd efx".toList ["ab".toList, "cd".toList, "ef".toList] =
      8556839292003941 / 2 ^ 51 ∧
    scoreLineRelevance "curl abx cd ef".toList ["ab".toList, "cd".toList, "ef".toList] =
      float64 3.8 ∧
    scoreLineRelevance "curl ab cd efx".toList ["ab".toList, "cd".toList, "ef".toList] ≠
      scoreLineRelevance "curl abx cd ef".toList ["ab".toList, "cd".toList, "ef".toList] ∧
    scoreLineRelevance "curl ab cd efx".toList ["ab".toList, "cd".toList, "ef".toList] ≠
      float64 (1.0 * 2 + 0.5 * (3 - 2) + 0.3 * 3 + 0.2 * max 0 (3 - 1)) := by
  refine ⟨by decide, by decide, by decide, by decide, by decide, by decide, by decide!,
    by decide!, by decide!, by decide!⟩

/-- C24 (amended): with `k` the number of terms whose lower-cased form occurs in the
lower-cased line, `e` the number of those that occur as a complete word and
`F = 1.0 e + 0.5 (k - e) + (0.3 k if the line is important) + 0.2 max(0, k - 1)` the
value of the formula in exact arithmetic, `scoreLineRelevance` equals `F` up to the
rounding of at most `2k + 1` `float64` operations:
`F (1 - 2^-53)^(2k+1) ≤ score ≤ F (1 + 2^-53)^(2k+1)`; the score is 0 exactly when no
term occurs in the line and at least 0.5 otherwise. -/
theorem scoreLineRelevance_formula_rounded (line : GoString) (queryTerms : List GoString) :
    (1.0 * (exactTerms line queryTerms : ℚ) +
        0.5 * ((occurringTerms line queryTerms : ℚ) - (exactTerms line queryTerms : ℚ)) +
        (if isImportantLine line = true then 0.3 * (occurringTerms line queryTerms : ℚ) else 0) +
        0.2 * max 0 ((occurringTerms line queryTerms : ℚ) - 1)) *
      (1 - 1 / 2 ^ 53) ^ (2 * occurringTerms line queryTerms + 1) ≤
        scoreLineRelevance line queryTerms ∧
    scoreLineRelevance line queryTerms ≤
      (1.0 * (exactTerms line queryTerms : ℚ) +
        0.5 * ((occurringTerms line queryTerms : ℚ) - (exactTerms line queryTerms : ℚ)) +
        (if isImportantLine line = true then 0.3 * (occurringTerms line queryTerms : ℚ) else 0) +
        0.2 * max 0 ((occurringTerms line queryTerms : ℚ) - 1)) *
      (1 + 1 / 2 ^ 53) ^ (2 * occurringTerms line queryTerms + 1) ∧
    (scoreLineRelevance line queryTerms = 0 ↔ occurringTerms line queryTerms = 0) ∧
    (occurringTerms line queryTerms ≠ 0 → 0.5 ≤ scoreLineRelevance line queryTerms) := by
  obtain ⟨h1, h2, h3⟩ := scoreLineRelevance_spec line queryTerms
  have hF : (1.0 * (exactTerms line queryTerms : ℚ) +
        0.5 * ((occurringTerms line queryTerms : ℚ) - (exactTerms line queryTerms : ℚ)) +
        (if isImportantLine line = true then 0.3 * (occurringTerms line queryTerms : ℚ) else 0) +
        0.2 * max 0 ((occurringTerms line queryTerms : ℚ) - 1)) =
      ((exactTerms line queryTerms : ℚ) +
        1 / 2 * ((occurringTerms line queryTerms : ℚ) - (exactTerms line queryTerms : ℚ)) +
        (if isImportantLine line = true then 3 / 10 * (occurringTerms line queryTerms : ℚ)
          else 0) +
        1 / 5 * max 0 ((occurringTerms line queryTerms : ℚ) - 1)) := by
    split_ifs <;> norm_num
  rw [hF]
  refine ⟨h3.1, h3.2, h1, ?_⟩
  intro hk
  have := h2 hk
  norm_num at this ⊢
  exact this

theorem scoreLineRelevance_formula_rounded_witness :
    occurringTerms "curl ab cd efx".toList ["ab".toList, "cd".toList, "ef".toList] ≠ 0 ∧
    0.5 ≤ scoreLineRelevance "curl ab cd efx".toList ["ab".toList, "cd".toList, "ef".toList] ∧
    (scoreLineRelevance "# notes".toList ["ab".toList] = 0 ↔
      occurringTerms "# notes".toList ["ab".toList] = 0) :=
  ⟨by decide,
    (scoreLineRelevance_formula_rounded "curl ab cd efx".toList
      ["ab".toList, "cd".toList, "ef".toList]).2.2.2 (by decide),
    (scoreLineRelevance_formula_rounded "# notes".toList ["ab".toList]).2.2.1⟩

/-! ## The filename word rule is never reached -/

theorem toLower_idem (r : Char) : unicode.ToLower (unicode.ToLower r) = unicode.ToLower r := by
  by_cases hr : 65 ≤ r.toNat ∧ r.toNat ≤ 90
  · obtain ⟨h1, h2⟩ := hr
    have hr2 : r = Char.ofNat r.toNat := (Char.ofNat_toNat r).symm
    generalize r.toNat = n at *
    subst hr2
    interval_cases n <;> decide
  · have h : unicode.ToLower r = r := by
      unfold unicode.ToLower
      rw [if_neg hr]
    rw [h, h]

theorem isWordInString_lower_contains (text word : GoString)
    (h : isWordInString (strings.ToLower text) word = true) :
    strings.Contains (strings.ToLower text) word = true := by
  unfold isWordInString at h
  obtain ⟨w, hw, hl⟩ := List.any_eq_true.mp h
  have hl2 : strings.ToLower w = word := of_decide_eq_true hl
  have hchars : ∀ x ∈ w, x ∈ strings.ToLower text := by
    intro x hx
    unfold strings.FieldsFunc at hw
    rcases fieldsLoop_chars notAlnum _ [] w hw x hx with h1 | h1
    · exact h1
    · cases h1
  have hfix : strings.ToLower w = w := by
    unfold strings.ToLower
    conv_rhs => rw [← List.map_id w]
    apply List.map_congr_left
    intro x hx
    have := hchars x hx
    unfold strings.ToLower at this
    obtain ⟨y, _, hy⟩ := List.mem_map.mp this
    rw [← hy, id]
    exact toLower_idem y
  rw [contains_iff, ← hl2, hfix]
  exact field_within notAlnum _ w hw

theorem fileNameStep_eq_without (text : GoString) (st : ScoreState) (term : GoString) :
    fileNameStep (strings.ToLower text) st term =
      fileNameStepWithoutWordRule (strings.ToLower text) st term := by
  unfold fileNameStep fileNameStepWithoutWordRule
  simp only
  split_ifs with h1 h2 h3
  · rfl
  · rfl
  · exact absurd (isWordInString_lower_contains text _ h3) h2
  · rfl

theorem hasPrefix_append_false (a x p : GoString)
    (h : strings.HasPrefix a (p.take a.length) = false) :
    strings.HasPrefix (a ++ x) p = false := by
  cases hp : strings.HasPrefix (a ++ x) p
  · rfl
  · exfalso
    have h1 : p <+: a ++ x := (hasPrefix_iff _ _).mp hp
    have h2 : p.take a.length <+: a := by
      obtain ⟨t, ht⟩ := h1
      have h3 := congrArg (List.take a.length) ht
      rw [List.take_left, List.take_append_eq_append_take] at h3
      exact ⟨_, h3⟩
    rw [(hasPrefix_iff _ _).mpr h2] at h
    cases h

theorem quoted_not_word_fragment (pre term : GoString)
    (h : strings.HasPrefix pre ("filename word match '".toList.take pre.length) = false) :
    isWordMatchFragment (pre ++ term ++ "'".toList) = false := by
  unfold isWordMatchFragment
  rw [List.append_assoc]
  exact hasPrefix_append_false _ _ _ h

theorem dirStep_no_word_fragment (dirPath : GoString) (st : ScoreState) (term : GoString)
    (h : ∀ r ∈ st.2, isWordMatchFragment r = false) :
    ∀ r ∈ (dirStep dirPath st term).2, isWordMatchFragment r = false := by
  intro r hr
  rcases dirStep_one_rule_aux dirPath st term with h0 | h0 | h0 | h0 <;> rw [h0] at hr
  · exact h r hr
  · rcases List.mem_append.mp hr with h1 | h1
    · exact h r h1
    · rw [List.mem_singleton.mp h1]
      exact quoted_not_word_fragment _ _ (by decide)
  · rcases List.mem_append.mp hr with h1 | h1
    · exact h r h1
    · rw [List.mem_singleton.mp h1]
      exact quoted_not_word_fragment _ _ (by decide)
  · rcases List.mem_append.mp hr with h1 | h1
    · exact h r h1
    · rw [List.mem_singleton.mp h1]
      exact quoted_not_word_fragment _ _ (by decide)

theorem fileNameStepWithout_no_word_fragment (fileNameNoExt : GoString) (st : ScoreState)
    (term : GoString) (h : ∀ r ∈ st.2, isWordMatchFragment r = false) :
    ∀ r ∈ (fileNameStepWithoutWordRule fileNameNoExt st term).2,
      isWordMatchFragment r = false := by
  intro r hr
  unfold fileNameStepWithoutWordRule at hr
  simp only at hr
  split_ifs at hr with h1 h2
  · rcases List.mem_append.mp hr with h3 | h3
    · exact h r h3
    · rw [List.mem_singleton.mp h3]
      decide
  · rcases List.mem_append.mp hr with h3 | h3
    · exact h r h3
    · rw [List.mem_singleton.mp h3]
      exact quoted_not_word_fragment _ _ (by decide)
  · rcases partialWordLoop_cases term (strings.ToLower term)
        (strings.FieldsFunc fileNameNoExt notAlnum) st with h0 | ⟨h0, _⟩ <;> rw [h0] at hr
    · exact h r hr
    · rcases List.mem_append.mp hr with h3 | h3
      · exact h r h3
      · rw [List.mem_singleton.mp h3]
        exact quoted_not_word_fragment _ _ (by decide)

theorem fileNameFold_eq_without (text : GoString) (queryTerms : List GoString)
    (st : ScoreState) :
    queryTerms.foldl (fileNameStep (strings.ToLower text)) st =
      queryTerms.foldl (fileNameStepWithoutWordRule (strings.ToLower text)) st := by
  have h : fileNameStep (strings.ToLower text) =
      fileNameStepWithoutWordRule (strings.ToLower text) := by
    funext st term
    exact fileNameStep_eq_without text st term
  rw [h]

theorem calculateFileScore_eq_without (ff : FileFinder) (filePath : GoString)
    (queryTerms : List GoString) :
    calculateFileScore ff filePath queryTerms =
      calculateFileScoreWithoutWordRule ff filePath queryTerms := by
  unfold calculateFileScore calculateFileScoreWithoutWordRule
  simp only [fileNameFold_eq_without]

theorem scoreReasons_no_word_fragment (ff : FileFinder) (filePath : GoString)
    (queryTerms : List GoString) :
    ∀ r ∈ scoreReasons ff filePath queryTerms, isWordMatchFragment r = false := by
  have hdir : ∀ (d : GoString) (st : ScoreState),
      (∀ r ∈ st.2, isWordMatchFragment r = false) →
      ∀ r ∈ (queryTerms.foldl (dirStep d) st).2, isWordMatchFragment r = false := by
    intro d st h
    exact foldl_preserves (fun (s : ScoreState) => ∀ r ∈ s.2, isWordMatchFragment r = false)
      (dirStep d) (fun s t hs => dirStep_no_word_fragment d s t hs) queryTerms st h
  have hfile : ∀ (f : GoString) (st : ScoreState),
      (∀ r ∈ st.2, isWordMatchFragment r = false) →
      ∀ r ∈ (queryTerms.foldl (fileNameStepWithoutWordRule f) st).2,
        isWordMatchFragment r = false := by
    intro f st h
    exact foldl_preserves (fun (s : ScoreState) => ∀ r ∈ s.2, isWordMatchFragment r = false)
      (fileNameStepWithoutWordRule f)
      (fun s t hs => fileNameStepWithout_no_word_fragment f s t hs) queryTerms st h
  have hcases : (scoreFileContent ff filePath queryTerms).2 = [] ∨
      (scoreFileContent ff filePath queryTerms).2 = "content matches".toList := by
    unfold scoreFileContent
    cases ff.fs.readFile filePath with
    | none => exact Or.inl rfl
    | some content =>
      simp only
      split_ifs
      · exact Or.inl rfl
      · exact Or.inr rfl
      · exact Or.inr rfl
  have hcontent : isWordMatchFragment (scoreFileContent ff filePath queryTerms).2 = false := by
    rcases hcases with h | h <;> rw [h] <;> decide
  intro r hr
  unfold scoreReasons at hr
  simp only [fileNameFold_eq_without] at hr
  have hst := hfile
    (strings.ToLower (strings.TrimSuffix (strings.ToLower (filepath.Base filePath))
      (filepath.Ext (strings.ToLower (filepath.Base filePath)))))
    _ (hdir (strings.ToLower (filepath.Dir filePath)) (0, []) (fun r hr => by cases hr))
  split_ifs at hr with hc
  · rcases List.mem_append.mp hr with h1 | h1
    · exact hst r h1
    · rw [List.mem_singleton.mp h1]
      exact hcontent
  · exact hst r hr

/-- C26: the `filename word match` rule of `calculateFileScore` never fires. Whenever
`isWordInString` holds of a lower-cased text and a term, the text already contains the
term; the filename step equals the step without the rule; `calculateFileScore` equals,
in score and reason, the function with the branch removed; the reason is the join of
the recorded fragments, and no recorded fragment is the fragment
`filename word match '<term>'` of the rule. -/
theorem word_rule_never_fires (ff : FileFinder) (filePath : GoString)
    (queryTerms : List GoString) :
    (∀ text word : GoString, isWordInString (strings.ToLower text) word = true →
      strings.Contains (strings.ToLower text) word = true) ∧
    (∀ (text : GoString) (st : ScoreState) (term : GoString),
      fileNameStep (strings.ToLower text) st term =
        fileNameStepWithoutWordRule (strings.ToLower text) st term) ∧
    calculateFileScore ff filePath queryTerms =
      calculateFileScoreWithoutWordRule ff filePath queryTerms ∧
    (calculateFileScore ff filePath queryTerms).2 =
      (if queryTerms.length = 0 then []
       else strings.Join (scoreReasons ff filePath queryTerms) ", ".toList) ∧
    ∀ r ∈ scoreReasons ff filePath queryTerms, isWordMatchFragment r = false := by
  refine ⟨isWordInString_lower_contains, fileNameStep_eq_without,
    calculateFileScore_eq_without ff filePath queryTerms, ?_,
    scoreReasons_no_word_fragment ff filePath queryTerms⟩
  unfold calculateFileScore scoreReasons
  split_ifs <;> rfl

/-! ## The sections of `findRelevantSections` -/

theorem occurringTerms_ne_zero_iff (line : GoString) (queryTerms : List GoString) :
    occurringTerms line queryTerms ≠ 0 ↔
      ∃ t ∈ queryTerms, strings.Contains (strings.ToLower line) (strings.ToLower t) = true := by
  unfold occurringTerms
  rw [← Nat.pos_iff_ne_zero, List.countP_pos_iff]

theorem mem_scoreLines (queryTerms : List GoString) (lines : List GoString) (i : Nat)
    (s : ContentSection) :
    s ∈ scoreLines queryTerms i lines ↔
      ∃ j : Nat, j < lines.length ∧ 0 < scoreLineRelevance (lines.getD j []) queryTerms ∧
        s = { LineNumber := ((i + j : Nat) : Int), EndLine := 0,
              Score := scoreLineRelevance (lines.getD j []) queryTerms,
              Content := lines.getD j [] } := by
  induction lines generalizing i with
  | nil =>
    unfold scoreLines
    constructor
    · intro h
      cases h
    · rintro ⟨j, hj, _⟩
      cases hj
  | cons line rest ih =>
    have hrest : s ∈ scoreLines queryTerms (i + 1) rest ↔
        ∃ j : Nat, 0 < j ∧ j < (line :: rest).length ∧
          0 < scoreLineRelevance ((line :: rest).getD j []) queryTerms ∧
          s = { LineNumber := ((i + j : Nat) : Int), EndLine := 0,
                Score := scoreLineRelevance ((line :: rest).getD j []) queryTerms,
                Content := (line :: rest).getD j [] } := by
      rw [ih (i + 1)]
      constructor
      · rintro ⟨j, hj, hpos, hs⟩
        refine ⟨j + 1, Nat.succ_pos _, ?_, ?_, ?_⟩
        · simp only [List.length_cons]
          omega
        · simpa using hpos
        · rw [hs]
          have : i + 1 + j = i + (j + 1) := by omega
          rw [this]
          simp
      · rintro ⟨j, hj0, hj, hpos, hs⟩
        obtain ⟨j, rfl⟩ : ∃ j2, j = j2 + 1 := ⟨j - 1, by omega⟩
        refine ⟨j, ?_, ?_, ?_⟩
        · simp only [List.length_cons] at hj
          omega
        · simpa using hpos
        · rw [hs]
          have : i + 1 + j = i + (j + 1) := by omega
          rw [this]
          simp
    unfold scoreLines
    simp only
    split_ifs with hpos
    · rw [List.mem_cons, hrest]
      constructor
      · rintro (h | ⟨j, _, hj, hp, hs⟩)
        · exact ⟨0, Nat.succ_pos _, by simpa using hpos, by simpa using h⟩
        · exact ⟨j, hj, hp, hs⟩
      · rintro ⟨j, hj, hp, hs⟩
        rcases Nat.eq_zero_or_pos j with h0 | h0
        · subst h0
          left
          simpa using hs
        · right
          exact ⟨j, h0, hj, hp, hs⟩
    · rw [hrest]
      constructor
      · rintro ⟨j, _, hj, hp, hs⟩
        exact ⟨j, hj, hp, hs⟩
      · rintro ⟨j, hj, hp, hs⟩
        rcases Nat.eq_zero_or_pos j with h0 | h0
        · subst h0
          exfalso
          apply hpos
          simpa using hp
        · exact ⟨j, h0, hj, hp, hs⟩

theorem maxInt_eq (a b : Int) : maxInt a b = max a b := by
  unfold maxInt
  split_ifs <;> omega

theorem minInt_eq (a b : Int) : minInt a b = min a b := by
  unfold minInt
  split_ifs <;> omega

theorem window_lines (lines : List GoString) (a b : Int) (ha : 0 ≤ a)
    (hb : b ≤ (lines.length : Int)) :
    (intRange a b).map (fun i => lines.getD i.toNat []) =
      (lines.drop a.toNat).take (b - a).toNat := by
  unfold intRange
  rw [List.map_map]
  apply List.ext_getElem
  · rw [List.length_map, List.length_range, List.length_take, List.length_drop]
    omega
  · intro k h1 h2
    rw [List.length_map, List.length_range] at h1
    rw [List.getElem_map, List.getElem_range, List.getElem_take, List.getElem_drop]
    simp only [Function.comp]
    have hk : (a + (k : Int)).toNat = a.toNat + k := by omega
    rw [hk]
    have hlt : a.toNat + k < lines.length := by omega
    rw [List.getD_eq_getElem _ _ hlt]

theorem expandLoop_extends (lines : List GoString) (contextLines : Int)
    (sections expanded : List ContentSection) (used : List Int) :
    expanded <+: expandLoop lines contextLines sections expanded used := by
  induction sections generalizing expanded used with
  | nil => exact List.prefix_refl _
  | cons sec rest ih =>
    unfold expandLoop
    dsimp only
    split_ifs with h5 hov
    · exact List.prefix_refl _
    · exact (List.prefix_append _ _).trans (ih _ _)
    · exact ih _ _

theorem expandLoop_sorted (lines : List GoString) (contextLines : Int)
    (sections expanded : List ContentSection) (used : List Int)
    (hsec : sections.Pairwise (fun a b => a.Score ≥ b.Score))
    (hexp : expanded.Pairwise (fun a b => a.Score ≥ b.Score))
    (hcross : ∀ e ∈ expanded, ∀ s ∈ sections, e.Score ≥ s.Score) :
    (expandLoop lines contextLines sections expanded used).Pairwise
      (fun a b => a.Score ≥ b.Score) := by
  induction sections generalizing expanded used with
  | nil => exact hexp
  | cons sec rest ih =>
    obtain ⟨hhead, htail⟩ := List.pairwise_cons.mp hsec
    have hcross2 : ∀ e ∈ expanded, ∀ s ∈ rest, e.Score ≥ s.Score :=
      fun e he s hs => hcross e he s (List.mem_cons_of_mem _ hs)
    unfold expandLoop
    dsimp only
    split_ifs with h5 hov
    · exact hexp
    · apply ih _ _ htail
      · rw [List.pairwise_append]
        refine ⟨hexp, List.pairwise_singleton _ _, ?_⟩
        intro a ha b hb
        rw [List.mem_singleton.mp hb]
        exact hcross a ha sec (List.mem_cons_self _ _)
      · intro e he s hs
        rcases List.mem_append.mp he with h | h
        · exact hcross2 e h s hs
        · rw [List.mem_singleton.mp h]
          exact hhead s hs
    · exact ih _ _ htail hexp hcross2

theorem expandLoop_mem (lines : List GoString) (contextLines : Int)
    (hW : 0 ≤ contextLines) (hno : (lines.length : Int) + contextLines < 2 ^ 63)
    (sections : List ContentSection)
    (hsec : ∀ s ∈ sections, 0 ≤ s.LineNumber ∧ s.LineNumber < (lines.length : Int))
    (expanded : List ContentSection) (used : List Int) :
    ∀ e ∈ expandLoop lines contextLines sections expanded used,
      e ∈ expanded ∨ ∃ sec ∈ sections,
        e.LineNumber = max 0 (sec.LineNumber - contextLines) ∧
        e.EndLine = min (lines.length : Int) (sec.LineNumber + contextLines + 1) - 1 ∧
        e.Score = sec.Score ∧
        e.Content = strings.Join
          ((lines.drop (max 0 (sec.LineNumber - contextLines)).toNat).take
            (min (lines.length : Int) (sec.LineNumber + contextLines + 1) -
              max 0 (sec.LineNumber - contextLines)).toNat) ['\n'] := by
  induction sections generalizing expanded used with
  | nil =>
    intro e he
    exact Or.inl he
  | cons sec rest ih =>
    obtain ⟨hs0, hs1⟩ := hsec sec (List.mem_cons_self _ _)
    have hrest : ∀ s ∈ rest, 0 ≤ s.LineNumber ∧ s.LineNumber < (lines.length : Int) :=
      fun s hs => hsec s (List.mem_cons_of_mem _ hs)
    have hlen : (0 : Int) ≤ (lines.length : Int) := Int.natCast_nonneg _
    norm_num at hno
    have e1 : wrapInt (sec.LineNumber - contextLines) = sec.LineNumber - contextLines :=
      wrapInt_eq _ (by norm_num; omega) (by norm_num; omega)
    have e2 : wrapInt (sec.LineNumber + contextLines) = sec.LineNumber + contextLines :=
      wrapInt_eq _ (by norm_num; omega) (by norm_num; omega)
    have e3 : wrapInt (sec.LineNumber + contextLines + 1) = sec.LineNumber + contextLines + 1 :=
      wrapInt_eq _ (by norm_num; omega) (by norm_num; omega)
    have e4 : wrapInt (min (lines.length : Int) (sec.LineNumber + contextLines + 1) - 1) =
        min (lines.length : Int) (sec.LineNumber + contextLines + 1) - 1 :=
      wrapInt_eq _ (by norm_num; omega) (by norm_num; omega)
    have hih : ∀ (expanded2 : List ContentSection) (used2 : List Int),
        ∀ e ∈ expandLoop lines contextLines rest expanded2 used2,
          e ∈ expanded2 ∨ ∃ sec2 ∈ sec :: rest,
            e.LineNumber = max 0 (sec2.LineNumber - contextLines) ∧
            e.EndLine = min (lines.length : Int) (sec2.LineNumber + contextLines + 1) - 1 ∧
            e.Score = sec2.Score ∧
            e.Content = strings.Join
              ((lines.drop (max 0 (sec2.LineNumber - contextLines)).toNat).take
                (min (lines.length : Int) (sec2.LineNumber + contextLines + 1) -
                  max 0 (sec2.LineNumber - contextLines)).toNat) ['\n'] := by
      intro expanded2 used2 e he
      rcases ih hrest expanded2 used2 e he with h | ⟨s2, hs2, h⟩
      · exact Or.inl h
      · exact Or.inr ⟨s2, List.mem_cons_of_mem _ hs2, h⟩
    intro e he
    unfold expandLoop at he
    simp only [e1, e2, e3, maxInt_eq, minInt_eq, e4] at he
    split_ifs at he with h5 hov
    · exact Or.inl he
    · rcases hih _ _ e he with h | h
      · rcases List.mem_append.mp h with h2 | h2
        · exact Or.inl h2
        · right
          refine ⟨sec, List.mem_cons_self _ _, ?_⟩
          rw [List.mem_singleton.mp h2]
          refine ⟨rfl, rfl, rfl, ?_⟩
          simp only
          rw [window_lines lines _ _ (le_max_left _ _) (min_le_left _ _)]
      · exact Or.inr h
    · exact hih _ _ e he

theorem sortedSections_mem (queryTerms : List GoString) (lines : List GoString)
    (s : ContentSection) :
    s ∈ sort.Slice (scoreLines queryTerms 0 lines) (fun a b => decide (a.Score > b.Score)) ↔
      ∃ j : Nat, j < lines.length ∧ 0 < scoreLineRelevance (lines.getD j []) queryTerms ∧
        s = { LineNumber := (j : Int), EndLine := 0,
              Score := scoreLineRelevance (lines.getD j []) queryTerms,
              Content := lines.getD j [] } := by
  rw [(sortSlice_perm _ _).mem_iff, mem_scoreLines]
  simp only [Nat.zero_add]

/-- C25 (the claim as worded fails on a 64-bit `int`): for the one-line content `a`, the
term `a` and the half-width `W = 2^63 - 1 ≥ 0`, the sum `0 + W + 1` wraps around to
`-2^63`; the section returned for line 0 has `EndLine = 2^63 - 1`, which is not
`min(1, 0 + W + 1) - 1 = 0` and not below the line count 1, and its content is empty
instead of the line `a`. -/
theorem section_window_wraps_on_overflow :
    (0 : Int) ≤ 2 ^ 63 - 1 ∧ wrapInt (2 ^ 63 - 1) = 2 ^ 63 - 1 ∧
    strings.Split "a".toList '\n' = ["a".toList] ∧
    scoreLineRelevance "a".toList ["a".toList] = 1 ∧
    findRelevantSections "a".toList ["a".toList] (2 ^ 63 - 1) =
      [{ LineNumber := 0, EndLine := 2 ^ 63 - 1, Score := 1, Content := [] }] ∧
    ¬ ((2 : Int) ^ 63 - 1 = min 1 (0 + (2 ^ 63 - 1) + 1) - 1) ∧
    ¬ ((2 : Int) ^ 63 - 1 < 1) ∧
    strings.Join ((["a".toList].drop 0).take 1) ['\n'] ≠ [] := by
  refine ⟨by decide, by decide!, by decide, by decide!, by decide!, by decide, by decide,
    by decide⟩

/-- C25 (amended): for every content with `n` lines, term list and half-width `W` with
`0 ≤ W` and `n + W < 2^63` (no window bound overflows), every section returned by
`findRelevantSections` stems from a line `i < n` of positive score and has
`LineNumber = max(0, i - W)`, `EndLine = min(n, i + W + 1) - 1`, the score of line `i`,
and as content the lines `LineNumber..EndLine` joined by newlines; hence
`0 ≤ LineNumber ≤ i ≤ EndLine < n` and the section spans at most `2W + 1` lines. For
every `W`, with or without overflow, the returned sections are in non-increasing order
of score. -/
theorem findRelevantSections_windows (content : GoString) (queryTerms : List GoString)
    (contextLines : Int) :
    (0 ≤ contextLines →
      ((strings.Split content '\n').length : Int) + contextLines < 2 ^ 63 →
      ∀ s ∈ findRelevantSections content queryTerms contextLines,
      ∃ i : Nat, i < (strings.Split content '\n').length ∧
        0 < scoreLineRelevance ((strings.Split content '\n').getD i []) queryTerms ∧
        s.LineNumber = max 0 ((i : Int) - contextLines) ∧
        s.EndLine =
          min ((strings.Split content '\n').length : Int) ((i : Int) + contextLines + 1) - 1 ∧
        s.Score = scoreLineRelevance ((strings.Split content '\n').getD i []) queryTerms ∧
        s.Content = strings.Join
          (((strings.Split content '\n').drop s.LineNumber.toNat).take
            (s.EndLine - s.LineNumber + 1).toNat) ['\n'] ∧
        0 ≤ s.LineNumber ∧ s.LineNumber ≤ (i : Int) ∧ (i : Int) ≤ s.EndLine ∧
        s.EndLine < ((strings.Split content '\n').length : Int) ∧
        s.EndLine - s.LineNumber + 1 ≤ 2 * contextLines + 1) ∧
    (findRelevantSections content queryTerms contextLines).Pairwise
      (fun a b => a.Score ≥ b.Score) := by
  constructor
  · intro hW hno s hs
    unfold findRelevantSections expandSectionsWithContext at hs
    simp only at hs
    split_ifs at hs with h0
    · rw [List.length_eq_zero.mp h0] at hs
      cases hs
    · have hsec : ∀ c ∈ sort.Slice (scoreLines queryTerms 0 (strings.Split content '\n'))
          (fun a b => decide (a.Score > b.Score)),
          0 ≤ c.LineNumber ∧ c.LineNumber < ((strings.Split content '\n').length : Int) := by
        intro c hc
        obtain ⟨j, hj, _, hcj⟩ := (sortedSections_mem _ _ c).mp hc
        rw [hcj]
        simp only
        omega
      rcases expandLoop_mem _ _ hW hno _ hsec [] [] s hs with h | ⟨c, hc, h1, h2, h3, h4⟩
      · cases h
      · obtain ⟨j, hj, hpos, hcj⟩ := (sortedSections_mem _ _ c).mp hc
        rw [hcj] at h1 h2 h3 h4
        simp only at h1 h2 h3 h4
        refine ⟨j, hj, hpos, h1, h2, h3, ?_, ?_, ?_, ?_, ?_, ?_⟩
        · rw [h4, h1, h2]
          congr 3
          omega
        · omega
        · omega
        · omega
        · omega
        · omega
  · unfold findRelevantSections expandSectionsWithContext
    simp only
    split_ifs with h0
    · rw [List.length_eq_zero.mp h0]
      exact List.Pairwise.nil
    · exact expandLoop_sorted _ _ _ [] [] (sortSlice_sorted (fun (c : ContentSection) => c.Score) _)
        List.Pairwise.nil (fun e he => by cases he)

theorem findRelevantSections_windows_witness :
    (∀ s ∈ findRelevantSections "a\na b\nc\nd a\n# a".toList ["a".toList, "b".toList] 1,
      ∃ i : Nat, i < (strings.Split "a\na b\nc\nd a\n# a".toList '\n').length ∧
        0 < scoreLineRelevance ((strings.Split "a\na b\nc\nd a\n# a".toList '\n').getD i [])
          ["a".toList, "b".toList] ∧
        s.LineNumber = max 0 ((i : Int) - 1) ∧
        s.EndLine =
          min ((strings.Split "a\na b\nc\nd a\n# a".toList '\n').length : Int)
            ((i : Int) + 1 + 1) - 1 ∧
        s.Score = scoreLineRelevance ((strings.Split "a\na b\nc\nd a\n# a".toList '\n').getD i [])
          ["a".toList, "b".toList] ∧
        s.Content = strings.Join
          (((strings.Split "a\na b\nc\nd a\n# a".toList '\n').drop s.LineNumber.toNat).take
            (s.EndLine - s.LineNumber + 1).toNat) ['\n'] ∧
        0 ≤ s.LineNumber ∧ s.LineNumber ≤ (i : Int) ∧ (i : Int) ≤ s.EndLine ∧
        s.EndLine < ((strings.Split "a\na b\nc\nd a\n# a".toList '\n').length : Int) ∧
        s.EndLine - s.LineNumber + 1 ≤ 2 * 1 + 1) ∧
    (findRelevantSections "a\na b\nc\nd a\n# a".toList ["a".toList, "b".toList] 1).Pairwise
      (fun a b => a.Score ≥ b.Score) ∧
    (findRelevantSections "a\na b".toList ["a".toList, "b".toList] (2 ^ 63 - 2)).Pairwise
      (fun a b => a.Score ≥ b.Score) :=
  ⟨(findRelevantSections_windows "a\na b\nc\nd a\n# a".toList ["a".toList, "b".toList] 1).1
      (by decide) (by decide!),
    (findRelevantSections_windows "a\na b\nc\nd a\n# a".toList ["a".toList, "b".toList] 1).2,
    (findRelevantSections_windows "a\na b".toList ["a".toList, "b".toList] (2 ^ 63 - 2)).2⟩

theorem expandLoop_maximal (lines : List GoString) (contextLines : Int)
    (hW : 0 ≤ contextLines) (hno : (lines.length : Int) + contextLines < 2 ^ 63)
    (sections : List ContentSection)
    (hsec : ∀ s ∈ sections, 0 ≤ s.LineNumber ∧ s.LineNumber < (lines.length : Int))
    (expanded : List ContentSection) (used : List Int)
    (hused : ∀ k ∈ used, ∃ e ∈ expanded, e.LineNumber ≤ k ∧ k ≤ e.EndLine)
    (hlt : (expandLoop lines contextLines sections expanded used).length < 5) :
    ∀ sec ∈ sections, ∃ e ∈ expandLoop lines contextLines sections expanded used,
      ∃ k : Int, max 0 (sec.LineNumber - contextLines) ≤ k ∧
        k < min (lines.length : Int) (sec.LineNumber + contextLines + 1) ∧
        e.LineNumber ≤ k ∧ k ≤ e.EndLine := by
  induction sections generalizing expanded used with
  | nil =>
    intro sec hsec
    cases hsec
  | cons sec rest ih =>
    obtain ⟨hs0, hs1⟩ := hsec sec (List.mem_cons_self _ _)
    have hrest : ∀ s ∈ rest, 0 ≤ s.LineNumber ∧ s.LineNumber < (lines.length : Int) :=
      fun s hs => hsec s (List.mem_cons_of_mem _ hs)
    have hlen : (0 : Int) ≤ (lines.length : Int) := Int.natCast_nonneg _
    norm_num at hno
    have e1 : wrapInt (sec.LineNumber - contextLines) = sec.LineNumber - contextLines :=
      wrapInt_eq _ (by norm_num; omega) (by norm_num; omega)
    have e2 : wrapInt (sec.LineNumber + contextLines) = sec.LineNumber + contextLines :=
      wrapInt_eq _ (by norm_num; omega) (by norm_num; omega)
    have e3 : wrapInt (sec.LineNumber + contextLines + 1) = sec.LineNumber + contextLines + 1 :=
      wrapInt_eq _ (by norm_num; omega) (by norm_num; omega)
    have e4 : wrapInt (min (lines.length : Int) (sec.LineNumber + contextLines + 1) - 1) =
        min (lines.length : Int) (sec.LineNumber + contextLines + 1) - 1 :=
      wrapInt_eq _ (by norm_num; omega) (by norm_num; omega)
    unfold expandLoop at hlt ⊢
    simp only [e1, e2, e3, maxInt_eq, minInt_eq, e4] at hlt ⊢
    split_ifs at hlt ⊢ with h5 hov
    · omega
    · have hused2 : ∀ k ∈ used ++ intRange (max 0 (sec.LineNumber - contextLines))
          (min (lines.length : Int) (sec.LineNumber + contextLines + 1)),
          ∃ e ∈ expanded ++
            [({ LineNumber := max 0 (sec.LineNumber - contextLines),
                Score := sec.Score,
                Content := strings.Join
                  ((intRange (max 0 (sec.LineNumber - contextLines))
                    (min (lines.length : Int) (sec.LineNumber + contextLines + 1))).map
                    (fun i => lines.getD i.toNat [])) ['\n'],
                EndLine := min (lines.length : Int) (sec.LineNumber + contextLines + 1) - 1 } :
              ContentSection)],
            e.LineNumber ≤ k ∧ k ≤ e.EndLine := by
        intro k hk
        rcases List.mem_append.mp hk with h | h
        · obtain ⟨e, he, h1, h2⟩ := hused k h
          exact ⟨e, List.mem_append_left _ he, h1, h2⟩
        · have := (mem_intRange _ _ _).mp h
          refine ⟨_, List.mem_append_right _ (List.mem_singleton_self _), ?_, ?_⟩
          · exact this.1
          · simp only
            omega
      intro s hs
      rcases List.mem_cons.mp hs with h | h
      · subst h
        refine ⟨_, (expandLoop_extends lines contextLines rest _ _).subset
          (List.mem_append_right _ (List.mem_singleton_self _)), s.LineNumber, ?_, ?_, ?_, ?_⟩
        · omega
        · omega
        · simp only
          omega
        · simp only
          omega
      · exact ih hrest _ _ hused2 hlt s h
    · intro s hs
      rcases List.mem_cons.mp hs with h | h
      · subst h
        have hex : ∃ k ∈ intRange (max 0 (s.LineNumber - contextLines))
            (min (lines.length : Int) (s.LineNumber + contextLines + 1)),
            used.contains k = true := by
          simpa using hov
        obtain ⟨k, hk, hc⟩ := hex
        have hku : k ∈ used := by simpa using hc
        obtain ⟨e, he, h1, h2⟩ := hused k hku
        have hkr := (mem_intRange _ _ _).mp hk
        exact ⟨e, (expandLoop_extends lines contextLines rest _ _).subset he, k, hkr.1, hkr.2,
          h1, h2⟩
      · exact ih hrest _ _ hused hlt s h

theorem expandLoop_ne_nil (lines : List GoString) (contextLines : Int)
    (sec : ContentSection) (rest : List ContentSection) :
    expandLoop lines contextLines (sec :: rest) [] [] ≠ [] := by
  unfold expandLoop
  have hlen : ¬ (([] : List ContentSection).length ≥ 5) := by simp
  rw [if_neg hlen]
  have hov : ∀ (r : List Int), (r.any (fun i => ([] : List Int).contains i)) = false := by
    intro r
    simp
  simp only [hov, Bool.not_false, if_true, List.nil_append]
  intro h
  have hp := expandLoop_extends lines contextLines rest
    [({ LineNumber := maxInt 0 (wrapInt (sec.LineNumber - contextLines)),
        Score := sec.Score,
        Content := strings.Join
          ((intRange (maxInt 0 (wrapInt (sec.LineNumber - contextLines)))
            (minInt (lines.length : Int)
              (wrapInt (wrapInt (sec.LineNumber + contextLines) + 1)))).map
            (fun i => lines.getD i.toNat [])) ['\n'],
        EndLine := wrapInt (minInt (lines.length : Int)
          (wrapInt (wrapInt (sec.LineNumber + contextLines) + 1)) - 1) } : ContentSection)]
    (intRange (maxInt 0 (wrapInt (sec.LineNumber - contextLines)))
      (minInt (lines.length : Int) (wrapInt (wrapInt (sec.LineNumber + contextLines) + 1))))
  rw [h] at hp
  exact List.cons_ne_nil _ _ (List.prefix_nil.mp hp)

theorem findRelevantSections_ne_nil_iff (content : GoString) (queryTerms : List GoString)
    (contextLines : Int) :
    findRelevantSections content queryTerms contextLines ≠ [] ↔
      ∃ line ∈ strings.Split content '\n', ∃ t ∈ queryTerms,
        strings.Contains (strings.ToLower line) (strings.ToLower t) = true := by
  have hcand : sort.Slice (scoreLines queryTerms 0 (strings.Split content '\n'))
      (fun a b => decide (a.Score > b.Score)) ≠ [] ↔
      ∃ line ∈ strings.Split content '\n', ∃ t ∈ queryTerms,
        strings.Contains (strings.ToLower line) (strings.ToLower t) = true := by
    constructor
    · intro h
      obtain ⟨c, hc⟩ := List.exists_mem_of_ne_nil _ h
      obtain ⟨j, hj, hpos, _⟩ := (sortedSections_mem _ _ c).mp hc
      refine ⟨(strings.Split content '\n').getD j [], ?_, ?_⟩
      · rw [List.getD_eq_getElem _ _ hj]
        exact List.getElem_mem _
      · exact (occurringTerms_ne_zero_iff _ _).mp ((scoreLineRelevance_pos_iff _ _).mp hpos)
    · rintro ⟨line, hline, ht⟩
      obtain ⟨j, hj, hjl⟩ := List.getElem_of_mem hline
      have hpos : 0 < scoreLineRelevance ((strings.Split content '\n').getD j []) queryTerms := by
        rw [List.getD_eq_getElem _ _ hj, hjl]
        exact (scoreLineRelevance_pos_iff _ _).mpr ((occurringTerms_ne_zero_iff _ _).mpr ht)
      exact List.ne_nil_of_mem ((sortedSections_mem _ _ _).mpr ⟨j, hj, hpos, rfl⟩)
  rw [← hcand]
  unfold findRelevantSections expandSectionsWithContext
  simp only
  split_ifs with h0
  · rw [List.length_eq_zero.mp h0]
  · cases hs : sort.Slice (scoreLines queryTerms 0 (strings.Split content '\n'))
        (fun a b => decide (a.Score > b.Score)) with
    | nil =>
      rw [hs] at h0
      exact absurd rfl h0
    | cons sec rest =>
      constructor
      · intro _
        exact List.cons_ne_nil _ _
      · intro _
        exact expandLoop_ne_nil _ _ sec rest

/-- C27: for every content, term list and integer half-width `W`, `findRelevantSections`
returns a non-empty list if and only if some line of the content contains, after
lower-casing of both, at least one term. Hence, for a readable file,
`ExtractRelevantContent` returns the fallback sample `getContentSample(content, 1000)`
when the normalized term list is empty or no line contains any term, and otherwise the
formatted sections, of which there is at least one. -/
theorem fallback_iff_no_line_matches (ce : ContentExtractor) (filePath query : GoString)
    (contextLines : Int) (content : GoString)
    (hread : ce.fs.readFile filePath = some content) :
    (∀ (queryTerms : List GoString) (W : Int),
      findRelevantSections content queryTerms W ≠ [] ↔
        ∃ line ∈ strings.Split content '\n', ∃ t ∈ queryTerms,
          strings.Contains (strings.ToLower line) (strings.ToLower t) = true) ∧
    ((normalizeQuery query = [] ∨
        ¬ ∃ line ∈ strings.Split content '\n', ∃ t ∈ normalizeQuery query,
          strings.Contains (strings.ToLower line) (strings.ToLower t) = true) →
      ExtractRelevantContent ce filePath query contextLines =
        (getContentSample (utf8 content) 1000).map (fun s => (s, none))) ∧
    (¬ (normalizeQuery query = [] ∨
        ¬ ∃ line ∈ strings.Split content '\n', ∃ t ∈ normalizeQuery query,
          strings.Contains (strings.ToLower line) (strings.ToLower t) = true) →
      findRelevantSections content (normalizeQuery query) contextLines ≠ [] ∧
      ExtractRelevantContent ce filePath query contextLines =
        (formatRelevantSections content
          (findRelevantSections content (normalizeQuery query) contextLines)).map
          (fun s => (s, none))) := by
  refine ⟨fun queryTerms W => findRelevantSections_ne_nil_iff content queryTerms W, ?_, ?_⟩
  · intro h
    unfold ExtractRelevantContent fs.ReadFile
    rw [hread]
    simp only
    rcases h with h | h
    · rw [if_pos (by rw [h]; rfl)]
    · have hnil : findRelevantSections content (normalizeQuery query) contextLines = [] := by
        by_contra hne
        exact h ((findRelevantSections_ne_nil_iff _ _ _).mp hne)
      rw [hnil]
      simp
  · intro h
    rw [not_or, not_not] at h
    have hne := (findRelevantSections_ne_nil_iff content (normalizeQuery query)
      contextLines).mpr h.2
    refine ⟨hne, ?_⟩
    unfold ExtractRelevantContent fs.ReadFile
    rw [hread]
    simp only
    rw [if_neg (fun hl => h.1 (List.length_eq_zero.mp hl)),
      if_neg (fun hl => hne (List.length_eq_zero.mp hl))]

theorem fallback_iff_no_line_matches_witness :
    testFS.readFile "docs/setup.md".toList = some "Setup instructions".toList ∧
    findRelevantSections "Setup instructions".toList (normalizeQuery "setup".toList) 2 ≠ [] ∧
    ExtractRelevantContent { fs := testFS } "docs/setup.md".toList "setup".toList 2 =
      (formatRelevantSections "Setup instructions".toList
        (findRelevantSections "Setup instructions".toList (normalizeQuery "setup".toList) 2)).map
        (fun s => (s, none)) ∧
    ExtractRelevantContent { fs := testFS } "docs/setup.md".toList "billing".toList 2 =
      (getContentSample (utf8 "Setup instructions".toList) 1000).map (fun s => (s, none)) :=
  ⟨by decide,
    ((fallback_iff_no_line_matches { fs := testFS } "docs/setup.md".toList "setup".toList 2
      "Setup instructions".toList (by decide)).2.2 (by decide)).1,
    ((fallback_iff_no_line_matches { fs := testFS } "docs/setup.md".toList "setup".toList 2
      "Setup instructions".toList (by decide)).2.2 (by decide)).2,
    (fallback_iff_no_line_matches { fs := testFS } "docs/setup.md".toList "billing".toList 2
      "Setup instructions".toList (by decide)).2.1 (by decide)⟩

/-- C28 (the claim as worded fails on a 64-bit `int`): for the content `x\na`, the term
`a` and the half-width `W = 2^63 - 1 ≥ 0`, the sum `1 + W` wraps around, the window of
the matching line 1 is empty, and the single section returned has the empty range
`[0, -2^63]`: fewer than 5 sections are returned, line 1 has a positive score, and its
window `[max(0, 1 - W), min(2, 1 + W + 1)) = [0, 2)` shares no line with the range of a
returned section. -/
theorem selection_not_maximal_on_overflow :
    (0 : Int) ≤ 2 ^ 63 - 1 ∧ wrapInt (2 ^ 63 - 1) = 2 ^ 63 - 1 ∧
    strings.Split "x\na".toList '\n' = ["x".toList, "a".toList] ∧
    0 < scoreLineRelevance "a".toList ["a".toList] ∧
    findRelevantSections "x\na".toList ["a".toList] (2 ^ 63 - 1) =
      [{ LineNumber := 0, EndLine := -2 ^ 63, Score := 1, Content := [] }] ∧
    (findRelevantSections "x\na".toList ["a".toList] (2 ^ 63 - 1)).length < 5 ∧
    ¬ ∃ s ∈ findRelevantSections "x\na".toList ["a".toList] (2 ^ 63 - 1),
      ∃ k : Int, max 0 (1 - (2 ^ 63 - 1)) ≤ k ∧ k < min 2 (1 + (2 ^ 63 - 1) + 1) ∧
        s.LineNumber ≤ k ∧ k ≤ s.EndLine := by
  have hres : findRelevantSections "x\na".toList ["a".toList] (2 ^ 63 - 1) =
      [{ LineNumber := 0, EndLine := -2 ^ 63, Score := 1, Content := [] }] := by decide!
  refine ⟨by decide, by decide!, by decide, by decide!, hres, by rw [hres]; decide, ?_⟩
  rw [hres]
  rintro ⟨s, hs, k, h1, h2, h3, h4⟩
  rw [List.mem_singleton.mp hs] at h3 h4
  simp only at h3 h4
  norm_num at h1 h2 h3 h4
  omega

/-- C28 (amended): for every content with `n` lines, term list and half-width `W` with
`0 ≤ W` and `n + W < 2^63` (no window bound overflows), if `findRelevantSections`
returns fewer than 5 sections, then for every line `i` of positive score the window
`[max(0, i - W), min(n, i + W + 1))` shares a line `k` with the range
`[LineNumber, EndLine]` of some returned section. -/
theorem findRelevantSections_maximal (content : GoString) (queryTerms : List GoString)
    (contextLines : Int) (hW : 0 ≤ contextLines)
    (hno : ((strings.Split content '\n').length : Int) + contextLines < 2 ^ 63)
    (hlt : (findRelevantSections content queryTerms contextLines).length < 5) :
    ∀ i : Nat, i < (strings.Split content '\n').length →
      0 < scoreLineRelevance ((strings.Split content '\n').getD i []) queryTerms →
      ∃ s ∈ findRelevantSections content queryTerms contextLines,
        ∃ k : Int, max 0 ((i : Int) - contextLines) ≤ k ∧
          k < min ((strings.Split content '\n').length : Int) ((i : Int) + contextLines + 1) ∧
          s.LineNumber ≤ k ∧ k ≤ s.EndLine := by
  intro i hi hpos
  have hmem := (sortedSections_mem queryTerms (strings.Split content '\n') _).mpr
    ⟨i, hi, hpos, rfl⟩
  have hsec : ∀ c ∈ sort.Slice (scoreLines queryTerms 0 (strings.Split content '\n'))
      (fun a b => decide (a.Score > b.Score)),
      0 ≤ c.LineNumber ∧ c.LineNumber < ((strings.Split content '\n').length : Int) := by
    intro c hc
    obtain ⟨j, hj, _, hcj⟩ := (sortedSections_mem _ _ c).mp hc
    rw [hcj]
    simp only
    omega
  unfold findRelevantSections expandSectionsWithContext at hlt ⊢
  simp only at hlt ⊢
  split_ifs at hlt ⊢ with h0
  · rw [List.length_eq_zero.mp h0] at hmem
    cases hmem
  · exact expandLoop_maximal _ _ hW hno _ hsec [] [] (fun k hk => by cases hk) hlt _ hmem

theorem findRelevantSections_maximal_witness :
    (findRelevantSections "a\na b\nc\nd a\n# a".toList ["a".toList, "b".toList] 1).length < 5 ∧
    ∀ i : Nat, i < (strings.Split "a\na b\nc\nd a\n# a".toList '\n').length →
      0 < scoreLineRelevance ((strings.Split "a\na b\nc\nd a\n# a".toList '\n').getD i [])
        ["a".toList, "b".toList] →
      ∃ s ∈ findRelevantSections "a\na b\nc\nd a\n# a".toList ["a".toList, "b".toList] 1,
        ∃ k : Int, max 0 ((i : Int) - 1) ≤ k ∧
          k < min ((strings.Split "a\na b\nc\nd a\n# a".toList '\n').length : Int)
            ((i : Int) + 1 + 1) ∧
          s.LineNumber ≤ k ∧ k ≤ s.EndLine :=
  ⟨by decide!, findRelevantSections_maximal "a\na b\nc\nd a\n# a".toList
    ["a".toList, "b".toList] 1 (by decide) (by decide!) (by decide!)⟩

end TextSearch
